import Mathlib

/-!
# Verification of the Protosynthesis block-graph execution engine

This file is a shallow embedding, in Lean 4, of the core data model and
algorithms of the Protosynthesis backend (a visual workflow builder):

* `src/backend/blocks.py` — the `Connector` and `Block` classes
  (port registration, `connect`, `fetch_inputs`, `to_dict`);
* `src/backend/block_types/*.py` — the block variants needed by the claims
  (`StartBlock`, `LogicBlock`, `WaitBlock`, `ReactBlock`);
* `src/backend/project.py` — `Project` (`add_block`, `remove_block`,
  `to_json`, `from_json`);
* `src/backend/main.py` — `execute_graph`, the BFS reachability discovery
  plus Kahn-style topological execution loop that streams events.

Modelling conventions:

* Python dicts are association lists `List (String × α)` with first-match
  lookup; Python's insertion-ordered iteration is the list order.
* Python values flowing through block ports are modelled by `Val`
  (`None`, `bool`, numbers, `str`).  Python `int` and `float` are both
  modelled as exact rationals `Rat`; no claim under proof depends on
  floating-point rounding.  Nested lists/objects do not occur in any claim
  and are omitted from `Val`.
* Mutation of the Python object graph is explicit state passing over a
  `Heap := List Node` of live block objects, keyed by their (uuid) `id`.
  Object identity of `Connector`s (needed by Python's `in` / `list.remove`)
  is modelled by an allocation serial `cid`; `connect` receives the fresh
  serial from its caller, standing in for allocation.
* Exceptions are `Except String`; the string is the Python error text.
-/

namespace Proto

/-- A Python value as it occurs on block ports.  `num` models both Python
`int` and `float` as an exact rational (see file header). -/
inductive Val where
  | none : Val
  | bool (b : Bool) : Val
  | num (q : Rat) : Val
  | str (s : String) : Val
deriving DecidableEq, Repr

/-- A Python dict with `String` keys, in insertion order. -/
abbrev Dict (α : Type) := List (String × α)

/-- `d.get(k)`-style lookup: value of the first entry with key `k`. -/
def dGet? {α : Type} (d : Dict α) (k : String) : Option α :=
  (d.find? (fun kv => kv.1 = k)).map (·.2)

/-- `d.get(k, default)`: lookup with a default. -/
def dGetD {α : Type} (d : Dict α) (k : String) (v : α) : α :=
  (dGet? d k).getD v

/-- `k in d`: key membership. -/
def dHas {α : Type} (d : Dict α) (k : String) : Bool :=
  (dGet? d k).isSome

/-- `d[k] = v`: overwrite the first entry with key `k`, or append a new
entry (Python dict assignment preserves the position of an existing key
and appends a fresh key at the end). -/
def dSet {α : Type} (d : Dict α) (k : String) (v : α) : Dict α :=
  match d with
  | [] => [(k, v)]
  | kv :: rest => if kv.1 = k then (k, v) :: rest else kv :: dSet rest k v

/-- Modify the value at key `k` if present; no change otherwise. -/
def dModify {α : Type} (d : Dict α) (k : String) (f : α → α) : Dict α :=
  match d with
  | [] => []
  | kv :: rest => if kv.1 = k then (k, f kv.2) :: rest else kv :: dModify rest k f

/-- `del d[k]` (first entry only; keys are unique on all states we build). -/
def dDel {α : Type} (d : Dict α) (k : String) : Dict α :=
  match d with
  | [] => []
  | kv :: rest => if kv.1 = k then rest else kv :: dDel rest k

/-- `blocks.py` `Connector`: a directed edge from `source_block`'s output
`source_output_key` to `target_block`'s input `target_input_key`.  Block
object references are modelled by block ids; `cid` is the allocation
serial standing in for Python object identity (two structurally equal
connectors created by two `connect` calls are distinct objects).  The
optional `modifier` transform is not modelled: `from_json` never creates
one and no claim under proof depends on it, so `transfer` is the identity
(`blocks.py` lines 18–21 with `modifier = None`). -/
structure Conn where
  source_id : String
  source_output_key : String
  target_id : String
  target_input_key : String
  cid : Nat
deriving DecidableEq, Repr

/-- Variant configuration of a block: the subclass discriminant together
with the subclass-specific attributes read by `execute` / `to_json`. -/
inductive Cfg where
  | START : Cfg
  | LOGIC (operation : String) : Cfg
  | WAIT (delay : Val) : Cfg
  | REACT (jsx_code css_code : String) : Cfg
deriving DecidableEq, Repr

/-- The state of one `Block` object (`blocks.py` lines 27–51): identity,
position, the input/output value dicts, the connector bindings, the
visibility sets (modelled as lists) and the UI flag, plus the variant
configuration. -/
structure Node where
  id : String
  name : String
  block_type : String
  x : Rat
  y : Rat
  inputs : Dict Val
  outputs : Dict Val
  input_connectors : Dict (Option Conn)
  output_connectors : Dict (List Conn)
  hidden_inputs : List String
  hidden_outputs : List String
  menu_open : Bool
  cfg : Cfg
deriving DecidableEq, Repr

/-- The live Python object graph: every block object, keyed by `Node.id`. -/
abbrev Heap := List Node

/-- Follow a block reference: the (first) block with the given id. -/
def findNode (heap : Heap) (id : String) : Option Node :=
  heap.find? (fun b => b.id = id)

/-- Write back a mutated block object (same id) into the heap. -/
def updateNode (heap : Heap) (n : Node) : Heap :=
  heap.map (fun m => if m.id = n.id then n else m)

/-- The ids of all live blocks. -/
def heapIds (heap : Heap) : List String := heap.map Node.id

/-- All outgoing connectors of a block, in dict-of-lists iteration order
(`for connectors in block.output_connectors.values(): for connector in
connectors`). -/
def Node.allConns (b : Node) : List Conn :=
  (b.output_connectors.map (·.2)).flatten

/-! ## Python value helpers -/

/-- Python truthiness `bool(v)`: `None` and `0` and `""` are falsy. -/
def pyTruthy : Val → Bool
  | Val.none => false
  | Val.bool b => b
  | Val.num q => q ≠ 0
  | Val.str s => s ≠ ""

/-- Parse the fractional digits of a float literal. -/
def fracOfDigits (l : List Char) : Rat :=
  (l.reverse.foldl (fun acc c => (acc + (c.toNat - '0'.toNat : Rat)) / 10) 0)

/-- Parse a decimal integer from digits. -/
def natOfDigits (l : List Char) : Nat :=
  l.foldl (fun acc c => acc * 10 + (c.toNat - '0'.toNat)) 0

/-- `float(s)` on a string: optional surrounding whitespace, optional sign,
digits with an optional fractional part; anything else raises
`ValueError`.  (Exotic forms — exponents, `inf`, `nan` — do not occur in
any claim and are treated as errors.) -/
def pyFloatOfString (s : String) : Except String Rat :=
  let t := s.toList.dropWhile (· = ' ') |>.reverse.dropWhile (· = ' ') |>.reverse
  let (sign, t) := match t with
    | '-' :: rest => ((-1 : Rat), rest)
    | '+' :: rest => ((1 : Rat), rest)
    | _ => ((1 : Rat), t)
  let intPart := t.takeWhile (·.isDigit)
  let rest := t.dropWhile (·.isDigit)
  let ok : Bool :=
    match rest with
    | [] => intPart ≠ []
    | '.' :: frac => (intPart ≠ [] ∨ frac ≠ []) ∧ frac.all (·.isDigit)
    | _ => false
  if ok then
    let frac : Rat := match rest with
      | '.' :: fr => fracOfDigits fr
      | _ => 0
    Except.ok (sign * ((natOfDigits intPart : Rat) + frac))
  else
    Except.error ("ValueError: could not convert string to float: '" ++ s ++ "'")

/-- Python `float(v)`: numbers unchanged, `bool` to `0`/`1`, strings
parsed, `None` raises `TypeError`. -/
def pyFloat : Val → Except String Rat
  | Val.none => Except.error "TypeError: float() argument must not be None"
  | Val.bool b => Except.ok (if b then 1 else 0)
  | Val.num q => Except.ok q
  | Val.str s => pyFloatOfString s

/-- Python `str(v)`.  For numbers, integral rationals print as Python
floats do after arithmetic (`10.0`); non-integral values use the rational
literal, which is only reached by values no claim inspects. -/
def pyStr : Val → String
  | Val.none => "None"
  | Val.bool b => if b then "True" else "False"
  | Val.num q => if q.den = 1 then (toString q.num) ++ ".0" else toString q
  | Val.str s => s

/-- Python `==` on the values of `Val` (`10 == 10.0`, `True == 1`;
values of different "shape" compare unequal, `None` only to itself). -/
def pyEq : Val → Val → Bool
  | Val.none, Val.none => true
  | Val.bool a, Val.bool b => a = b
  | Val.bool a, Val.num q => (if a then (1 : Rat) else 0) = q
  | Val.num q, Val.bool b => q = (if b then (1 : Rat) else 0)
  | Val.num a, Val.num b => a = b
  | Val.str a, Val.str b => a = b
  | _, _ => false

/-! ## `blocks.py`: port registration and keyword-argument binding

`Block.register_input(self, key, default_value=None, hidden=False)`
(lines 53–58) and `Block.register_output(self, key, hidden=False)`
(lines 60–65).  Neither accepts a `data_type` (or `placeholder`,
`description`, …) parameter, while every block-variant constructor under
`block_types/` calls them with such keywords; Python then raises
`TypeError` at the call.  We model the call sites faithfully: a register
call carries its keyword-argument list, and binding fails on any keyword
that is not a declared parameter. -/

/-- Semantics of a successfully bound `register_input` call
(`blocks.py` lines 53–58). -/
def register_input (b : Node) (key : String) (default_value : Val)
    (hidden : Bool) : Node :=
  { b with
    inputs := dSet b.inputs key default_value
    input_connectors := dSet b.input_connectors key Option.none
    hidden_inputs := if hidden then b.hidden_inputs ++ [key] else b.hidden_inputs }

/-- Semantics of a successfully bound `register_output` call
(`blocks.py` lines 60–65). -/
def register_output (b : Node) (key : String) (hidden : Bool) : Node :=
  { b with
    outputs := dSet b.outputs key Val.none
    output_connectors := dSet b.output_connectors key []
    hidden_outputs := if hidden then b.hidden_outputs ++ [key] else b.hidden_outputs }

/-- A `self.register_input(key, **kwargs)` call site: Python binds each
keyword against the declared parameters `default_value` and `hidden`, and
raises `TypeError` on any other keyword. -/
def callRegisterInput (b : Node) (key : String) (kwargs : Dict Val) :
    Except String Node :=
  match kwargs.find? (fun kv => kv.1 ≠ "default_value" ∧ kv.1 ≠ "hidden") with
  | Option.some kv =>
      Except.error ("TypeError: register_input() got an unexpected keyword argument '"
        ++ kv.1 ++ "'")
  | Option.none =>
      Except.ok (register_input b key (dGetD kwargs "default_value" Val.none)
        (pyTruthy (dGetD kwargs "hidden" (Val.bool false))))

/-- A `self.register_output(key, **kwargs)` call site: the only declared
keyword parameter is `hidden`. -/
def callRegisterOutput (b : Node) (key : String) (kwargs : Dict Val) :
    Except String Node :=
  match kwargs.find? (fun kv => kv.1 ≠ "hidden") with
  | Option.some kv =>
      Except.error ("TypeError: register_output() got an unexpected keyword argument '"
        ++ kv.1 ++ "'")
  | Option.none =>
      Except.ok (register_output b key
        (pyTruthy (dGetD kwargs "hidden" (Val.bool false))))

/-- `Block.__init__` (`blocks.py` lines 27–51).  `uuid.uuid4()` is modelled
by the caller-supplied fresh `id`. -/
def blockInit (id name block_type : String) (x y : Rat) (cfg : Cfg) : Node :=
  { id := id, name := name, block_type := block_type, x := x, y := y
    inputs := [], outputs := []
    input_connectors := [], output_connectors := []
    hidden_inputs := [], hidden_outputs := []
    menu_open := false, cfg := cfg }

/-- `StartBlock.__init__` (`block_types/start_block.py` lines 8–10):
`super().__init__` then `self.register_output("start_signal",
data_type="boolean")`. -/
def StartBlock_init (id name : String) (x y : Rat) : Except String Node := do
  let b := blockInit id name "START" x y Cfg.START
  callRegisterOutput b "start_signal" [("data_type", Val.str "boolean")]

/-- `LogicBlock.__init__` (`block_types/logic_block.py` lines 7–15). -/
def LogicBlock_init (id name operation : String) (x y : Rat) :
    Except String Node := do
  let b := blockInit id name "LOGIC" x y (Cfg.LOGIC operation)
  let b ← callRegisterInput b "val_a" [("data_type", Val.str "any")]
  let b ← callRegisterInput b "val_b" [("data_type", Val.str "any")]
  let b ← callRegisterOutput b "result" [("data_type", Val.str "any")]
  let b ← callRegisterOutput b "if_true" [("data_type", Val.str "boolean")]
  callRegisterOutput b "if_false" [("data_type", Val.str "boolean")]

/-- `WaitBlock.__init__` (`block_types/wait_block.py` lines 8–13). -/
def WaitBlock_init (id name : String) (delay : Val) (x y : Rat) :
    Except String Node := do
  let b := blockInit id name "WAIT" x y (Cfg.WAIT delay)
  let b ← callRegisterInput b "trigger"
    [("data_type", Val.str "any"), ("hidden", Val.bool true)]
  callRegisterOutput b "done" [("data_type", Val.str "boolean")]

/-- `ReactBlock.__init__` (`block_types/react_block.py` lines 8–15). -/
def ReactBlock_init (id name jsx_code css_code : String) (x y : Rat) :
    Except String Node := do
  let b := blockInit id name "REACT" x y (Cfg.REACT jsx_code css_code)
  let b ← callRegisterInput b "data_in" [("data_type", Val.str "any")]
  callRegisterOutput b "data_out" [("data_type", Val.str "any")]

/-! ## `blocks.py`: `connect` and `fetch_inputs` -/

/-- `Block.connect(self, output_key, target_block, input_key)` (`blocks.py`
lines 83–93), lifted to explicit heap passing.  `source_id`/`target_id`
stand for the `self`/`target_block` object references (the lookups cannot
fail in Python; theorems assume they resolve).  `cid` is the fresh
allocation serial of the new `Connector`.  On success the connector is
appended to the source's `output_connectors[output_key]` list and
overwrites `target.input_connectors[input_key]`; nothing else changes —
in particular a previously bound connector on that input is *not* removed
from its own source's outgoing list. -/
def connect (heap : Heap) (source_id output_key target_id input_key : String)
    (cid : Nat) : Except String Heap :=
  match findNode heap source_id, findNode heap target_id with
  | Option.some source, Option.some target =>
      if ¬ dHas source.outputs output_key then
        Except.error ("Output '" ++ output_key ++ "' not found in block '"
          ++ source.name ++ "'")
      else if ¬ dHas target.inputs input_key then
        Except.error ("Input '" ++ input_key ++ "' not found in target block '"
          ++ target.name ++ "'")
      else
        match dGet? source.output_connectors output_key with
        | Option.none =>
            -- `self.output_connectors[output_key]` raises `KeyError` when the
            -- key is missing (possible only on states where `outputs` and
            -- `output_connectors` have drifted apart).
            Except.error ("KeyError: '" ++ output_key ++ "'")
        | Option.some l =>
            let conn : Conn := ⟨source_id, output_key, target_id, input_key, cid⟩
            let outc := dSet source.output_connectors output_key (l ++ [conn])
            let heap1 := updateNode heap { source with output_connectors := outc }
            match findNode heap1 target_id with
            | Option.some target1 =>
                let inc := dSet target1.input_connectors input_key (Option.some conn)
                Except.ok (updateNode heap1 { target1 with input_connectors := inc })
            | Option.none => Except.error "unreachable: target vanished"
  | _, _ => Except.error "unreachable: dangling block reference"

/-- `Block.fetch_inputs` (`blocks.py` lines 95–104): for every input with a
bound connector, read the connector's source block's *current* output
value for that key (`.get`, so `None` when absent) and write it into this
block's input dict.  `connector.transfer` is the identity (no modifier, see
`Conn`). -/
def fetch_inputs (heap : Heap) (b : Node) : Node :=
  let newInputs :=
    b.input_connectors.foldl
      (fun inputs kv =>
        match kv.2 with
        | Option.some c =>
            let source_data :=
              match findNode heap c.source_id with
              | Option.some s => dGetD s.outputs c.source_output_key Val.none
              | Option.none => Val.none  -- unreachable: references resolve
            dSet inputs kv.1 source_data
        | Option.none => inputs)
      b.inputs
  { b with inputs := newInputs }

/-! ## Block variant `execute` methods -/

/-- `StartBlock.execute` (`block_types/start_block.py` lines 12–16):
`self.outputs["start_signal"] = True`. -/
def startExecute (outputs : Dict Val) : Dict Val :=
  dSet outputs "start_signal" (Val.bool true)

/-- The arithmetic/comparison/logic dispatch of `LogicBlock.execute`
(`block_types/logic_block.py` lines 21–53): the entire `try` body; any
raised exception is caught by the bare `except` which sets `result` to
`None`.  Returns the value of `outputs["result"]`. -/
def logicResult (operation : String) (val_a val_b : Val) : Val :=
  let attempt : Except String Val :=
    if operation = "add" then
      -- inner try: float coercion, falling back to string concatenation
      match pyFloat val_a, pyFloat val_b with
      | Except.ok a, Except.ok b => Except.ok (Val.num (a + b))
      | _, _ => Except.ok (Val.str (pyStr val_a ++ pyStr val_b))
    else if operation = "subtract" then do
      let a ← pyFloat val_a; let b ← pyFloat val_b
      Except.ok (Val.num (a - b))
    else if operation = "multiply" then do
      let a ← pyFloat val_a; let b ← pyFloat val_b
      Except.ok (Val.num (a * b))
    else if operation = "divide" then do
      let a ← pyFloat val_a; let b ← pyFloat val_b
      if b = 0 then Except.error "float division by zero"
      else Except.ok (Val.num (a / b))
    else if operation = "equals" then
      Except.ok (Val.bool (pyEq val_a val_b))
    else if operation = "not_equals" then
      Except.ok (Val.bool (¬ pyEq val_a val_b))
    else if operation = "greater_than" then do
      let a ← pyFloat val_a; let b ← pyFloat val_b
      Except.ok (Val.bool (b < a))
    else if operation = "less_than" then do
      let a ← pyFloat val_a; let b ← pyFloat val_b
      Except.ok (Val.bool (a < b))
    else if operation = "and" then
      Except.ok (Val.bool (pyTruthy val_a ∧ pyTruthy val_b))
    else if operation = "or" then
      Except.ok (Val.bool (pyTruthy val_a ∨ pyTruthy val_b))
    else
      Except.ok Val.none
  match attempt with
  | Except.ok v => v
  | Except.error _ => Val.none   -- the bare `except:` at line 52

/-- `LogicBlock.execute` (`block_types/logic_block.py` lines 17–58): reads
`val_a`/`val_b` with `.get`, computes `result` (exceptions swallowed),
then sets the `if_true`/`if_false` convenience outputs from the
truthiness of `result`.  Never raises. -/
def logicExecute (operation : String) (inputs outputs : Dict Val) : Dict Val :=
  let val_a := dGetD inputs "val_a" Val.none
  let val_b := dGetD inputs "val_b" Val.none
  let result := logicResult operation val_a val_b
  let outputs := dSet outputs "result" result
  let outputs := dSet outputs "if_true" (Val.bool (pyTruthy result))
  dSet outputs "if_false" (Val.bool (¬ pyTruthy result))

/-- `WaitBlock.execute` (`block_types/wait_block.py` lines 15–18):
`time.sleep(float(self.delay))` — `float` raises on a malformed delay;
the sleep itself only suspends the thread and has no effect on block
state, so it is not otherwise modelled — then `outputs["done"] = True`. -/
def waitExecute (delay : Val) (outputs : Dict Val) : Except String (Dict Val) := do
  let _ ← pyFloat delay
  Except.ok (dSet outputs "done" (Val.bool true))

/-- The dynamic dispatch `current_block.execute()` for the modelled
variants.  Per the `Block.execute` contract (`blocks.py` lines 106–112) an
`execute` method reads `self.inputs` and writes `self.outputs`, so it is a
function from the block state to new outputs (or a raised exception).
`ReactBlock.execute` is a server-side no-op (`react_block.py` lines
17–21). -/
def dispatchExecute (b : Node) : Except String (Dict Val) :=
  match b.cfg with
  | Cfg.START => Except.ok (startExecute b.outputs)
  | Cfg.LOGIC operation => Except.ok (logicExecute operation b.inputs b.outputs)
  | Cfg.WAIT delay => waitExecute delay b.outputs
  | Cfg.REACT _ _ => Except.ok b.outputs

/-! ## `main.py`: `execute_graph`

`execute_graph(start_blocks, all_blocks_map)` (lines 46–129) is a
generator: BFS discovery of the reachable subgraph, in-degree/adjacency
construction restricted to it, then Kahn-style execution emitting one
`start` plus one `progress`-or-`error` event per executed block and a
final `complete` event.  (`all_blocks_map` is never read by the body.)

The Python `while` loops are modelled with explicit fuel; `execute_graph`
below invokes them with a fuel that is proved sufficient
(`execute_graph` never actually runs out: see the C10 theorem).

An `execF` parameter stands for the dynamically dispatched
`current_block.execute()` (the class hierarchy is open in Python);
concrete runs instantiate it with `dispatchExecute`. -/

/-- One streamed event (the `json.dumps`-ed payloads of lines 90–95,
104–111, 116–121 and 129, modelled structurally). -/
inductive Event where
  | start (block_id block_type : String) (inputs : Dict Val) : Event
  | progress (block_id name block_type : String) (outputs inputs : Dict Val) : Event
  | error (block_id name error : String) : Event
  | complete : Event
deriving DecidableEq, Repr

/-- The block id an event reports on (`complete` carries none). -/
def eventId : Event → Option String
  | Event.start id _ _ => Option.some id
  | Event.progress id _ _ _ _ => Option.some id
  | Event.error id _ _ => Option.some id
  | Event.complete => Option.none

/-- The sequence of executed block ids, in order: one per `start` event. -/
def startIds (events : List Event) : List String :=
  events.filterMap (fun ev => match ev with
    | Event.start id _ _ => Option.some id
    | _ => Option.none)

/-- BFS discovery (`main.py` lines 51–61): pop a block, skip it if already
seen, otherwise record it and enqueue every block its connectors target.
`visited` is the insertion-ordered reachable set (Python uses a `set`,
whose iteration order is unspecified; all properties proved are
order-independent). -/
def bfsAux (heap : Heap) : Nat → List Node → List String → Option (List String)
  | _, [], visited => Option.some visited
  | 0, _ :: _, _ => Option.none
  | fuel + 1, b :: queue, visited =>
      if b.id ∈ visited then bfsAux heap fuel queue visited
      else
        bfsAux heap fuel
          (queue ++ b.allConns.filterMap (fun c => findNode heap c.target_id))
          (visited ++ [b.id])

/-- Total number of connectors hanging off the heap's blocks (a fuel
bound). -/
def totalOut (heap : Heap) : Nat :=
  (heap.map (fun b => b.allConns.length)).sum

/-- Sufficient BFS fuel for a queue of `q` blocks over `heap`: each
iteration either discovers a fresh block (at most once per connector
fan-out) or merely pops. -/
def bfsFuel (heap : Heap) (q : Nat) : Nat :=
  q + totalOut heap + 1

/-- Dependency-graph construction over the reachable subgraph (`main.py`
lines 63–76): adjacency lists and in-degrees, both keyed exactly by the
reachable ids; an edge is added per connector whose target is reachable. -/
def buildEdges (heap : Heap) (reach : List String) :
    Dict (List String) × Dict Int :=
  let nodes := reach.filterMap (findNode heap)
  nodes.foldl
    (fun acc b =>
      b.allConns.foldl
        (fun acc c =>
          if c.target_id ∈ reach then
            (dModify acc.1 b.id (fun l => l ++ [c.target_id]),
             dModify acc.2 c.target_id (fun d => d + 1))
          else acc)
        acc)
    (reach.map (fun id => (id, ([] : List String))),
     reach.map (fun id => (id, (0 : Int))))

/-- In-degree decrement and ready-queue propagation (`main.py` lines
123–127): for each neighbor, decrement its in-degree and enqueue it when
the new value is zero. -/
def propagate : List String → Dict Int → List String →
    Dict Int × List String
  | [], inDeg, q => (inDeg, q)
  | n :: ns, inDeg, q =>
      let d := dGetD inDeg n 0 - 1
      propagate ns (dSet inDeg n d) (if d = 0 then q ++ [n] else q)

/-- The Kahn execution loop (`main.py` lines 82–127): dequeue, fetch
inputs, emit `start`, execute (catching failure), emit `progress` or
`error`, then propagate in-degree decrements; on an empty queue emit the
final `complete` (line 129). -/
def runLoop (execF : Node → Except String (Dict Val)) (adj : Dict (List String)) :
    Nat → Heap → List String → Dict Int → List Event →
    Option (List Event × Heap)
  | _, heap, [], _, events => Option.some (events ++ [Event.complete], heap)
  | 0, _, _ :: _, _, _ => Option.none
  | fuel + 1, heap, cid :: rest, inDeg, events =>
      match findNode heap cid with
      | Option.none => Option.none   -- `block_map[id]`: cannot fail in Python
      | Option.some b =>
          let b1 := fetch_inputs heap b
          let heap1 := updateNode heap b1
          let startEv := Event.start b1.id b1.block_type b1.inputs
          let (inDeg', queue') := propagate (dGetD adj cid []) inDeg rest
          match execF b1 with
          | Except.ok outs =>
              let b2 := { b1 with outputs := outs }
              runLoop execF adj fuel (updateNode heap1 b2) queue' inDeg'
                (events ++ [startEv,
                  Event.progress b2.id b2.name b2.block_type b2.outputs b2.inputs])
          | Except.error msg =>
              runLoop execF adj fuel heap1 queue' inDeg'
                (events ++ [startEv, Event.error b1.id b1.name msg])

/-- Sum of the positive parts of the in-degrees (a fuel bound). -/
def degSum (inDeg : Dict Int) : Nat :=
  (inDeg.map (fun kv => kv.2.toNat)).sum

/-- `execute_graph` (`main.py` lines 46–129), composed from the phases
above with proved-sufficient fuel.  Returns the streamed event list
(`none` only on fuel exhaustion, which the C10 theorem rules out). -/
def execute_graph (execF : Node → Except String (Dict Val))
    (start_blocks : List Node) (heap : Heap) : Option (List Event) :=
  match bfsAux heap (bfsFuel heap start_blocks.length) start_blocks [] with
  | Option.none => Option.none
  | Option.some reach =>
      let (adj, inDeg) := buildEdges heap reach
      let ready := (inDeg.filter (fun kv => kv.2 = 0)).map (·.1)
      (runLoop execF adj (ready.length + degSum inDeg + 1) heap ready inDeg
        []).map (·.1)

/-! ## `project.py`: the `Project` aggregate

A project holds a name and the insertion-ordered map id → block; the map
is the heap the project's operations mutate. -/

structure Project where
  name : String
  blocks : Heap
deriving Repr

/-- `Project.add_block` (`project.py` lines 28–30): `self.blocks[block.id]
= block`. -/
def add_block (p : Project) (b : Node) : Project :=
  { p with blocks :=
      if (findNode p.blocks b.id).isSome
      then updateNode p.blocks b
      else p.blocks ++ [b] }

/-- Phase 1 of `Project.remove_block` (`project.py` lines 37–43), one
input slot: remove the bound connector (by object identity) from its
source block's outgoing list — Python indexes
`source.output_connectors[key]`, raising `KeyError` if the key has been
dropped by a reconfiguration; that degenerate state is modelled as a skip
and excluded by the theorems' hypotheses. -/
def disconnectInput (heap : Heap) (kv : String × Option Conn) : Heap :=
  match kv.2 with
  | Option.some c =>
      match findNode heap c.source_id with
      | Option.some source =>
          match dGet? source.output_connectors c.source_output_key with
          | Option.some l =>
              if c ∈ l then
                let outc := dSet source.output_connectors
                  c.source_output_key (l.erase c)
                updateNode heap { source with output_connectors := outc }
              else heap
          | Option.none => heap
      | Option.none => heap
  | Option.none => heap

/-- Phase 2 of `Project.remove_block` (`project.py` lines 45–49), one
outgoing connector: set the target block's input slot for that key to
`None`. -/
def clearTargetSlot (heap : Heap) (c : Conn) : Heap :=
  match findNode heap c.target_id with
  | Option.some target =>
      let inc := dSet target.input_connectors c.target_input_key Option.none
      updateNode heap { target with input_connectors := inc }
  | Option.none => heap

/-- `Project.remove_block` (`project.py` lines 32–51): phase 1 over the
removed block's input slots, phase 2 over its outgoing connectors (as
left by phase 1 — `block` is a live reference), then delete the block
from the map.  A source or target object outside the project map would
still be mutated by Python; the claims only concern blocks in the
project, and the theorems' heaps are closed. -/
def remove_block (p : Project) (block_id : String) : Project :=
  match findNode p.blocks block_id with
  | Option.none => p
  | Option.some block =>
      let heap1 := block.input_connectors.foldl disconnectInput p.blocks
      let block1 := (findNode heap1 block_id).getD block
      let heap2 := block1.allConns.foldl clearTargetSlot heap1
      { p with blocks := heap2.eraseP (fun b => b.id = block_id) }

/-! ## Serialization: `to_json` / `from_json`

JSON documents are modelled structurally by `Doc`; the
`json.dumps`/`json.loads` string round-trip in between is the identity on
such documents (Python dicts keep insertion order) and is not modelled
separately. -/

inductive Doc where
  | null : Doc
  | bool (b : Bool) : Doc
  | num (q : Rat) : Doc
  | str (s : String) : Doc
  | arr (items : List Doc) : Doc
  | obj (fields : List (String × Doc)) : Doc
deriving Repr

/-- Embed a port value into a document. -/
def valToDoc : Val → Doc
  | Val.none => Doc.null
  | Val.bool b => Doc.bool b
  | Val.num q => Doc.num q
  | Val.str s => Doc.str s

/-- Python truthiness of a JSON value. -/
def docTruthy : Doc → Bool
  | Doc.null => false
  | Doc.bool b => b
  | Doc.num q => q ≠ 0
  | Doc.str s => s ≠ ""
  | Doc.arr l => ¬ l.isEmpty
  | Doc.obj l => ¬ l.isEmpty

/-- `d[k]` on a JSON object: `TypeError` on a non-object, `KeyError` on a
missing key. -/
def pyIndex (d : Doc) (k : String) : Except String Doc :=
  match d with
  | Doc.obj fields =>
      match (fields.find? (fun kv => kv.1 = k)).map (·.2) with
      | Option.some v => Except.ok v
      | Option.none => Except.error ("KeyError: '" ++ k ++ "'")
  | _ => Except.error "TypeError: value is not subscriptable"

/-- `d.get(k)` / `d.get(k, default)` — only dicts have `.get`; calling it
on anything else (for instance the *string keys* produced by iterating a
dict) raises `AttributeError`. -/
def pyGet (d : Doc) (k : String) (dflt : Doc) : Except String Doc :=
  match d with
  | Doc.obj fields =>
      Except.ok (((fields.find? (fun kv => kv.1 = k)).map (·.2)).getD dflt)
  | Doc.str _ => Except.error "AttributeError: 'str' object has no attribute 'get'"
  | _ => Except.error "AttributeError: object has no attribute 'get'"

/-- `for x in d`: iterating a list yields its items, iterating a dict
yields its *keys* (as strings); other values are not iterable. -/
def pyIterate (d : Doc) : Except String (List Doc) :=
  match d with
  | Doc.arr items => Except.ok items
  | Doc.obj fields => Except.ok (fields.map (fun kv => Doc.str kv.1))
  | _ => Except.error "TypeError: object is not iterable"

/-- Expect a JSON string (used where the source stores the value into a
typed slot of our model; documents produced by `to_json` always satisfy
this). -/
def expectStr (d : Doc) : Except String String :=
  match d with
  | Doc.str s => Except.ok s
  | _ => Except.error "model: expected a string"

/-- Expect a JSON number, likewise. -/
def expectNum (d : Doc) : Except String Rat :=
  match d with
  | Doc.num q => Except.ok q
  | _ => Except.error "model: expected a number"

/-- Flat document back to a port value (nested lists/objects are outside
the value model; see the file header). -/
def docToVal (d : Doc) : Except String Val :=
  match d with
  | Doc.null => Except.ok Val.none
  | Doc.bool b => Except.ok (Val.bool b)
  | Doc.num q => Except.ok (Val.num q)
  | Doc.str s => Except.ok (Val.str s)
  | _ => Except.error "model: nested input value out of scope"

/-- `Block.to_dict` (`blocks.py` lines 114–129) plus the subclass
overrides (`logic_block.py` lines 60–63, `wait_block.py` lines 20–23,
`react_block.py` lines 58–62).  Note `"inputs"` is serialized as the raw
values *dict*. -/
def to_dict (b : Node) : List (String × Doc) :=
  let base : List (String × Doc) :=
    [("id", Doc.str b.id), ("name", Doc.str b.name),
     ("block_type", Doc.str b.block_type), ("x", Doc.num b.x),
     ("y", Doc.num b.y),
     ("inputs", Doc.obj (b.inputs.map (fun kv => (kv.1, valToDoc kv.2)))),
     ("hidden_inputs", Doc.arr (b.hidden_inputs.map Doc.str)),
     ("hidden_outputs", Doc.arr (b.hidden_outputs.map Doc.str)),
     ("menu_open", Doc.bool b.menu_open)]
  match b.cfg with
  | Cfg.START => base
  | Cfg.LOGIC operation => base ++ [("operation", Doc.str operation)]
  | Cfg.WAIT delay => base ++ [("delay", valToDoc delay)]
  | Cfg.REACT jsx css => base ++ [("jsx_code", Doc.str jsx), ("css_code", Doc.str css)]

/-- The per-variant extra fields `Project.to_json` itself adds
(`project.py` lines 64–80); for the modelled variants these repeat the
`to_dict` overrides, and dict assignment overwrites the identical values. -/
def toJsonExtras (b : Node) (d : List (String × Doc)) : List (String × Doc) :=
  match b.cfg with
  | Cfg.START => d
  | Cfg.LOGIC operation => dSet d "operation" (Doc.str operation)
  | Cfg.WAIT delay => dSet d "delay" (valToDoc delay)
  | Cfg.REACT jsx css =>
      dSet (dSet d "jsx_code" (Doc.str jsx)) "css_code" (Doc.str css)

/-- `Project.to_json` (`project.py` lines 53–97): the project document —
name, serialized blocks, and one connection record per connector found in
the blocks' outgoing lists (modifiers are not serialized, per the
source's own comment). -/
def to_json (p : Project) : Doc :=
  let blocks := p.blocks.map (fun b => Doc.obj (toJsonExtras b (to_dict b)))
  let conns := p.blocks.flatMap (fun b =>
    b.allConns.map (fun c => Doc.obj
      [("source_id", Doc.str c.source_id),
       ("source_output", Doc.str c.source_output_key),
       ("target_id", Doc.str c.target_id),
       ("target_input", Doc.str c.target_input_key)]))
  Doc.obj [("name", Doc.str p.name), ("blocks", Doc.arr blocks),
    ("connections", Doc.arr conns)]

/-- The constructor dispatch of `Project.from_json` (`project.py` lines
118–148).  The four modelled variants call their `__init__` embeddings;
`API`, `TRANSFORM`, `STRING_BUILDER`, `DIALOGUE` and `API_KEY` likewise
all begin by calling `register_input`/`register_output` with a
`data_type` keyword (`api_block.py` line 37, `transform_block.py` lines
46–59, `string_builder_block.py` line 16, `dialogue_block.py` line 12,
`api_key_block.py` line 23) and so raise the same `TypeError`, modelled
summarily.  Any other type tag leaves `block = None` and the entry is
skipped. -/
def dispatchFromJson (b_type : String) (id name : String) (x y : Rat)
    (block_data : Doc) : Except String (Option Node) := do
  if b_type = "START" then
    Except.map Option.some (StartBlock_init id name x y)
  else if b_type = "LOGIC" then do
    let opDoc ← pyGet block_data "operation" (Doc.str "add")
    let operation ← expectStr opDoc
    Except.map Option.some (LogicBlock_init id name operation x y)
  else if b_type = "REACT" then do
    let jsxDoc ← pyGet block_data "jsx_code" (Doc.str "")
    let jsx ← expectStr jsxDoc
    let cssDoc ← pyGet block_data "css_code" (Doc.str "")
    let css ← expectStr cssDoc
    Except.map Option.some (ReactBlock_init id name jsx css x y)
  else if b_type = "WAIT" then do
    let dDoc ← pyGet block_data "delay" (Doc.num 1)
    let delay ← docToVal dDoc
    Except.map Option.some (WaitBlock_init id name delay x y)
  else if b_type = "API" ∨ b_type = "TRANSFORM" ∨ b_type = "STRING_BUILDER"
      ∨ b_type = "DIALOGUE" ∨ b_type = "API_KEY" then
    Except.error "TypeError: register_input() got an unexpected keyword argument 'data_type'"
  else
    Except.ok Option.none

/-- The per-block restoration of `Project.from_json` (`project.py` lines
150–170): preserve the serialized id, restore `menu_open`, the visibility
sets, and the static input values.  The input loop iterates
`block_data["inputs"]` expecting a list of `{key, value}` objects and
calls `.get` on each element — iterating the *dict* that `to_dict`
actually wrote yields plain string keys, on which `.get` raises
`AttributeError`. -/
def restoreBlock (block : Node) (block_data : Doc) : Except String Node := do
  let idDoc ← pyIndex block_data "id"
  let id ← expectStr idDoc
  let menuDoc ← pyGet block_data "menu_open" (Doc.bool false)
  let block := { block with id := id, menu_open := docTruthy menuDoc }
  let block ←
    match block_data with
    | Doc.obj fields =>
        match (fields.find? (fun kv => kv.1 = "hidden_inputs")).map (·.2) with
        | Option.some hd => do
            let items ← pyIterate hd
            let names ← items.mapM expectStr
            Except.ok { block with hidden_inputs := names }
        | Option.none => Except.ok block
    | _ => Except.error "TypeError: value is not subscriptable"
  let block ←
    match block_data with
    | Doc.obj fields =>
        match (fields.find? (fun kv => kv.1 = "hidden_outputs")).map (·.2) with
        | Option.some hd => do
            let items ← pyIterate hd
            let names ← items.mapM expectStr
            Except.ok { block with hidden_outputs := names }
        | Option.none => Except.ok block
    | _ => Except.error "TypeError: value is not subscriptable"
  match block_data with
  | Doc.obj fields =>
      match (fields.find? (fun kv => kv.1 = "inputs")).map (·.2) with
      | Option.some inputsDoc => do
          let items ← pyIterate inputsDoc
          items.foldlM
            (fun block input_data => do
              let keyDoc ← pyGet input_data "key" Doc.null
              let valueDoc ← pyGet input_data "value" Doc.null
              match keyDoc with
              | Doc.str key =>
                  if dHas block.inputs key then do
                    let v ← docToVal valueDoc
                    Except.ok { block with inputs := dSet block.inputs key v }
                  else Except.ok block
              | _ => Except.ok block)
            block
      | Option.none => Except.ok block
  | _ => Except.error "TypeError: value is not subscriptable"

/-- `Project.from_json` (`project.py` lines 99–185): recreate the blocks
through their constructors (restoring id, flags and input values), then
re-create the connections through `connect` (modifiers are skipped, per
the source's comment).  Fresh uuids of the recreated blocks are modelled
by positional ids, immediately overwritten by `restoreBlock`; `connect`'s
allocation serials are `0, 1, 2, …`. -/
def from_json (doc : Doc) : Except String Project := do
  let nameDoc ← pyIndex doc "name"
  let name ← expectStr nameDoc
  let blocksDoc ← pyIndex doc "blocks"
  let blockDatas ← pyIterate blocksDoc
  let blocks ← blockDatas.foldlM
    (fun (blocks : Heap) block_data => do
      let btDoc ← pyGet block_data "block_type" Doc.null
      let btDoc ← if docTruthy btDoc then Except.ok btDoc
                  else pyGet block_data "type" Doc.null
      match btDoc with
      | Doc.str b_type => do
          let nmDoc ← pyIndex block_data "name"
          let nm ← expectStr nmDoc
          let xDoc ← pyGet block_data "x" (Doc.num 0)
          let x ← expectNum xDoc
          let yDoc ← pyGet block_data "y" (Doc.num 0)
          let y ← expectNum yDoc
          let fresh := "uuid-" ++ toString blocks.length
          match ← dispatchFromJson b_type fresh nm x y block_data with
          | Option.some block => do
              let block ← restoreBlock block block_data
              Except.ok (blocks ++ [block])
          | Option.none => Except.ok blocks
      | _ => Except.ok blocks)   -- `if not b_type: continue`
    []
  let connsDoc ← pyIndex doc "connections"
  let connDatas ← pyIterate connsDoc
  let (blocks, _) ← connDatas.foldlM
    (fun (acc : Heap × Nat) conn_data => do
      let sDoc ← pyIndex conn_data "source_id"
      let source_id ← expectStr sDoc
      let tDoc ← pyIndex conn_data "target_id"
      let target_id ← expectStr tDoc
      if (findNode acc.1 source_id).isSome ∧ (findNode acc.1 target_id).isSome
      then do
        let soDoc ← pyIndex conn_data "source_output"
        let source_output ← expectStr soDoc
        let tiDoc ← pyIndex conn_data "target_input"
        let target_input ← expectStr tiDoc
        let blocks ← connect acc.1 source_id source_output target_id
          target_input acc.2
        Except.ok (blocks, acc.2 + 1)
      else Except.ok acc)
    (blocks, 0)
  Except.ok { name := name, blocks := blocks }

/-! ## Concrete fixtures

Block states used by the concrete theorems below.  They are written
directly as the states the engine operates on (the variant constructors
themselves raise `TypeError` on this source tree — see the C5 theorem —
so these literals describe the states the rest of the code is designed
around: ports registered per the variants' declarations). -/

/-- Build a block state with the given ports and wiring. -/
def mkNode (id name block_type : String) (cfg : Cfg) (inputs outputs : Dict Val)
    (inC : Dict (Option Conn)) (outC : Dict (List Conn)) : Node :=
  { id := id, name := name, block_type := block_type, x := 0, y := 0
    inputs := inputs, outputs := outputs
    input_connectors := inC, output_connectors := outC
    hidden_inputs := [], hidden_outputs := [], menu_open := false, cfg := cfg }

/-- A standalone Logic block, `operation="divide"`, `val_a=10`, `val_b=0`
(the spec's Scenario E input). -/
def exDivide : Node :=
  mkNode "l" "Div" "LOGIC" (Cfg.LOGIC "divide")
    [("val_a", Val.num 10), ("val_b", Val.num 0)]
    [("result", Val.none), ("if_true", Val.none), ("if_false", Val.none)]
    [("val_a", Option.none), ("val_b", Option.none)]
    [("result", []), ("if_true", []), ("if_false", [])]

/-- Connector `Greeter.result → B.val_b` for the variable-resolution
scenario. -/
def exConnGB : Conn := ⟨"g", "result", "b", "val_b", 0⟩

/-- A Logic block named `Greeter` whose `add` of `"Hello"` and `""`
produces the string output `result = "Hello"`. -/
def exGreeter : Node :=
  mkNode "g" "Greeter" "LOGIC" (Cfg.LOGIC "add")
    [("val_a", Val.str "Hello"), ("val_b", Val.str "")]
    [("result", Val.none), ("if_true", Val.none), ("if_false", Val.none)]
    [("val_a", Option.none), ("val_b", Option.none)]
    [("result", [exConnGB]), ("if_true", []), ("if_false", [])]

/-- A downstream Logic block whose manually-set `val_a` holds the template
string `"Say: {{Greeter.result}}"` (the spec's P7 input). -/
def exTemplated : Node :=
  mkNode "b" "B" "LOGIC" (Cfg.LOGIC "add")
    [("val_a", Val.str "Say: {{Greeter.result}}"), ("val_b", Val.str "")]
    [("result", Val.none), ("if_true", Val.none), ("if_false", Val.none)]
    [("val_a", Option.none), ("val_b", Option.some exConnGB)]
    [("result", []), ("if_true", []), ("if_false", [])]

/-- Source block `A` with one output port `o` (fan-out examples). -/
def exA : Node :=
  mkNode "A" "A" "REACT" (Cfg.REACT "" "") [] [("o", Val.none)] [] [("o", [])]

/-- A second source block `B2` with one output port `o`. -/
def exB2 : Node := { exA with id := "B2", name := "B2" }

/-- Target block `T` with one input port `i`. -/
def exT : Node :=
  mkNode "T" "T" "REACT" (Cfg.REACT "" "") [("i", Val.none)] []
    [("i", Option.none)] []

/-- Does any `start`/`progress` input or output of the event carry exactly
the string `s`?  (Used to show a resolved value never appears in a
stream.) -/
def evMentionsStr (s : String) : Event → Bool
  | Event.start _ _ inputs => inputs.any (fun kv => kv.2 = Val.str s)
  | Event.progress _ _ _ outputs inputs =>
      outputs.any (fun kv => kv.2 = Val.str s) ∨
      inputs.any (fun kv => kv.2 = Val.str s)
  | _ => false

/-! ## C5 — the port-registration signature mismatch -/

/-- C5: the claim says `register_input`/`register_output` accept the
spec's data-type/metadata parameters and that every variant constructor —
each of which passes `data_type=` — completes without raising.  On this
source tree `blocks.py` declares `register_input(self, key, default_value,
hidden)` and `register_output(self, key, hidden)` with no such parameter,
so each constructor's very first registration call raises `TypeError`:
the code contradicts all of its own call sites (a version slip), so the
claim marks a code bug.  Evaluated here on `StartBlock("Start")`,
`LogicBlock("Logic", "add")`, `WaitBlock("Wait")` and
`ReactBlock("React")`. -/
theorem c5_variant_constructors_raise_type_error :
    StartBlock_init "u0" "Start" 0 0 =
      Except.error "TypeError: register_output() got an unexpected keyword argument 'data_type'" ∧
    LogicBlock_init "u1" "Logic" "add" 0 0 =
      Except.error "TypeError: register_input() got an unexpected keyword argument 'data_type'" ∧
    WaitBlock_init "u2" "Wait" (Val.num 1) 0 0 =
      Except.error "TypeError: register_input() got an unexpected keyword argument 'data_type'" ∧
    ReactBlock_init "u3" "React" "" "" 0 0 =
      Except.error "TypeError: register_input() got an unexpected keyword argument 'data_type'" :=
  ⟨rfl, rfl, rfl, rfl⟩

/-! ## C6 — division by zero is swallowed inside `LogicBlock.execute` -/

/-- C6 (counterexample): at the claim's own input — a Logic block with
`operation="divide"`, `val_a=10`, `val_b=0` — `LogicBlock.execute` does
*not* raise: the `ZeroDivisionError` is caught by the bare `except:` at
`logic_block.py` line 52, `result` is set to `None`, and the method
returns normally, so the scheduler emits a `progress` event (never an
`error` event) for the block and the run completes. -/
theorem c6_divide_by_zero_no_error_event_cex :
    dispatchExecute exDivide =
      Except.ok [("result", Val.none), ("if_true", Val.bool false),
        ("if_false", Val.bool true)] ∧
    execute_graph dispatchExecute [exDivide] [exDivide] =
      Option.some
        [Event.start "l" "LOGIC" [("val_a", Val.num 10), ("val_b", Val.num 0)],
         Event.progress "l" "Div" "LOGIC"
           [("result", Val.none), ("if_true", Val.bool false),
            ("if_false", Val.bool true)]
           [("val_a", Val.num 10), ("val_b", Val.num 0)],
         Event.complete] :=
  ⟨rfl, rfl⟩

/-- C6 (amended): for a Logic block with `operation="divide"`, `val_a=10`,
`val_b=0`, the division error raised at the divide step is caught inside
`LogicBlock.execute`'s own bare `except`, which sets `result = None` (so
`if_true = False`, `if_false = True`); `execute` returns normally and the
scheduler emits a `progress` event for the block — no `error` event
appears in the stream — while the run continues and completes. -/
theorem c6_divide_by_zero_swallowed_amended :
    logicResult "divide" (Val.num 10) (Val.num 0) = Val.none ∧
    dispatchExecute exDivide =
      Except.ok [("result", Val.none), ("if_true", Val.bool false),
        ("if_false", Val.bool true)] ∧
    (execute_graph dispatchExecute [exDivide] [exDivide]).map
        (fun evs => evs.map (fun ev => match ev with
          | Event.error _ _ _ => true
          | _ => false)) =
      Option.some [false, false, false] ∧
    (execute_graph dispatchExecute [exDivide] [exDivide]).map
        (fun evs => evs.getLast?) =
      Option.some (Option.some Event.complete) :=
  ⟨rfl, rfl, rfl, rfl⟩

/-! ## C9 — `from_json ∘ to_json` cannot reproduce a project -/

/-- A project holding a single Start block (no wiring). -/
def exProjStart : Project :=
  { name := "P"
    blocks := [mkNode "s" "Start" "START" Cfg.START []
      [("start_signal", Val.none)] [] [("start_signal", [])]] }

/-- C9: the claim says `from_json (to_json p)` reproduces the block and
connector sets.  On this source tree the round-trip fails for *any*
project with at least one block: `from_json` reconstructs blocks through
the variant constructors, whose registration calls raise `TypeError`
(see C5); and independently `to_json` serializes `"inputs"` as a raw
values *object* while `from_json`'s restore loop iterates it expecting a
list of `{key, value}` records (`.get` on the iterated string keys would
raise `AttributeError`).  The save/load endpoints use the two as a pair,
so the code contradicts its own intent: a code bug.  Evaluated on a
project holding one Start block. -/
theorem c9_round_trip_raises :
    from_json (to_json exProjStart) =
      Except.error "TypeError: register_output() got an unexpected keyword argument 'data_type'" :=
  rfl

/-! ## C7 — `connect` checks keys but does not drop the displaced edge -/

/-- The connector allocated by the first `connect` (A.o → T.i). -/
def exConnAT : Conn := ⟨"A", "o", "T", "i", 0⟩

/-- The connector allocated by the second `connect` (B2.o → T.i). -/
def exConnBT : Conn := ⟨"B2", "o", "T", "i", 1⟩

/-- C7 (counterexample): connect `A.o → T.i`, then `B2.o → T.i`.  The
second connect overwrites `T`'s incoming slot (last connect wins), but
the displaced connector is *not* dropped from `A`'s outgoing list — it
remains reachable from its source endpoint, contrary to the claim's "no
longer reachable from either of its endpoints". -/
theorem c7_displaced_edge_still_at_source_cex :
    (connect [exA, exB2, exT] "A" "o" "T" "i" 0).bind
        (fun h1 => connect h1 "B2" "o" "T" "i" 1) =
      Except.ok
        [{ exA with output_connectors := [("o", [exConnAT])] },
         { exB2 with output_connectors := [("o", [exConnBT])] },
         { exT with input_connectors := [("i", Option.some exConnBT)] }] ∧
    exConnAT ∈ dGetD ({ exA with output_connectors := [("o", [exConnAT])] }
      : Node).output_connectors "o" [] :=
  ⟨rfl, by decide⟩

/-! ## C8 — `remove_block` leaves a displaced connector dangling -/

/-- The project `{A, B2, T}` after `A.o → T.i` then `B2.o → T.i`
(so `T`'s slot holds `exConnBT` and `exConnAT` is displaced but still in
`A`'s outgoing list). -/
def exProjDisplaced : Project :=
  { name := "pr"
    blocks :=
      [{ exA with output_connectors := [("o", [exConnAT])] },
       { exB2 with output_connectors := [("o", [exConnBT])] },
       { exT with input_connectors := [("i", Option.some exConnBT)] }] }

/-- C8 (counterexample): removing `T` from `exProjDisplaced` deletes the
*registered* incoming connector (`exConnBT`) from `B2`'s outgoing list,
but the displaced connector `exConnAT` — which touches the removed block
`T` — survives in `A`'s outgoing list: a dangling connector referencing a
removed block remains reachable from a block still in the project,
contrary to the claim. -/
theorem c8_dangling_connector_after_remove_cex :
    remove_block exProjDisplaced "T" =
      { name := "pr"
        blocks :=
          [{ exA with output_connectors := [("o", [exConnAT])] },
           { exB2 with output_connectors := [("o", [])] }] } ∧
    exConnAT.target_id = "T" ∧
    exConnAT ∈ dGetD ({ exA with output_connectors := [("o", [exConnAT])] }
      : Node).output_connectors "o" [] :=
  ⟨rfl, rfl, by decide⟩

/-! ## Dict lemmas -/

theorem dGet?_dSet_self {α : Type} (d : Dict α) (k : String) (v : α) :
    dGet? (dSet d k v) k = Option.some v := by
  induction d with
  | nil => simp [dSet, dGet?, List.find?]
  | cons kv rest ih =>
      by_cases h : kv.1 = k
      · simp [dSet, h, dGet?, List.find?]
      · simp only [dSet, if_neg h]
        simpa [dGet?, List.find?, h] using ih

theorem dGet?_dSet_ne {α : Type} (d : Dict α) (k k' : String) (v : α)
    (h : k' ≠ k) : dGet? (dSet d k v) k' = dGet? d k' := by
  have hkk : ¬ (k = k') := fun e => h e.symm
  induction d with
  | nil => simp [dSet, dGet?, List.find?, hkk]
  | cons kv rest ih =>
      by_cases hk : kv.1 = k
      · subst hk
        simp [dSet, dGet?, List.find?, hkk]
      · by_cases hk' : kv.1 = k'
        · simp only [dSet, if_neg hk]
          simp [dGet?, List.find?, hk']
        · simp only [dSet, if_neg hk]
          simpa [dGet?, List.find?, hk'] using ih

theorem dGet?_dModify_ne {α : Type} (d : Dict α) (k k' : String) (f : α → α)
    (h : k' ≠ k) : dGet? (dModify d k f) k' = dGet? d k' := by
  induction d with
  | nil => simp [dModify]
  | cons kv rest ih =>
      by_cases hk : kv.1 = k
      · subst hk
        have hkk : ¬ (kv.1 = k') := fun e => h e.symm
        simp [dModify, dGet?, List.find?, hkk]
      · by_cases hk' : kv.1 = k'
        · simp only [dModify, if_neg hk]
          simp [dGet?, List.find?, hk']
        · simp only [dModify, if_neg hk]
          simpa [dGet?, List.find?, hk'] using ih

theorem dGet?_dModify_self {α : Type} (d : Dict α) (k : String) (f : α → α) :
    dGet? (dModify d k f) k = (dGet? d k).map f := by
  induction d with
  | nil => simp [dModify, dGet?, List.find?]
  | cons kv rest ih =>
      by_cases h : kv.1 = k
      · simp [dModify, h, dGet?, List.find?]
      · simp only [dModify, if_neg h]
        simpa [dGet?, List.find?, h] using ih

theorem dModify_keys {α : Type} (d : Dict α) (k : String) (f : α → α) :
    (dModify d k f).map Prod.fst = d.map Prod.fst := by
  induction d with
  | nil => rfl
  | cons kv rest ih =>
      by_cases h : kv.1 = k
      · simp [dModify, h]
      · simp [dModify, h, ih]

theorem dSet_keys_of_has {α : Type} (d : Dict α) (k : String) (v : α)
    (h : dHas d k) : (dSet d k v).map Prod.fst = d.map Prod.fst := by
  induction d with
  | nil => simp [dHas, dGet?, List.find?] at h
  | cons kv rest ih =>
      by_cases hk : kv.1 = k
      · simp [dSet, hk]
      · simp only [dSet, if_neg hk, List.map_cons]
        have h' : dHas rest k := by
          simpa [dHas, dGet?, List.find?, hk] using h
        simp [ih h']

theorem dGet?_isSome_of_mem_keys {α : Type} (d : Dict α) (k : String)
    (h : k ∈ d.map Prod.fst) : ∃ v, dGet? d k = Option.some v := by
  induction d with
  | nil => simp at h
  | cons kv rest ih =>
      by_cases hk : kv.1 = k
      · exact ⟨kv.2, by simp [dGet?, List.find?, hk]⟩
      · simp only [List.map_cons, List.mem_cons] at h
        rcases h with h | h
        · exact absurd h.symm hk
        · rcases ih h with ⟨v, hv⟩
          exact ⟨v, by simpa [dGet?, List.find?, hk] using hv⟩

theorem dGet?_eq_none_of_not_mem {α : Type} (d : Dict α) (k : String)
    (h : k ∉ d.map Prod.fst) : dGet? d k = Option.none := by
  induction d with
  | nil => rfl
  | cons kv rest ih =>
      simp only [List.map_cons, List.mem_cons] at h
      push_neg at h
      have : kv.1 ≠ k := fun e => h.1 e.symm
      simpa [dGet?, List.find?, this] using ih h.2

theorem dGet?_mem_of_some {α : Type} (d : Dict α) (k : String) (v : α)
    (h : dGet? d k = Option.some v) : (k, v) ∈ d := by
  induction d with
  | nil => simp [dGet?, List.find?] at h
  | cons kv rest ih =>
      by_cases hk : kv.1 = k
      · rw [dGet?, List.find?_cons_of_pos _ (by simp [hk])] at h
        simp only [Option.map_some', Option.some.injEq] at h
        have : (k, v) = kv := by
          rcases kv with ⟨k1, v1⟩
          simp only at hk h
          rw [hk, h]
        rw [this]
        exact List.mem_cons_self _ _
      · rw [dGet?, List.find?_cons_of_neg _ (by simp [hk])] at h
        exact List.mem_cons_of_mem _ (ih h)

theorem dGet?_of_mem_nodup {α : Type} (d : Dict α) (k : String) (v : α)
    (hmem : (k, v) ∈ d) (hnd : (d.map Prod.fst).Nodup) :
    dGet? d k = Option.some v := by
  induction d with
  | nil => simp at hmem
  | cons kv rest ih =>
      simp only [List.map_cons, List.nodup_cons] at hnd
      rcases List.mem_cons.mp hmem with h | h
      · subst h
        simp [dGet?, List.find?]
      · have hk : kv.1 ≠ k := by
          intro e
          exact hnd.1 (e ▸ (List.mem_map_of_mem Prod.fst h))
        simpa [dGet?, List.find?, hk] using ih h hnd.2

/-! ## `fetch_inputs` characterization -/

/-- The value `fetch_inputs` reads across a connector. -/
def sourceValue (heap : Heap) (c : Conn) : Val :=
  match findNode heap c.source_id with
  | Option.some s => dGetD s.outputs c.source_output_key Val.none
  | Option.none => Val.none

/-- The entry `fetch_inputs` acts on for key `k`: keyed `k` and bound. -/
def boundAt (k : String) (kv : String × Option Conn) : Bool :=
  kv.1 = k && kv.2.isSome

theorem fetch_inputs_fold (heap : Heap) (l : Dict (Option Conn))
    (inputs : Dict Val) (k : String) :
    dGet? (l.foldl
      (fun inputs kv =>
        match kv.2 with
        | Option.some c =>
            let source_data :=
              match findNode heap c.source_id with
              | Option.some s => dGetD s.outputs c.source_output_key Val.none
              | Option.none => Val.none
            dSet inputs kv.1 source_data
        | Option.none => inputs)
      inputs) k =
    (match l.reverse.find? (boundAt k) with
     | Option.some kv =>
         match kv.2 with
         | Option.some c => Option.some (sourceValue heap c)
         | Option.none => dGet? inputs k
     | Option.none => dGet? inputs k) := by
  induction l generalizing inputs with
  | nil => simp
  | cons kv rest ih =>
      simp only [List.foldl_cons, List.reverse_cons, List.find?_append]
      rw [ih]
      rcases hfind : rest.reverse.find? (boundAt k) with _ | found
      · simp only [Option.none_or]
        rcases hc : kv.2 with _ | c
        · have : boundAt k kv = false := by simp [boundAt, hc]
          simp [hc, List.find?, this]
        · by_cases hk : kv.1 = k
          · have : boundAt k kv = true := by simp [boundAt, hc, hk]
            simp [List.find?, this, hc, hk, dGet?_dSet_self, sourceValue]
          · have : boundAt k kv = false := by simp [boundAt, hk]
            simp [List.find?, this, hc, dGet?_dSet_ne _ _ _ _ (Ne.symm hk)]
      · simp only [Option.or_some]
        rcases hc : found.2 with _ | c
        · have := List.find?_some hfind
          simp [boundAt, hc] at this
        · rcases hc2 : kv.2 with _ | c2
          · rfl
          · rfl

/-- For an input key with no bound connector (absent from the connector
dict, or bound to `None`), `fetch_inputs` leaves the manually-set value
untouched: an unconnected input — a `{{…}}` template string included —
passes through the scheduling step verbatim. -/
theorem fetch_inputs_unconnected (heap : Heap) (b : Node) (k : String)
    (h : ∀ c, (k, Option.some c) ∉ b.input_connectors) :
    dGet? (fetch_inputs heap b).inputs k = dGet? b.inputs k := by
  unfold fetch_inputs
  rw [fetch_inputs_fold]
  rcases hfind : b.input_connectors.reverse.find? (boundAt k) with _ | found
  · simp
  · have hmem := List.mem_reverse.mp (List.mem_of_find?_eq_some hfind)
    have hprop := List.find?_some hfind
    simp only [boundAt, Bool.and_eq_true, decide_eq_true_eq,
      Option.isSome_iff_exists] at hprop
    rcases hprop with ⟨hk, c, hc⟩
    exfalso
    exact h c (by rw [← hk, ← hc]; exact hmem)

/-- For an input key whose (unique) connector entry is bound, the fetched
value is the source block's current output for the connector's source
key. -/
theorem fetch_inputs_connected (heap : Heap) (b : Node) (k : String) (c : Conn)
    (hmem : (k, Option.some c) ∈ b.input_connectors)
    (hnd : (b.input_connectors.map Prod.fst).Nodup) :
    dGet? (fetch_inputs heap b).inputs k = Option.some (sourceValue heap c) := by
  unfold fetch_inputs
  rw [fetch_inputs_fold]
  have hget := dGet?_of_mem_nodup _ _ _ hmem hnd
  rcases hfind : b.input_connectors.reverse.find? (boundAt k) with _ | found
  · exfalso
    have := List.find?_eq_none.mp hfind (k, Option.some c)
      (List.mem_reverse.mpr hmem)
    simp [boundAt] at this
  · have hmem' := List.mem_reverse.mp (List.mem_of_find?_eq_some hfind)
    have hprop := List.find?_some hfind
    simp only [boundAt, Bool.and_eq_true, decide_eq_true_eq] at hprop
    have hk : found.1 = k := hprop.1
    have hfound : dGet? b.input_connectors k = Option.some found.2 := by
      have : (k, found.2) ∈ b.input_connectors := by
        rw [← hk]; exact hmem'
      exact dGet?_of_mem_nodup _ _ _ this hnd
    rw [hget] at hfound
    rcases hc : found.2 with _ | c'
    · rw [hc] at hfound; simp at hfound
    · rw [hc] at hfound
      simp only [Option.some.injEq] at hfound
      simp [hc, hfound]

/-! ## C4 — the scheduler performs no `{{identifier.field}}` resolution -/

/-- The full event stream of running `exGreeter → exTemplated`: block `b`
starts and executes with its template input verbatim. -/
def exC4Events : List Event :=
  [Event.start "g" "LOGIC" [("val_a", Val.str "Hello"), ("val_b", Val.str "")],
   Event.progress "g" "Greeter" "LOGIC"
     [("result", Val.str "Hello"), ("if_true", Val.bool true),
      ("if_false", Val.bool false)]
     [("val_a", Val.str "Hello"), ("val_b", Val.str "")],
   Event.start "b" "LOGIC"
     [("val_a", Val.str "Say: {{Greeter.result}}"), ("val_b", Val.str "Hello")],
   Event.progress "b" "B" "LOGIC"
     [("result", Val.str "Say: {{Greeter.result}}Hello"),
      ("if_true", Val.bool true), ("if_false", Val.bool false)]
     [("val_a", Val.str "Say: {{Greeter.result}}"), ("val_b", Val.str "Hello")],
   Event.complete]

/-- C4 (counterexample): the claim's own P7 scenario — a prior block named
`Greeter` finishes with `result = "Hello"` and the next block's input
holds `"Say: {{Greeter.result}}"`.  The claim says the scheduler resolves
the reference against an accumulated execution context, producing
`"Say: Hello"`.  In `execute_graph` (`main.py` lines 82–127) no such
resolution step and no context exist: block `b` starts and executes with
the template string verbatim, and the resolved string `"Say: Hello"`
appears nowhere in the stream. -/
theorem c4_no_variable_resolution_cex :
    execute_graph dispatchExecute [exGreeter] [exGreeter, exTemplated] =
      Option.some exC4Events ∧
    exC4Events.all (fun ev => ¬ evMentionsStr "Say: Hello" ev) = true :=
  ⟨rfl, by decide⟩

/-- C4 (amended): at each scheduling step the scheduler calls
`fetch_inputs` on the dequeued block and nothing more: an input with no
bound connector — a `{{identifier.field}}` template string included — is
passed to execution verbatim; an input with a bound connector receives its
source block's current output value; and the step emits the `start` event
with exactly the fetched inputs, executes the fetched block, and emits
`progress`/`error`, with no variable-resolution pass and no id- or
name-keyed execution context (outputs are recorded only on the block
itself). -/
theorem c4_scheduler_fetches_inputs_only_amended :
    (∀ (heap : Heap) (b : Node) (k : String),
      (∀ c, (k, Option.some c) ∉ b.input_connectors) →
      dGet? (fetch_inputs heap b).inputs k = dGet? b.inputs k) ∧
    (∀ (heap : Heap) (b : Node) (k : String) (c : Conn),
      (k, Option.some c) ∈ b.input_connectors →
      (b.input_connectors.map Prod.fst).Nodup →
      dGet? (fetch_inputs heap b).inputs k = Option.some (sourceValue heap c)) ∧
    (∀ (execF : Node → Except String (Dict Val)) (adj : Dict (List String))
      (fuel : Nat) (heap : Heap) (cid : String) (rest : List String)
      (inDeg : Dict Int) (events : List Event) (b : Node),
      findNode heap cid = Option.some b →
      runLoop execF adj (fuel + 1) heap (cid :: rest) inDeg events =
        (let b1 := fetch_inputs heap b
         let pq := propagate (dGetD adj cid []) inDeg rest
         match execF b1 with
         | Except.ok outs =>
             runLoop execF adj fuel
               (updateNode (updateNode heap b1) { b1 with outputs := outs })
               pq.2 pq.1
               (events ++ [Event.start b1.id b1.block_type b1.inputs,
                 Event.progress b1.id b1.name b1.block_type outs b1.inputs])
         | Except.error msg =>
             runLoop execF adj fuel (updateNode heap b1) pq.2 pq.1
               (events ++ [Event.start b1.id b1.block_type b1.inputs,
                 Event.error b1.id b1.name msg]))) := by
  refine ⟨fetch_inputs_unconnected, fetch_inputs_connected, ?_⟩
  intro execF adj fuel heap cid rest inDeg events b hfind
  rcases hpq : propagate (dGetD adj cid []) inDeg rest with ⟨inDeg', queue'⟩
  simp only [runLoop, hfind, hpq]

/-- Witness for C4 (amended): instantiated on the concrete `exTemplated`
block — its unconnected `val_a` passes through `fetch_inputs` verbatim,
and its connected `val_b` receives `Greeter`'s current `result` output. -/
theorem c4_scheduler_fetches_inputs_only_amended_witness :
    dGet? (fetch_inputs [exGreeter, exTemplated] exTemplated).inputs "val_a" =
      dGet? exTemplated.inputs "val_a" ∧
    dGet? (fetch_inputs [exGreeter, exTemplated] exTemplated).inputs "val_b" =
      Option.some (sourceValue [exGreeter, exTemplated] exConnGB) := by
  constructor
  · exact c4_scheduler_fetches_inputs_only_amended.1 [exGreeter, exTemplated]
      exTemplated "val_a"
      (by intro c; simp [exTemplated, mkNode])
  · exact c4_scheduler_fetches_inputs_only_amended.2.1 [exGreeter, exTemplated]
      exTemplated "val_b" exConnGB
      (by simp [exTemplated, mkNode]) (by simp [exTemplated, mkNode])

/-! ## Heap lemmas -/

theorem findNode_some {heap : Heap} {id : String} {b : Node}
    (h : findNode heap id = Option.some b) : b ∈ heap ∧ b.id = id := by
  refine ⟨List.mem_of_find?_eq_some h, ?_⟩
  have := List.find?_some h
  simpa using this

theorem findNode_isSome_of_mem {heap : Heap} {id : String}
    (h : id ∈ heapIds heap) : ∃ b, findNode heap id = Option.some b := by
  rcases List.mem_map.mp h with ⟨b, hb, hid⟩
  rcases hfind : findNode heap id with _ | b'
  · exfalso
    have := List.find?_eq_none.mp hfind b hb
    simp [hid] at this
  · exact ⟨b', rfl⟩

theorem findNode_updateNode (heap : Heap) (n : Node) (id : String) :
    findNode (updateNode heap n) id =
      (findNode heap id).map (fun m => if m.id = n.id then n else m) := by
  induction heap with
  | nil => rfl
  | cons m rest ih =>
      by_cases hm : m.id = id
      · by_cases hmn : m.id = n.id
        · have hn : (n.id = id) := by rw [← hmn, hm]
          simp [updateNode, findNode, List.find?, hm, hmn, hn]
        · have hin : ¬ (id = n.id) := fun e => hmn (hm ▸ e)
          simp [updateNode, findNode, List.find?, hm, hmn, hin]
      · by_cases hmn : m.id = n.id
        · have hn : ¬ (n.id = id) := by rw [← hmn]; exact hm
          simp only [updateNode, List.map_cons, if_pos hmn]
          simp only [findNode, List.find?, hm]
          simpa [findNode, List.find?, hn, updateNode] using ih
        · simp only [updateNode, List.map_cons, if_neg hmn]
          simp only [findNode, List.find?, hm]
          simpa [findNode, List.find?, updateNode] using ih

theorem updateNode_heapIds (heap : Heap) (n : Node) :
    heapIds (updateNode heap n) = heapIds heap := by
  unfold heapIds updateNode
  rw [List.map_map]
  apply List.map_congr_left
  intro m _
  by_cases h : m.id = n.id
  · simp [h]
  · simp [h]

/-- The display name of the block with the given id. -/
def nameOf (heap : Heap) (id : String) : Option String :=
  (findNode heap id).map Node.name

theorem nameOf_updateNode (heap : Heap) (n : Node) (id : String)
    (h : ∀ m, findNode heap id = Option.some m → m.id = n.id → m.name = n.name) :
    nameOf (updateNode heap n) id = nameOf heap id := by
  unfold nameOf
  rw [findNode_updateNode]
  rcases hfind : findNode heap id with _ | m
  · rfl
  · by_cases hm : m.id = n.id
    · simp [hm, (h m hfind hm).symm]
    · simp [hm]

/-! ## The connector graph and reachability -/

/-- `u` has a connector to `v` in the object graph: some block object with
id `u` owns a connector targeting `v`. -/
def connEdge (heap : Heap) (u v : String) : Prop :=
  ∃ b ∈ heap, b.id = u ∧ ∃ c ∈ b.allConns, c.target_id = v

/-- `v` lies downstream of `u` (a path of connectors, possibly empty). -/
def Reaches (heap : Heap) (u v : String) : Prop :=
  Relation.ReflTransGen (connEdge heap) u v

/-! ## BFS result lemmas

Each is proved by induction on the fuel, following the three branches of
`bfsAux`. -/

theorem bfs_mono {heap : Heap} :
    ∀ {fuel : Nat} {queue : List Node} {visited reach : List String},
      bfsAux heap fuel queue visited = Option.some reach →
      ∀ id ∈ visited, id ∈ reach := by
  intro fuel
  induction fuel with
  | zero =>
      intro queue visited reach h
      cases queue with
      | nil => cases h; exact fun id h => h
      | cons b q => cases h
  | succ fuel ih =>
      intro queue visited reach h
      cases queue with
      | nil => cases h; exact fun id h => h
      | cons b q =>
          simp only [bfsAux] at h
          by_cases hb : b.id ∈ visited
          · rw [if_pos hb] at h
            exact ih h
          · rw [if_neg hb] at h
            intro id hid
            exact ih h id (List.mem_append.mpr (Or.inl hid))

theorem bfs_nodup {heap : Heap} :
    ∀ {fuel : Nat} {queue : List Node} {visited reach : List String},
      bfsAux heap fuel queue visited = Option.some reach →
      visited.Nodup → reach.Nodup := by
  intro fuel
  induction fuel with
  | zero =>
      intro queue visited reach h hnd
      cases queue with
      | nil => cases h; exact hnd
      | cons b q => cases h
  | succ fuel ih =>
      intro queue visited reach h hnd
      cases queue with
      | nil => cases h; exact hnd
      | cons b q =>
          simp only [bfsAux] at h
          by_cases hb : b.id ∈ visited
          · rw [if_pos hb] at h
            exact ih h hnd
          · rw [if_neg hb] at h
            exact ih h (by simp [List.nodup_append, hnd, hb])

theorem bfs_sub_heap {heap : Heap} :
    ∀ {fuel : Nat} {queue : List Node} {visited reach : List String},
      bfsAux heap fuel queue visited = Option.some reach →
      (∀ b ∈ queue, b ∈ heap) → (∀ id ∈ visited, id ∈ heapIds heap) →
      ∀ id ∈ reach, id ∈ heapIds heap := by
  intro fuel
  induction fuel with
  | zero =>
      intro queue visited reach h _ hv
      cases queue with
      | nil => cases h; exact hv
      | cons b q => cases h
  | succ fuel ih =>
      intro queue visited reach h hq hv
      cases queue with
      | nil => cases h; exact hv
      | cons b q =>
          simp only [bfsAux] at h
          by_cases hb : b.id ∈ visited
          · rw [if_pos hb] at h
            exact ih h (fun x hx => hq x (List.mem_cons_of_mem _ hx)) hv
          · rw [if_neg hb] at h
            refine ih h ?_ ?_
            · intro x hx
              rcases List.mem_append.mp hx with hx | hx
              · exact hq x (List.mem_cons_of_mem _ hx)
              · rcases List.mem_filterMap.mp hx with ⟨c, _, hc⟩
                exact (findNode_some hc).1
            · intro id hid
              rcases List.mem_append.mp hid with hid | hid
              · exact hv id hid
              · simp only [List.mem_singleton] at hid
                subst hid
                exact List.mem_map_of_mem Node.id (hq b (List.mem_cons_self _ _))

theorem bfs_sound {heap : Heap} {S : List Node} :
    ∀ {fuel : Nat} {queue : List Node} {visited reach : List String},
      bfsAux heap fuel queue visited = Option.some reach →
      (∀ b ∈ queue, b ∈ heap) →
      (∀ b ∈ queue, ∃ s ∈ S, Reaches heap s.id b.id) →
      (∀ id ∈ visited, ∃ s ∈ S, Reaches heap s.id id) →
      ∀ id ∈ reach, ∃ s ∈ S, Reaches heap s.id id := by
  intro fuel
  induction fuel with
  | zero =>
      intro queue visited reach h _ _ hv
      cases queue with
      | nil => cases h; exact hv
      | cons b q => cases h
  | succ fuel ih =>
      intro queue visited reach h hqh hq hv
      cases queue with
      | nil => cases h; exact hv
      | cons b q =>
          simp only [bfsAux] at h
          by_cases hb : b.id ∈ visited
          · rw [if_pos hb] at h
            exact ih h (fun x hx => hqh x (List.mem_cons_of_mem _ hx))
              (fun x hx => hq x (List.mem_cons_of_mem _ hx)) hv
          · rw [if_neg hb] at h
            have hbR := hq b (List.mem_cons_self _ _)
            refine ih h ?_ ?_ ?_
            · intro x hx
              rcases List.mem_append.mp hx with hx | hx
              · exact hqh x (List.mem_cons_of_mem _ hx)
              · rcases List.mem_filterMap.mp hx with ⟨c, _, hc⟩
                exact (findNode_some hc).1
            · intro x hx
              rcases List.mem_append.mp hx with hx | hx
              · exact hq x (List.mem_cons_of_mem _ hx)
              · rcases List.mem_filterMap.mp hx with ⟨c, hc, hfind⟩
                rcases hbR with ⟨s, hs, hr⟩
                refine ⟨s, hs, hr.tail ?_⟩
                exact ⟨b, hqh b (List.mem_cons_self _ _), rfl, c, hc,
                  (findNode_some hfind).2.symm⟩
            · intro id hid
              rcases List.mem_append.mp hid with hid | hid
              · exact hv id hid
              · simp only [List.mem_singleton] at hid
                subst hid
                exact hbR

theorem bfs_queue_absorbed {heap : Heap} :
    ∀ {fuel : Nat} {queue : List Node} {visited reach : List String},
      bfsAux heap fuel queue visited = Option.some reach →
      ∀ b ∈ queue, b.id ∈ reach := by
  intro fuel
  induction fuel with
  | zero =>
      intro queue visited reach h
      cases queue with
      | nil => simp
      | cons b q => cases h
  | succ fuel ih =>
      intro queue visited reach h
      cases queue with
      | nil => simp
      | cons b q =>
          simp only [bfsAux] at h
          by_cases hb : b.id ∈ visited
          · rw [if_pos hb] at h
            intro x hx
            rcases List.mem_cons.mp hx with hx | hx
            · subst hx; exact bfs_mono h _ hb
            · exact ih h x hx
          · rw [if_neg hb] at h
            intro x hx
            rcases List.mem_cons.mp hx with hx | hx
            · subst hx
              exact bfs_mono h _ (List.mem_append.mpr (Or.inr (by simp)))
            · exact ih h x (List.mem_append.mpr (Or.inl hx))

theorem bfs_closed {heap : Heap} :
    ∀ {fuel : Nat} {queue : List Node} {visited reach : List String},
      bfsAux heap fuel queue visited = Option.some reach →
      (∀ b ∈ queue, b ∈ heap) → (heapIds heap).Nodup →
      (∀ id ∈ visited, ∀ b ∈ heap, b.id = id → ∀ c ∈ b.allConns, ∀ t : Node,
        findNode heap c.target_id = Option.some t →
        (t.id ∈ visited ∨ ∃ x ∈ queue, x.id = t.id)) →
      ∀ id ∈ reach, ∀ b ∈ heap, b.id = id → ∀ c ∈ b.allConns, ∀ t : Node,
        findNode heap c.target_id = Option.some t → t.id ∈ reach := by
  intro fuel
  induction fuel with
  | zero =>
      intro queue visited reach h _ _ hv
      cases queue with
      | nil =>
          cases h
          intro id hid b hb hbid c hc t ht
          rcases hv id hid b hb hbid c hc t ht with h' | ⟨x, hx, _⟩
          · exact h'
          · cases hx
      | cons b q => cases h
  | succ fuel ih =>
      intro queue visited reach h hq hnd hv
      cases queue with
      | nil =>
          cases h
          intro id hid b hb hbid c hc t ht
          rcases hv id hid b hb hbid c hc t ht with h' | ⟨x, hx, _⟩
          · exact h'
          · cases hx
      | cons b q =>
          simp only [bfsAux] at h
          by_cases hb : b.id ∈ visited
          · rw [if_pos hb] at h
            refine ih h (fun x hx => hq x (List.mem_cons_of_mem _ hx)) hnd ?_
            intro id hid b' hb' hbid c hc t ht
            rcases hv id hid b' hb' hbid c hc t ht with h' | ⟨x, hx, hxid⟩
            · exact Or.inl h'
            · rcases List.mem_cons.mp hx with hx | hx
              · subst hx
                exact Or.inl (hxid ▸ hb)
              · exact Or.inr ⟨x, hx, hxid⟩
          · rw [if_neg hb] at h
            refine ih h ?_ hnd ?_
            · intro x hx
              rcases List.mem_append.mp hx with hx | hx
              · exact hq x (List.mem_cons_of_mem _ hx)
              · rcases List.mem_filterMap.mp hx with ⟨c, _, hc⟩
                exact (findNode_some hc).1
            · intro id hid b' hb' hbid c hc t ht
              rcases List.mem_append.mp hid with hid | hid
              · rcases hv id hid b' hb' hbid c hc t ht with h' | ⟨x, hx, hxid⟩
                · exact Or.inl (List.mem_append.mpr (Or.inl h'))
                · rcases List.mem_cons.mp hx with hx | hx
                  · subst hx
                    exact Or.inl (List.mem_append.mpr (Or.inr (by simp [hxid])))
                  · exact Or.inr ⟨x, List.mem_append.mpr (Or.inl hx), hxid⟩
              · simp only [List.mem_singleton] at hid
                subst hid
                -- the popped block: its targets were just enqueued
                have hbb' : b' = b := by
                  have h1 : b'.id ∈ heapIds heap := List.mem_map_of_mem _ hb'
                  have h2 : b.id ∈ heapIds heap :=
                    List.mem_map_of_mem _ (hq b (List.mem_cons_self _ _))
                  have : b' ∈ heap := hb'
                  exact List.inj_on_of_nodup_map hnd hb'
                    (hq b (List.mem_cons_self _ _)) hbid
                subst hbb'
                refine Or.inr ⟨t, List.mem_append.mpr (Or.inr ?_), rfl⟩
                exact List.mem_filterMap.mpr ⟨c, hc, ht⟩

/-! ## BFS termination -/

/-- Connector count over the not-yet-visited blocks: the BFS measure. -/
def sumConnsUnvisited (heap : Heap) (visited : List String) : Nat :=
  (heap.map (fun x => if x.id ∈ visited then 0 else x.allConns.length)).sum

theorem sumConnsUnvisited_le (heap : Heap) (visited : List String) :
    sumConnsUnvisited heap visited ≤ totalOut heap := by
  unfold sumConnsUnvisited totalOut
  induction heap with
  | nil => simp
  | cons m rest ih =>
      simp only [List.map_cons, List.sum_cons]
      by_cases hm : m.id ∈ visited
      · rw [if_pos hm]; omega
      · rw [if_neg hm]; omega

theorem sumConnsUnvisited_snoc (heap : Heap) (visited : List String) (b : Node)
    (hb : b ∈ heap) (hnv : b.id ∉ visited) (hnd : (heapIds heap).Nodup) :
    sumConnsUnvisited heap (visited ++ [b.id]) + b.allConns.length =
      sumConnsUnvisited heap visited := by
  unfold sumConnsUnvisited
  induction heap with
  | nil => cases hb
  | cons m rest ih =>
      simp only [heapIds, List.map_cons, List.nodup_cons] at hnd
      simp only [List.map_cons, List.sum_cons]
      rcases List.mem_cons.mp hb with hbm | hbm
      · have hrest : rest.map (fun x => if x.id ∈ visited ++ [b.id] then 0
            else x.allConns.length) =
            rest.map (fun x => if x.id ∈ visited then 0 else x.allConns.length) := by
          apply List.map_congr_left
          intro x hx
          have hxb : x.id ≠ b.id := by
            intro e
            rw [hbm] at e
            exact hnd.1 (e ▸ List.mem_map_of_mem Node.id hx)
          have : (x.id ∈ visited ++ [b.id]) ↔ (x.id ∈ visited) := by
            simp [List.mem_append, hxb]
          by_cases hxv : x.id ∈ visited
          · rw [if_pos hxv, if_pos (this.mpr hxv)]
          · rw [if_neg hxv, if_neg (fun h => hxv (this.mp h))]
        have h1 : m.id ∈ visited ++ [b.id] := by
          rw [← hbm]; simp
        have h2 : m.id ∉ visited := hbm ▸ hnv
        rw [if_pos h1, if_neg h2, hrest, ← hbm]
        omega
      · have hmb : m.id ≠ b.id := by
          intro e
          exact hnd.1 (e ▸ List.mem_map_of_mem Node.id hbm)
        have hmem : (m.id ∈ visited ++ [b.id]) ↔ (m.id ∈ visited) := by
          simp [List.mem_append, hmb]
        have hih := ih hbm hnd.2
        by_cases hm : m.id ∈ visited
        · rw [if_pos hm, if_pos (hmem.mpr hm)]
          omega
        · rw [if_neg hm, if_neg (fun h => hm (hmem.mp h))]
          omega

theorem bfs_total {heap : Heap} :
    ∀ {fuel : Nat} {queue : List Node} {visited : List String},
      (∀ x ∈ queue, x ∈ heap) → (heapIds heap).Nodup →
      queue.length + sumConnsUnvisited heap visited < fuel →
      ∃ reach, bfsAux heap fuel queue visited = Option.some reach := by
  intro fuel
  induction fuel with
  | zero =>
      intro queue visited _ _ hlt
      exact absurd hlt (Nat.not_lt_zero _)
  | succ fuel ih =>
      intro queue visited hq hnd hlt
      cases queue with
      | nil => exact ⟨visited, rfl⟩
      | cons b q =>
          simp only [bfsAux]
          by_cases hb : b.id ∈ visited
          · rw [if_pos hb]
            refine ih (fun x hx => hq x (List.mem_cons_of_mem _ hx)) hnd ?_
            simp only [List.length_cons] at hlt
            omega
          · rw [if_neg hb]
            refine ih ?_ hnd ?_
            · intro x hx
              rcases List.mem_append.mp hx with hx | hx
              · exact hq x (List.mem_cons_of_mem _ hx)
              · rcases List.mem_filterMap.mp hx with ⟨c, _, hc⟩
                exact (findNode_some hc).1
            · have hsnoc := sumConnsUnvisited_snoc heap visited b
                (hq b (List.mem_cons_self _ _)) hb hnd
              have htg : (b.allConns.filterMap
                  (fun c => findNode heap c.target_id)).length ≤
                  b.allConns.length := List.length_filterMap_le _ _
              simp only [List.length_append, List.length_cons] at hlt ⊢
              omega

/-! ## Dependency-graph characterization

`buildEdges` is a double fold; we characterize it through the flattened
list of edges it inserts (`main.py` lines 69–76: one edge per connector of
a reachable block whose target is also reachable). -/

/-- One `graph[u].append(v); in_degree[v] += 1` step. -/
def addEdge (acc : Dict (List String) × Dict Int) (u v : String) :
    Dict (List String) × Dict Int :=
  (dModify acc.1 u (fun l => l ++ [v]), dModify acc.2 v (fun d => d + 1))

/-- The edges contributed by one reachable block. -/
def edgesOf (reach : List String) (b : Node) : List (String × String) :=
  (b.allConns.filter (fun c => c.target_id ∈ reach)).map
    (fun c => (b.id, c.target_id))

/-- All dependency edges of the reachable subgraph, in insertion order,
with multiplicity (one per connector). -/
def allEdges (heap : Heap) (reach : List String) : List (String × String) :=
  (reach.filterMap (findNode heap)).flatMap (edgesOf reach)

theorem buildEdges_eq_foldE (heap : Heap) (reach : List String) :
    buildEdges heap reach =
      (allEdges heap reach).foldl (fun acc e => addEdge acc e.1 e.2)
        (reach.map (fun id => (id, ([] : List String))),
         reach.map (fun id => (id, (0 : Int)))) := by
  unfold buildEdges allEdges
  generalize (reach.map (fun id => (id, ([] : List String))),
    reach.map (fun id => (id, (0 : Int)))) = acc0
  induction reach.filterMap (findNode heap) generalizing acc0 with
  | nil => rfl
  | cons b ns ih =>
      simp only [List.foldl_cons, List.flatMap_cons, List.foldl_append]
      rw [← ih]
      congr 1
      unfold edgesOf
      induction b.allConns generalizing acc0 with
      | nil => rfl
      | cons c cs ihc =>
          simp only [List.foldl_cons, List.filter_cons]
          by_cases hc : c.target_id ∈ reach
          · rw [if_pos hc]
            simp only [List.filter_cons, hc, decide_eq_true_eq, if_true]
            simp only [hc, decide_eq_true_eq, ite_true, List.map_cons,
              List.foldl_cons]
            exact ihc _
          · rw [if_neg hc]
            simp only [hc, decide_eq_true_eq, ite_false]
            exact ihc _

theorem foldE_keys (E : List (String × String))
    (acc : Dict (List String) × Dict Int) :
    (E.foldl (fun acc e => addEdge acc e.1 e.2) acc).1.map Prod.fst =
        acc.1.map Prod.fst ∧
    (E.foldl (fun acc e => addEdge acc e.1 e.2) acc).2.map Prod.fst =
        acc.2.map Prod.fst := by
  induction E generalizing acc with
  | nil => exact ⟨rfl, rfl⟩
  | cons e E ih =>
      simp only [List.foldl_cons]
      rcases ih (addEdge acc e.1 e.2) with ⟨h1, h2⟩
      refine ⟨?_, ?_⟩
      · rw [h1]; exact dModify_keys _ _ _
      · rw [h2]; exact dModify_keys _ _ _

theorem foldE_adj (E : List (String × String))
    (acc : Dict (List String) × Dict Int) (u : String) :
    dGetD (E.foldl (fun acc e => addEdge acc e.1 e.2) acc).1 u [] =
      dGetD acc.1 u [] ++
        (if u ∈ acc.1.map Prod.fst
         then (E.filter (fun e => e.1 = u)).map (·.2) else []) := by
  induction E generalizing acc with
  | nil => simp
  | cons e E ih =>
      simp only [List.foldl_cons, List.filter_cons]
      rw [ih (addEdge acc e.1 e.2)]
      have hkeys : (addEdge acc e.1 e.2).1.map Prod.fst = acc.1.map Prod.fst :=
        dModify_keys _ _ _
      rw [hkeys]
      by_cases hmem : u ∈ acc.1.map Prod.fst
      · rw [if_pos hmem, if_pos hmem]
        by_cases he : e.1 = u
        · have : dGetD (addEdge acc e.1 e.2).1 u [] = dGetD acc.1 u [] ++ [e.2] := by
            unfold addEdge dGetD
            rw [he, dGet?_dModify_self]
            rcases dGet?_isSome_of_mem_keys acc.1 u hmem with ⟨l, hget⟩
            rw [hget]
            simp
          rw [this, he]
          simp only [he, List.map_cons]
          rw [List.append_assoc]
          simp
        · have : dGetD (addEdge acc e.1 e.2).1 u [] = dGetD acc.1 u [] := by
            unfold addEdge dGetD
            rw [dGet?_dModify_ne _ _ _ _ (fun h => he h.symm)]
          rw [this]
          simp [he]
      · rw [if_neg hmem, if_neg hmem]
        by_cases he : e.1 = u
        · have : dGetD (addEdge acc e.1 e.2).1 u [] = dGetD acc.1 u [] := by
            unfold addEdge dGetD
            rw [he, dGet?_dModify_self]
            rw [dGet?_eq_none_of_not_mem _ _ hmem]
            rfl
          rw [this]
        · have : dGetD (addEdge acc e.1 e.2).1 u [] = dGetD acc.1 u [] := by
            unfold addEdge dGetD
            rw [dGet?_dModify_ne _ _ _ _ (fun h => he h.symm)]
          rw [this]

theorem foldE_deg (E : List (String × String))
    (acc : Dict (List String) × Dict Int) (v : String) :
    dGetD (E.foldl (fun acc e => addEdge acc e.1 e.2) acc).2 v 0 =
      dGetD acc.2 v 0 +
        (if v ∈ acc.2.map Prod.fst
         then ((E.filter (fun e => e.2 = v)).length : Int) else 0) := by
  induction E generalizing acc with
  | nil => simp
  | cons e E ih =>
      simp only [List.foldl_cons, List.filter_cons]
      rw [ih (addEdge acc e.1 e.2)]
      have hkeys : (addEdge acc e.1 e.2).2.map Prod.fst = acc.2.map Prod.fst :=
        dModify_keys _ _ _
      rw [hkeys]
      by_cases hmem : v ∈ acc.2.map Prod.fst
      · rw [if_pos hmem, if_pos hmem]
        by_cases he : e.2 = v
        · have hstep : dGetD (addEdge acc e.1 e.2).2 v 0 = dGetD acc.2 v 0 + 1 := by
            unfold addEdge dGetD
            rw [he, dGet?_dModify_self]
            rcases dGet?_isSome_of_mem_keys acc.2 v hmem with ⟨d, hget⟩
            rw [hget]
            simp
          rw [hstep]
          simp only [he, decide_eq_true_eq, ite_true, List.length_cons]
          push_cast
          ring
        · have hstep : dGetD (addEdge acc e.1 e.2).2 v 0 = dGetD acc.2 v 0 := by
            unfold addEdge dGetD
            rw [dGet?_dModify_ne _ _ _ _ (fun h => he h.symm)]
          rw [hstep]
          simp [he]
      · rw [if_neg hmem, if_neg hmem]
        by_cases he : e.2 = v
        · have hstep : dGetD (addEdge acc e.1 e.2).2 v 0 = dGetD acc.2 v 0 := by
            unfold addEdge dGetD
            rw [he, dGet?_dModify_self]
            rw [dGet?_eq_none_of_not_mem _ _ hmem]
            rfl
          rw [hstep]
        · have hstep : dGetD (addEdge acc e.1 e.2).2 v 0 = dGetD acc.2 v 0 := by
            unfold addEdge dGetD
            rw [dGet?_dModify_ne _ _ _ _ (fun h => he h.symm)]
          rw [hstep]

theorem keys_init_map {α : Type} (reach : List String) (d : α) :
    (reach.map (fun id => (id, d))).map Prod.fst = reach := by
  induction reach with
  | nil => rfl
  | cons r rest ih => simp [ih]

theorem buildEdges_keys (heap : Heap) (reach : List String) :
    (buildEdges heap reach).1.map Prod.fst = reach ∧
    (buildEdges heap reach).2.map Prod.fst = reach := by
  rw [buildEdges_eq_foldE]
  rcases foldE_keys (allEdges heap reach)
      (reach.map (fun id => (id, ([] : List String))),
       reach.map (fun id => (id, (0 : Int)))) with ⟨h1, h2⟩
  constructor
  · rw [h1]
    exact keys_init_map reach ([] : List String)
  · rw [h2]
    exact keys_init_map reach (0 : Int)

theorem dGetD_init_map {α : Type} (reach : List String) (u : String) (d : α) :
    dGetD (reach.map (fun id => (id, d))) u d = d := by
  induction reach with
  | nil => rfl
  | cons r rest ih =>
      by_cases h : r = u
      · simp [dGetD, dGet?, List.find?, h]
      · simpa [dGetD, dGet?, List.find?, h] using ih

theorem buildEdges_adj (heap : Heap) (reach : List String) (u : String)
    (hu : u ∈ reach) :
    dGetD (buildEdges heap reach).1 u [] =
      ((allEdges heap reach).filter (fun e => e.1 = u)).map (·.2) := by
  rw [buildEdges_eq_foldE, foldE_adj]
  have hmem : u ∈ (reach.map (fun id => (id, ([] : List String)))).map Prod.fst := by
    rw [keys_init_map]; exact hu
  rw [if_pos hmem, dGetD_init_map]
  simp

theorem buildEdges_deg (heap : Heap) (reach : List String) (v : String)
    (hv : v ∈ reach) :
    dGetD (buildEdges heap reach).2 v 0 =
      (((allEdges heap reach).filter (fun e => e.2 = v)).length : Int) := by
  rw [buildEdges_eq_foldE, foldE_deg]
  have hmem : v ∈ (reach.map (fun id => (id, (0 : Int)))).map Prod.fst := by
    rw [keys_init_map]; exact hv
  rw [if_pos hmem, dGetD_init_map]
  simp

theorem allEdges_mem_reach (heap : Heap) (reach : List String) :
    ∀ e ∈ allEdges heap reach, e.1 ∈ reach ∧ e.2 ∈ reach := by
  intro e he
  unfold allEdges at he
  rcases List.mem_flatMap.mp he with ⟨b, hb, hbe⟩
  rcases List.mem_filterMap.mp hb with ⟨id, hid, hfind⟩
  unfold edgesOf at hbe
  rcases List.mem_map.mp hbe with ⟨c, hc, hce⟩
  rcases List.mem_filter.mp hc with ⟨_, htgt⟩
  constructor
  · rw [← hce]
    have := (findNode_some hfind).2
    simpa [this] using hid
  · rw [← hce]
    simpa using htgt

theorem allEdges_connEdge (heap : Heap) (reach : List String) :
    ∀ e ∈ allEdges heap reach, connEdge heap e.1 e.2 := by
  intro e he
  unfold allEdges at he
  rcases List.mem_flatMap.mp he with ⟨b, hb, hbe⟩
  rcases List.mem_filterMap.mp hb with ⟨id, _, hfind⟩
  unfold edgesOf at hbe
  rcases List.mem_map.mp hbe with ⟨c, hc, hce⟩
  exact ⟨b, (findNode_some hfind).1, by rw [← hce], c,
    (List.mem_filter.mp hc).1, by rw [← hce]⟩

theorem connEdge_mem_allEdges (heap : Heap) (reach : List String)
    {u v : String} (hnd : (heapIds heap).Nodup) (hu : u ∈ reach)
    (hv : v ∈ reach) (he : connEdge heap u v) : (u, v) ∈ allEdges heap reach := by
  rcases he with ⟨b, hb, hbid, c, hc, hct⟩
  rcases findNode_isSome_of_mem (List.mem_map_of_mem Node.id hb) with ⟨b', hb'⟩
  have hbb : b' = b := by
    rcases findNode_some hb' with ⟨hb'mem, hb'id⟩
    exact List.inj_on_of_nodup_map hnd hb'mem hb hb'id
  subst hbb
  unfold allEdges
  refine List.mem_flatMap.mpr ⟨b', ?_, ?_⟩
  · refine List.mem_filterMap.mpr ⟨u, ?_, ?_⟩
    · exact hbid ▸ hu
    · rw [← hbid]; exact hb'
  · unfold edgesOf
    refine List.mem_map.mpr ⟨c, ?_, ?_⟩
    · exact List.mem_filter.mpr ⟨hc, by simp [hct, hv]⟩
    · simp [hbid, hct]

/-! ## `propagate` characterization -/

theorem dHas_of_mem_keys {α : Type} (d : Dict α) (k : String)
    (h : k ∈ d.map Prod.fst) : dHas d k := by
  rcases dGet?_isSome_of_mem_keys d k h with ⟨v, hv⟩
  simp [dHas, hv]

theorem dGetD_dSet_self {α : Type} (d : Dict α) (k : String) (v w : α) :
    dGetD (dSet d k v) k w = v := by
  simp [dGetD, dGet?_dSet_self]

theorem dGetD_dSet_ne {α : Type} (d : Dict α) (k k' : String) (v w : α)
    (h : k' ≠ k) : dGetD (dSet d k v) k' w = dGetD d k' w := by
  simp [dGetD, dGet?_dSet_ne _ _ _ _ h]

theorem propagate_spec :
    ∀ (ns : List String) (inDeg : Dict Int) (q : List String),
      (∀ n ∈ ns, n ∈ inDeg.map Prod.fst) →
      ((propagate ns inDeg q).1.map Prod.fst = inDeg.map Prod.fst) ∧
      (∀ id, dGetD (propagate ns inDeg q).1 id 0 =
          dGetD inDeg id 0 - (ns.count id : Int)) ∧
      (∃ newIds, (propagate ns inDeg q).2 = q ++ newIds ∧ newIds.Nodup ∧
        (∀ id, id ∈ newIds ↔
          (1 ≤ dGetD inDeg id 0 ∧ dGetD inDeg id 0 ≤ (ns.count id : Int)))) := by
  intro ns
  induction ns with
  | nil =>
      intro inDeg q _
      refine ⟨rfl, ?_, [], by simp [propagate], List.nodup_nil, ?_⟩
      · intro id; simp [propagate]
      · intro id
        simp only [List.not_mem_nil, false_iff, List.count_nil, Nat.cast_zero]
        omega
  | cons n ns ih =>
      intro inDeg q hns
      have hn : n ∈ inDeg.map Prod.fst := hns n (List.mem_cons_self _ _)
      simp only [propagate]
      set d := dGetD inDeg n 0 - 1 with hd
      set inDeg1 := dSet inDeg n d with hdef1
      have hkeys1 : inDeg1.map Prod.fst = inDeg.map Prod.fst :=
        dSet_keys_of_has _ _ _ (dHas_of_mem_keys _ _ hn)
      have hns1 : ∀ m ∈ ns, m ∈ inDeg1.map Prod.fst := by
        intro m hm; rw [hkeys1]; exact hns m (List.mem_cons_of_mem _ hm)
      rcases ih inDeg1 (if d = 0 then q ++ [n] else q) hns1 with
        ⟨hk, hdeg, newIds1, hq1, hnd1, hiff1⟩
      have hdeg1n : dGetD inDeg1 n 0 = d := dGetD_dSet_self _ _ _ _
      have hdeg1ne : ∀ id, id ≠ n → dGetD inDeg1 id 0 = dGetD inDeg id 0 :=
        fun id hid => dGetD_dSet_ne _ _ _ _ _ hid
      refine ⟨by rw [hk, hkeys1], ?_, ?_⟩
      · intro id
        rw [hdeg id]
        by_cases hid : id = n
        · subst hid
          rw [hdeg1n, List.count_cons_self]
          push_cast
          omega
        · rw [hdeg1ne id hid, List.count_cons_of_ne hid]
      · by_cases hd0 : d = 0
        · rw [if_pos hd0] at hq1
          refine ⟨n :: newIds1, by rw [if_pos hd0, hq1]; simp, ?_, ?_⟩
          · refine List.nodup_cons.mpr ⟨?_, hnd1⟩
            intro hmem
            have := (hiff1 n).mp hmem
            rw [hdeg1n, hd0] at this
            omega
          · intro id
            by_cases hid : id = n
            · subst hid
              simp only [List.mem_cons, true_or, true_iff, List.count_cons_self]
              have : dGetD inDeg id 0 = 1 := by omega
              rw [this]
              constructor
              · omega
              · have : (0 : Int) ≤ (ns.count id : Int) := by positivity
                push_cast
                omega
            · simp only [List.mem_cons, hid, false_or]
              rw [hiff1 id, hdeg1ne id hid, List.count_cons_of_ne hid]
        · rw [if_neg hd0] at hq1
          refine ⟨newIds1, by rw [if_neg hd0]; exact hq1, hnd1, ?_⟩
          intro id
          by_cases hid : id = n
          · subst hid
            rw [hiff1 id, hdeg1n, List.count_cons_self]
            push_cast
            omega
          · rw [hiff1 id, hdeg1ne id hid, List.count_cons_of_ne hid]

theorem propagate_sub :
    ∀ (ns : List String) (inDeg : Dict Int) (q : List String),
      ∀ id ∈ (propagate ns inDeg q).2, id ∈ q ∨ id ∈ ns := by
  intro ns
  induction ns with
  | nil => intro inDeg q id h; exact Or.inl h
  | cons n ns ih =>
      intro inDeg q id h
      simp only [propagate] at h
      rcases ih _ _ id h with h' | h'
      · by_cases hd : dGetD inDeg n 0 - 1 = 0
        · rw [if_pos hd] at h'
          rcases List.mem_append.mp h' with h'' | h''
          · exact Or.inl h''
          · simp only [List.mem_singleton] at h''
            exact Or.inr (by simp [h''])
        · rw [if_neg hd] at h'
          exact Or.inl h'
      · exact Or.inr (List.mem_cons_of_mem _ h')

/-! ## Loop termination -/

theorem degSum_dSet (d : Dict Int) (n : String) (w : Int) :
    degSum (dSet d n w) + (dGetD d n 0).toNat = degSum d + w.toNat := by
  induction d with
  | nil => simp [dSet, degSum, dGetD, dGet?, List.find?]
  | cons kv rest ih =>
      by_cases hk : kv.1 = n
      · simp only [dSet, if_pos hk, degSum, List.map_cons, List.sum_cons]
        have : dGetD (kv :: rest) n 0 = kv.2 := by
          simp [dGetD, dGet?, List.find?, hk]
        rw [this]
        omega
      · simp only [dSet, if_neg hk, degSum, List.map_cons, List.sum_cons]
        have : dGetD (kv :: rest) n 0 = dGetD rest n 0 := by
          simp [dGetD, dGet?, List.find?, hk]
        rw [this]
        have := ih
        simp only [degSum] at this
        omega

theorem propagate_measure :
    ∀ (ns : List String) (inDeg : Dict Int) (q : List String),
      (propagate ns inDeg q).2.length + degSum (propagate ns inDeg q).1 ≤
        q.length + degSum inDeg := by
  intro ns
  induction ns with
  | nil => intro inDeg q; simp [propagate]
  | cons n ns ih =>
      intro inDeg q
      simp only [propagate]
      have hsum := degSum_dSet inDeg n (dGetD inDeg n 0 - 1)
      have hih := ih (dSet inDeg n (dGetD inDeg n 0 - 1))
        (if dGetD inDeg n 0 - 1 = 0 then q ++ [n] else q)
      by_cases hd : dGetD inDeg n 0 - 1 = 0
      · rw [if_pos hd] at hih ⊢
        have hq : (q ++ [n]).length = q.length + 1 := by simp
        rw [hq] at hih
        omega
      · rw [if_neg hd] at hih ⊢
        omega

theorem runLoop_total (execF : Node → Except String (Dict Val))
    (adj : Dict (List String)) :
    ∀ (fuel : Nat) (heap : Heap) (queue : List String) (inDeg : Dict Int)
      (events : List Event),
      (∀ id ∈ queue, id ∈ heapIds heap) →
      (∀ kv ∈ adj, ∀ t ∈ kv.2, t ∈ heapIds heap) →
      queue.length + degSum inDeg < fuel →
      ∃ result, runLoop execF adj fuel heap queue inDeg events =
        Option.some result := by
  intro fuel
  induction fuel with
  | zero =>
      intro heap queue inDeg events _ _ hlt
      exact absurd hlt (Nat.not_lt_zero _)
  | succ fuel ih =>
      intro heap queue inDeg events hq hadj hlt
      cases queue with
      | nil => exact ⟨(events ++ [Event.complete], heap), rfl⟩
      | cons cid rest =>
          rcases findNode_isSome_of_mem (hq cid (List.mem_cons_self _ _)) with
            ⟨b, hb⟩
          simp only [runLoop, hb]
          rcases hpq : propagate (dGetD adj cid []) inDeg rest with ⟨inDeg', queue'⟩
          have hmeas := propagate_measure (dGetD adj cid []) inDeg rest
          rw [hpq] at hmeas
          simp only at hmeas
          have hqueue' : ∀ id ∈ queue', id ∈ heapIds heap := by
            intro id hid
            have := propagate_sub (dGetD adj cid []) inDeg rest id (by rw [hpq]; exact hid)
            rcases this with h | h
            · exact hq id (List.mem_cons_of_mem _ h)
            · rcases hget : dGet? adj cid with _ | l
              · rw [dGetD, hget] at h; cases h
              · rw [dGetD, hget] at h
                exact hadj (cid, l) (dGet?_mem_of_some _ _ _ hget) id h
          have hlt' : queue'.length + degSum inDeg' < fuel := by
            simp only [List.length_cons] at hlt
            omega
          rcases execF (fetch_inputs heap b) with msg | outs
          · simp only
            refine ih _ queue' inDeg' _ ?_ ?_ hlt'
            · intro id hid
              rw [updateNode_heapIds]
              exact hqueue' id hid
            · intro kv hkv t ht
              rw [updateNode_heapIds]
              exact hadj kv hkv t ht
          · simp only
            refine ih _ queue' inDeg' _ ?_ ?_ hlt'
            · intro id hid
              rw [updateNode_heapIds, updateNode_heapIds]
              exact hqueue' id hid
            · intro kv hkv t ht
              rw [updateNode_heapIds, updateNode_heapIds]
              exact hadj kv hkv t ht

/-! ## The Kahn loop invariant -/

/-- Number of `E`-edges into `v` whose source has not yet executed. -/
def remInDeg (E : List (String × String)) (done : List String) (v : String) :
    Nat :=
  (E.filter (fun e => e.2 = v ∧ e.1 ∉ done)).length

/-- Number of `E`-edges from `c` to `v` (connector multiplicity). -/
def cntE (E : List (String × String)) (c v : String) : Nat :=
  (E.filter (fun e => e.1 = c ∧ e.2 = v)).length

theorem remInDeg_snoc (E : List (String × String)) (done : List String)
    (c v : String) (hc : c ∉ done) :
    remInDeg E done v = remInDeg E (done ++ [c]) v + cntE E c v := by
  induction E with
  | nil => rfl
  | cons e E ih =>
      unfold remInDeg cntE at ih ⊢
      by_cases h2 : e.2 = v
      · by_cases h1c : e.1 = c
        · rw [List.filter_cons_of_pos (by simp [h2, h1c, hc]),
            List.filter_cons_of_neg (by simp [h1c]),
            List.filter_cons_of_pos (by simp [h1c, h2])]
          simp only [List.length_cons]
          omega
        · by_cases h1 : e.1 ∈ done
          · rw [List.filter_cons_of_neg (by simp [h1]),
              List.filter_cons_of_neg (by simp [h1]),
              List.filter_cons_of_neg (by simp [h1c])]
            exact ih
          · rw [List.filter_cons_of_pos (by simp [h2, h1]),
              List.filter_cons_of_pos (by simp [h2, h1, h1c]),
              List.filter_cons_of_neg (by simp [h1c])]
            simp only [List.length_cons]
            omega
      · rw [List.filter_cons_of_neg (by simp [h2]),
          List.filter_cons_of_neg (by simp [h2]),
          List.filter_cons_of_neg (by simp [h2])]
        exact ih

theorem count_targets_eq_cntE (E : List (String × String)) (c v : String) :
    ((E.filter (fun e => e.1 = c)).map (·.2)).count v = cntE E c v := by
  induction E with
  | nil => rfl
  | cons e E ih =>
      unfold cntE at ih ⊢
      by_cases h1 : e.1 = c
      · rw [List.filter_cons_of_pos (by simp [h1])]
        by_cases h2 : e.2 = v
        · rw [List.filter_cons_of_pos (by simp [h1, h2])]
          simp only [List.map_cons, List.length_cons]
          rw [List.count_cons]
          simp [h2, ih]
        · rw [List.filter_cons_of_neg (by simp [h2])]
          simp only [List.map_cons]
          rw [List.count_cons]
          simp [h2, ih]
      · rw [List.filter_cons_of_neg (by simp [h1]),
          List.filter_cons_of_neg (by simp [h1])]
        exact ih

/-- `remInDeg = 0` means every edge into `v` has an executed source. -/
theorem remInDeg_zero_sources (E : List (String × String)) (done : List String)
    (v : String) (h : remInDeg E done v = 0) :
    ∀ e ∈ E, e.2 = v → e.1 ∈ done := by
  intro e he h2
  by_contra h1
  have : e ∈ E.filter (fun e => e.2 = v ∧ e.1 ∉ done) :=
    List.mem_filter.mpr ⟨he, by simp [h2, h1]⟩
  have := List.length_pos.mpr (List.ne_nil_of_mem this)
  unfold remInDeg at h
  omega

/-- Nonzero `remInDeg` exhibits an unexecuted in-edge. -/
theorem remInDeg_pos_edge (E : List (String × String)) (done : List String)
    (v : String) (h : remInDeg E done v ≠ 0) :
    ∃ e ∈ E, e.2 = v ∧ e.1 ∉ done := by
  unfold remInDeg at h
  have hne : E.filter (fun e => e.2 = v ∧ e.1 ∉ done) ≠ [] := by
    intro hnil
    rw [hnil] at h
    exact h rfl
  rcases List.exists_mem_of_ne_nil _ hne with ⟨e, he⟩
  rcases List.mem_filter.mp he with ⟨heE, hep⟩
  simp only [decide_eq_true_eq] at hep
  exact ⟨e, heE, hep⟩

/-- The invariant carried through the Kahn loop: `done` is the executed
prefix (in order), `queue` the ready queue, `inDeg` the live in-degree
dict. -/
structure LoopInv (E : List (String × String)) (reach done queue : List String)
    (inDeg : Dict Int) : Prop where
  done_sub : ∀ id ∈ done, id ∈ reach
  queue_sub : ∀ id ∈ queue, id ∈ reach
  nd : (done ++ queue).Nodup
  keys : inDeg.map Prod.fst = reach
  deg_eq : ∀ id ∈ reach, dGetD inDeg id 0 = (remInDeg E done id : Int)
  ready_iff : ∀ id ∈ reach, id ∉ done → (id ∈ queue ↔ remInDeg E done id = 0)
  order : ∀ e ∈ E, e.2 ∈ done →
    e.1 ∈ done ∧ done.indexOf e.1 < done.indexOf e.2

theorem LoopInv.done_rem_zero {E : List (String × String)}
    {reach done queue : List String} {inDeg : Dict Int}
    (inv : LoopInv E reach done queue inDeg) :
    ∀ id ∈ done, remInDeg E done id = 0 := by
  intro id hid
  unfold remInDeg
  rw [List.length_eq_zero]
  rw [List.filter_eq_nil_iff]
  intro e he
  simp only [decide_eq_true_eq, not_and, not_not]
  intro h2
  exact (inv.order e he (h2 ▸ hid)).1

/-- One Kahn step preserves the invariant: dequeue `c`, decrement its
dependents, enqueue those that reach zero. -/
theorem loopInv_step (E : List (String × String)) (reach done rest : List String)
    (inDeg : Dict Int) (c : String)
    (hE : ∀ e ∈ E, e.1 ∈ reach ∧ e.2 ∈ reach)
    (inv : LoopInv E reach done (c :: rest) inDeg) :
    LoopInv E reach (done ++ [c])
      (propagate ((E.filter (fun e => e.1 = c)).map (·.2)) inDeg rest).2
      (propagate ((E.filter (fun e => e.1 = c)).map (·.2)) inDeg rest).1 := by
  set ns := (E.filter (fun e => e.1 = c)).map (·.2) with hns
  have hcreach : c ∈ reach := inv.queue_sub c (List.mem_cons_self _ _)
  have hdisj : List.Disjoint done (c :: rest) :=
    List.disjoint_of_nodup_append inv.nd
  have hcdone : c ∉ done := fun h => hdisj h (List.mem_cons_self _ _)
  have hrem0 : remInDeg E done c = 0 :=
    (inv.ready_iff c hcreach hcdone).mp (List.mem_cons_self _ _)
  have hns_reach : ∀ n ∈ ns, n ∈ reach := by
    intro n hn
    rcases List.mem_map.mp hn with ⟨e, he, hen⟩
    exact hen ▸ (hE e (List.mem_filter.mp he).1).2
  have hns_sub : ∀ n ∈ ns, n ∈ inDeg.map Prod.fst := by
    intro n hn
    rw [inv.keys]
    exact hns_reach n hn
  rcases propagate_spec ns inDeg rest hns_sub with ⟨hkeys, hdeg, newIds, hq, hndN, hiff⟩
  have hcount : ∀ id, ns.count id = cntE E c id := by
    intro id
    rw [hns]
    exact count_targets_eq_cntE E c id
  have hsnoc : ∀ id, remInDeg E done id =
      remInDeg E (done ++ [c]) id + cntE E c id :=
    fun id => remInDeg_snoc E done c id hcdone
  have hdg0 : ∀ id, id ∉ reach → dGetD inDeg id 0 = 0 := by
    intro id hid
    have : id ∉ inDeg.map Prod.fst := by rw [inv.keys]; exact hid
    simp [dGetD, dGet?_eq_none_of_not_mem _ _ this]
  have hnewIds_reach : ∀ id ∈ newIds, id ∈ reach := by
    intro id hid
    by_contra hnr
    have := (hiff id).mp hid
    rw [hdg0 id hnr] at this
    omega
  have hnew_pos : ∀ id ∈ newIds, 1 ≤ remInDeg E done id := by
    intro id hid
    have h1 := (hiff id).mp hid
    have h2 := inv.deg_eq id (hnewIds_reach id hid)
    omega
  have hrest_sub : ∀ id ∈ rest, id ∈ reach :=
    fun id hid => inv.queue_sub id (List.mem_cons_of_mem _ hid)
  constructor
  · intro id hid
    rcases List.mem_append.mp hid with h | h
    · exact inv.done_sub id h
    · simp only [List.mem_singleton] at h
      exact h ▸ hcreach
  · intro id hid
    rw [hq] at hid
    rcases List.mem_append.mp hid with h | h
    · exact hrest_sub id h
    · exact hnewIds_reach id h
  · -- Nodup
    rw [hq]
    have h0 : ((done ++ [c]) ++ rest).Nodup := by
      have := inv.nd
      rw [List.append_cons] at this
      exact this
    have hsplit : (done ++ [c]) ++ (rest ++ newIds) =
        ((done ++ [c]) ++ rest) ++ newIds := by
      simp [List.append_assoc]
    rw [hsplit]
    refine List.Nodup.append h0 hndN ?_
    intro id hid1 hid2
    have hpos := hnew_pos id hid2
    rcases List.mem_append.mp hid1 with h | h
    · rcases List.mem_append.mp h with h' | h'
      · have := inv.done_rem_zero id h'
        omega
      · simp only [List.mem_singleton] at h'
        subst h'
        omega
    · -- id ∈ rest: ready, so its remaining in-degree is already zero
      have hidreach := hrest_sub id h
      have hiddone : id ∉ done := fun hd => hdisj hd (List.mem_cons_of_mem _ h)
      have := (inv.ready_iff id hidreach hiddone).mp (List.mem_cons_of_mem _ h)
      omega
  · rw [hkeys]; exact inv.keys
  · intro id hid
    rw [hdeg id, inv.deg_eq id hid, hsnoc id, hcount id]
    push_cast
    ring
  · -- ready_iff
    intro id hid hnd'
    have hidc : id ≠ c := by
      intro e
      exact hnd' (List.mem_append.mpr (Or.inr (by simp [e])))
    have hiddone : id ∉ done := fun h =>
      hnd' (List.mem_append.mpr (Or.inl h))
    have hrs := hsnoc id
    rw [hq]
    constructor
    · intro hmem
      rcases List.mem_append.mp hmem with h | h
      · have := (inv.ready_iff id hid hiddone).mp (List.mem_cons_of_mem _ h)
        omega
      · have h1 := (hiff id).mp h
        have h2 := inv.deg_eq id hid
        have h3 := hcount id
        omega
    · intro hzero
      by_cases hcnt : cntE E c id = 0
      · have : remInDeg E done id = 0 := by omega
        have := (inv.ready_iff id hid hiddone).mpr this
        rcases List.mem_cons.mp this with h | h
        · exact absurd h hidc
        · exact List.mem_append.mpr (Or.inl h)
      · refine List.mem_append.mpr (Or.inr ((hiff id).mpr ?_))
        have h2 := inv.deg_eq id hid
        have h3 := hcount id
        omega
  · -- order
    intro e he h2
    rcases List.mem_append.mp h2 with h | h
    · rcases inv.order e he h with ⟨h1, hlt⟩
      refine ⟨List.mem_append.mpr (Or.inl h1), ?_⟩
      rw [List.indexOf_append_of_mem h1, List.indexOf_append_of_mem h]
      exact hlt
    · simp only [List.mem_singleton] at h
      have h1 : e.1 ∈ done := remInDeg_zero_sources E done c hrem0 e he h
      refine ⟨List.mem_append.mpr (Or.inl h1), ?_⟩
      rw [List.indexOf_append_of_mem h1, h,
        List.indexOf_append_of_not_mem hcdone, List.indexOf_cons_self]
      have := List.indexOf_lt_length.mpr h1
      omega

/-! ## Run-level lemmas -/

theorem startIds_append (a b : List Event) :
    startIds (a ++ b) = startIds a ++ startIds b := by
  unfold startIds
  exact List.filterMap_append _ _ _

theorem fetch_inputs_id (heap : Heap) (b : Node) :
    (fetch_inputs heap b).id = b.id := rfl

theorem fetch_inputs_name (heap : Heap) (b : Node) :
    (fetch_inputs heap b).name = b.name := rfl

/-- The invariant survives to the end of the loop. -/
theorem runLoop_inv (execF : Node → Except String (Dict Val))
    (adj : Dict (List String)) (E : List (String × String))
    (reach : List String)
    (hadj : ∀ u, dGetD adj u [] = (E.filter (fun e => e.1 = u)).map (·.2))
    (hE : ∀ e ∈ E, e.1 ∈ reach ∧ e.2 ∈ reach) :
    ∀ (fuel : Nat) (heap : Heap) (queue : List String) (inDeg : Dict Int)
      (events : List Event) (result : List Event × Heap),
      runLoop execF adj fuel heap queue inDeg events = Option.some result →
      LoopInv E reach (startIds events) queue inDeg →
      ∃ inDegF, LoopInv E reach (startIds result.1) [] inDegF := by
  intro fuel
  induction fuel with
  | zero =>
      intro heap queue inDeg events result h inv
      cases queue with
      | nil =>
          simp only [runLoop] at h
          cases h
          refine ⟨inDeg, ?_⟩
          rw [startIds_append]
          simpa [startIds] using inv
      | cons cid rest => cases h
  | succ fuel ih =>
      intro heap queue inDeg events result h inv
      cases queue with
      | nil =>
          simp only [runLoop] at h
          cases h
          refine ⟨inDeg, ?_⟩
          rw [startIds_append]
          simpa [startIds] using inv
      | cons cid rest =>
          simp only [runLoop] at h
          rcases hb : findNode heap cid with _ | b
          · rw [hb] at h; cases h
          · rw [hb] at h
            dsimp only at h
            have hbid : b.id = cid := (findNode_some hb).2
            rcases hpq : propagate (dGetD adj cid []) inDeg rest with ⟨inDeg', queue'⟩
            rw [hpq] at h
            dsimp only at h
            have hstep : LoopInv E reach (startIds events ++ [cid]) queue' inDeg' := by
              have := loopInv_step E reach (startIds events) rest inDeg cid hE inv
              rw [← hadj cid, hpq] at this
              exact this
            rcases hex : execF (fetch_inputs heap b) with msg | outs
            · rw [hex] at h
              dsimp only at h
              refine ih _ _ _ _ _ h ?_
              rw [startIds_append]
              simpa [startIds, fetch_inputs_id, hbid] using hstep
            · rw [hex] at h
              dsimp only at h
              refine ih _ _ _ _ _ h ?_
              rw [startIds_append]
              simpa [startIds, fetch_inputs_id, hbid] using hstep

/-- The loop only appends events. -/
theorem runLoop_events_mono (execF : Node → Except String (Dict Val))
    (adj : Dict (List String)) :
    ∀ (fuel : Nat) (heap : Heap) (queue : List String) (inDeg : Dict Int)
      (events : List Event) (result : List Event × Heap),
      runLoop execF adj fuel heap queue inDeg events = Option.some result →
      ∃ tail, result.1 = events ++ tail := by
  intro fuel
  induction fuel with
  | zero =>
      intro heap queue inDeg events result h
      cases queue with
      | nil => cases h; exact ⟨[Event.complete], rfl⟩
      | cons cid rest => cases h
  | succ fuel ih =>
      intro heap queue inDeg events result h
      cases queue with
      | nil => cases h; exact ⟨[Event.complete], rfl⟩
      | cons cid rest =>
          simp only [runLoop] at h
          rcases hb : findNode heap cid with _ | b
          · rw [hb] at h; cases h
          · rw [hb] at h
            dsimp only at h
            rcases hpq : propagate (dGetD adj cid []) inDeg rest with ⟨inDeg', queue'⟩
            rw [hpq] at h
            dsimp only at h
            rcases hex : execF (fetch_inputs heap b) with msg | outs
            · rw [hex] at h
              dsimp only at h
              rcases ih _ _ _ _ _ h with ⟨tail, htail⟩
              exact ⟨_, by rw [htail, List.append_assoc]⟩
            · rw [hex] at h
              dsimp only at h
              rcases ih _ _ _ _ _ h with ⟨tail, htail⟩
              exact ⟨_, by rw [htail, List.append_assoc]⟩

/-- Every event of a run is a prior event, the final `complete`, or
reports on an executed block. -/
theorem runLoop_event_ids (execF : Node → Except String (Dict Val))
    (adj : Dict (List String)) :
    ∀ (fuel : Nat) (heap : Heap) (queue : List String) (inDeg : Dict Int)
      (events : List Event) (result : List Event × Heap),
      runLoop execF adj fuel heap queue inDeg events = Option.some result →
      ∀ ev ∈ result.1, ev ∈ events ∨ ev = Event.complete ∨
        ∃ id, eventId ev = Option.some id ∧ id ∈ startIds result.1 := by
  intro fuel
  induction fuel with
  | zero =>
      intro heap queue inDeg events result h ev hev
      cases queue with
      | nil =>
          cases h
          rcases List.mem_append.mp hev with h' | h'
          · exact Or.inl h'
          · simp only [List.mem_singleton] at h'
            exact Or.inr (Or.inl h')
      | cons cid rest => cases h
  | succ fuel ih =>
      intro heap queue inDeg events result h ev hev
      cases queue with
      | nil =>
          cases h
          rcases List.mem_append.mp hev with h' | h'
          · exact Or.inl h'
          · simp only [List.mem_singleton] at h'
            exact Or.inr (Or.inl h')
      | cons cid rest =>
          simp only [runLoop] at h
          rcases hb : findNode heap cid with _ | b
          · rw [hb] at h; cases h
          · rw [hb] at h
            dsimp only at h
            have hbid : b.id = cid := (findNode_some hb).2
            rcases hpq : propagate (dGetD adj cid []) inDeg rest with ⟨inDeg', queue'⟩
            rw [hpq] at h
            dsimp only at h
            rcases hex : execF (fetch_inputs heap b) with msg | outs <;> rw [hex] at h <;>
              dsimp only at h
            all_goals {
              rcases runLoop_events_mono execF adj _ _ _ _ _ _ h with ⟨tail, htail⟩
              have hcid : cid ∈ startIds result.1 := by
                rw [htail, startIds_append, startIds_append]
                refine List.mem_append.mpr (Or.inl (List.mem_append.mpr (Or.inr ?_)))
                simp [startIds, fetch_inputs_id, hbid]
              rcases ih _ _ _ _ _ h ev hev with h' | h' | h'
              · rcases List.mem_append.mp h' with h'' | h''
                · exact Or.inl h''
                · refine Or.inr (Or.inr ?_)
                  rcases List.mem_cons.mp h'' with h3 | h3
                  · exact ⟨cid, by simp [h3, eventId, fetch_inputs_id, hbid], hcid⟩
                  · simp only [List.mem_singleton] at h3
                    exact ⟨cid, by simp [h3, eventId, fetch_inputs_id, hbid], hcid⟩
              · exact Or.inr (Or.inl h')
              · exact Or.inr (Or.inr h')
            }

/-- A run that starts without a `complete` event ends in exactly one,
in final position. -/
theorem runLoop_last_complete (execF : Node → Except String (Dict Val))
    (adj : Dict (List String)) :
    ∀ (fuel : Nat) (heap : Heap) (queue : List String) (inDeg : Dict Int)
      (events : List Event) (result : List Event × Heap),
      runLoop execF adj fuel heap queue inDeg events = Option.some result →
      Event.complete ∉ events →
      ∃ pre, result.1 = pre ++ [Event.complete] ∧ Event.complete ∉ pre := by
  intro fuel
  induction fuel with
  | zero =>
      intro heap queue inDeg events result h hnc
      cases queue with
      | nil => cases h; exact ⟨events, rfl, hnc⟩
      | cons cid rest => cases h
  | succ fuel ih =>
      intro heap queue inDeg events result h hnc
      cases queue with
      | nil => cases h; exact ⟨events, rfl, hnc⟩
      | cons cid rest =>
          simp only [runLoop] at h
          rcases hb : findNode heap cid with _ | b
          · rw [hb] at h; cases h
          · rw [hb] at h
            dsimp only at h
            rcases hpq : propagate (dGetD adj cid []) inDeg rest with ⟨inDeg', queue'⟩
            rw [hpq] at h
            dsimp only at h
            rcases hex : execF (fetch_inputs heap b) with msg | outs <;> rw [hex] at h <;>
              dsimp only at h
            all_goals {
              refine ih _ _ _ _ _ h ?_
              intro hmem
              rcases List.mem_append.mp hmem with h' | h'
              · exact hnc h'
              · rcases List.mem_cons.mp h' with h3 | h3
                · cases h3
                · simp only [List.mem_singleton] at h3
                  cases h3
            }

/-- If a block whose `execute` always raises `msg` is executed during a
run, the stream contains the error event carrying its id, its display
name, and the error text. -/
theorem runLoop_error_event (execF : Node → Except String (Dict Val))
    (adj : Dict (List String)) (msg bid : String)
    (hfail : ∀ n : Node, n.id = bid → execF n = Except.error msg) :
    ∀ (fuel : Nat) (heap : Heap) (queue : List String) (inDeg : Dict Int)
      (events : List Event) (result : List Event × Heap) (nm : String),
      runLoop execF adj fuel heap queue inDeg events = Option.some result →
      bid ∈ startIds result.1 → bid ∉ startIds events →
      nameOf heap bid = Option.some nm →
      Event.error bid nm msg ∈ result.1 := by
  intro fuel
  induction fuel with
  | zero =>
      intro heap queue inDeg events result nm h hin hout _
      cases queue with
      | nil =>
          cases h
          rw [startIds_append] at hin
          rcases List.mem_append.mp hin with h' | h'
          · exact absurd h' hout
          · simp [startIds] at h'
      | cons cid rest => cases h
  | succ fuel ih =>
      intro heap queue inDeg events result nm h hin hout hname
      cases queue with
      | nil =>
          cases h
          rw [startIds_append] at hin
          rcases List.mem_append.mp hin with h' | h'
          · exact absurd h' hout
          · simp [startIds] at h'
      | cons cid rest =>
          simp only [runLoop] at h
          rcases hb : findNode heap cid with _ | b
          · rw [hb] at h; cases h
          · rw [hb] at h
            dsimp only at h
            have hbid : b.id = cid := (findNode_some hb).2
            rcases hpq : propagate (dGetD adj cid []) inDeg rest with ⟨inDeg', queue'⟩
            rw [hpq] at h
            dsimp only at h
            by_cases hc : cid = bid
            · -- the failing block is dequeued now: its execute raises
              subst hc
              have hfex : execF (fetch_inputs heap b) = Except.error msg :=
                hfail _ (by rw [fetch_inputs_id, hbid])
              rw [hfex] at h
              dsimp only at h
              rcases runLoop_events_mono execF adj _ _ _ _ _ _ h with ⟨tail, htail⟩
              have hnm : b.name = nm := by
                unfold nameOf at hname
                rw [hb] at hname
                simpa using hname
              rw [htail]
              refine List.mem_append.mpr (Or.inl (List.mem_append.mpr (Or.inr ?_)))
              simp [fetch_inputs_id, fetch_inputs_name, hbid, hnm]
            · -- a different block is dequeued; recurse
              have hnamestep : ∀ heap2 : Heap,
                  nameOf heap2 bid = nameOf heap bid →
                  nameOf (updateNode heap2 (fetch_inputs heap b)) bid =
                    nameOf heap bid := by
                intro heap2 hh
                rw [← hh]
                apply nameOf_updateNode
                intro m hm hmid
                exfalso
                rw [fetch_inputs_id, hbid] at hmid
                have : m.id = bid := (findNode_some hm).2
                exact hc (by rw [← hmid, this])
              rcases hex : execF (fetch_inputs heap b) with msg2 | outs
              · rw [hex] at h
                dsimp only at h
                refine ih _ _ _ _ _ nm h hin ?_ ?_
                · rw [startIds_append]
                  intro hmem
                  rcases List.mem_append.mp hmem with h' | h'
                  · exact hout h'
                  · have : bid = cid := by
                      simpa [startIds, fetch_inputs_id, hbid] using h'
                    exact hc this.symm
                · rw [hnamestep heap rfl]
                  exact hname
              · rw [hex] at h
                dsimp only at h
                refine ih _ _ _ _ _ nm h hin ?_ ?_
                · rw [startIds_append]
                  intro hmem
                  rcases List.mem_append.mp hmem with h' | h'
                  · exact hout h'
                  · have : bid = cid := by
                      simpa [startIds, fetch_inputs_id, hbid] using h'
                    exact hc this.symm
                · have h1 : nameOf (updateNode heap (fetch_inputs heap b)) bid =
                      nameOf heap bid := hnamestep heap rfl
                  have h2 : nameOf (updateNode (updateNode heap (fetch_inputs heap b))
                      { fetch_inputs heap b with outputs := outs }) bid =
                      nameOf (updateNode heap (fetch_inputs heap b)) bid := by
                    apply nameOf_updateNode
                    intro m hm hmid
                    exfalso
                    have hmb : m.id = bid := (findNode_some hm).2
                    simp only [fetch_inputs_id] at hmid
                    rw [hmb, hbid] at hmid
                    exact hc hmid.symm
                  rw [h2, h1]
                  exact hname

/-! ## Assembling `execute_graph` -/

theorem remInDeg_nil (E : List (String × String)) (v : String) :
    remInDeg E [] v = (E.filter (fun e => e.2 = v)).length := by
  unfold remInDeg
  congr 1
  apply List.filter_congr
  intro e _
  simp

theorem buildEdges_adj_all (heap : Heap) (reach : List String) (u : String) :
    dGetD (buildEdges heap reach).1 u [] =
      ((allEdges heap reach).filter (fun e => e.1 = u)).map (·.2) := by
  by_cases hu : u ∈ reach
  · exact buildEdges_adj heap reach u hu
  · have hkeys := (buildEdges_keys heap reach).1
    have : u ∉ (buildEdges heap reach).1.map Prod.fst := by
      rw [hkeys]; exact hu
    rw [dGetD, dGet?_eq_none_of_not_mem _ _ this]
    have : (allEdges heap reach).filter (fun e => e.1 = u) = [] := by
      rw [List.filter_eq_nil_iff]
      intro e he
      have := (allEdges_mem_reach heap reach e he).1
      simp only [decide_eq_true_eq]
      intro h
      exact hu (h ▸ this)
    rw [this]
    rfl

/-- A nonempty list has an `f`-minimal element. -/
theorem exists_min_list {α : Type} (l : List α) (f : α → Nat) (h : l ≠ []) :
    ∃ a ∈ l, ∀ b ∈ l, f a ≤ f b := by
  induction l with
  | nil => exact absurd rfl h
  | cons x xs ih =>
      cases xs with
      | nil => exact ⟨x, by simp, by simp⟩
      | cons y ys =>
          rcases ih (by simp) with ⟨a, ha, hmin⟩
          by_cases hxa : f x ≤ f a
          · refine ⟨x, by simp, ?_⟩
            intro b hb
            rcases List.mem_cons.mp hb with h' | h'
            · rw [h']
            · exact le_trans hxa (hmin b h')
          · refine ⟨a, List.mem_cons_of_mem _ ha, ?_⟩
            intro b hb
            rcases List.mem_cons.mp hb with h' | h'
            · rw [h']; omega
            · exact hmin b h'

/-- The reachable set is closed under following connectors (targets that
resolve resolve into it). -/
theorem bfs_reach_closed {heap : Heap} {start_blocks : List Node}
    {fuel : Nat} {reach : List String}
    (hbfs : bfsAux heap fuel start_blocks [] = Option.some reach)
    (hstart : ∀ b ∈ start_blocks, b ∈ heap)
    (hnd : (heapIds heap).Nodup) :
    ∀ u v, u ∈ reach → connEdge heap u v → (∃ t ∈ heap, t.id = v) →
      v ∈ reach := by
  intro u v hu he ⟨t, ht, htid⟩
  rcases he with ⟨b, hb, hbid, c, hc, hct⟩
  rcases findNode_isSome_of_mem (List.mem_map_of_mem Node.id ht) with ⟨t', ht'⟩
  have ht'id : t'.id = t.id := (findNode_some ht').2
  have := bfs_closed hbfs hstart hnd (by intro id hid; cases hid)
    u hu b hb hbid c hc t' (by rw [hct, ← htid]; exact ht')
  rw [ht'id, htid] at this
  exact this

/-- Reachability (a connector path) from a discovered block stays inside
the discovered set, provided every connector target resolves. -/
theorem bfs_reach_closed_rtg {heap : Heap} {start_blocks : List Node}
    {fuel : Nat} {reach : List String}
    (hbfs : bfsAux heap fuel start_blocks [] = Option.some reach)
    (hstart : ∀ b ∈ start_blocks, b ∈ heap)
    (hnd : (heapIds heap).Nodup)
    (hclosed : ∀ b ∈ heap, ∀ c ∈ b.allConns, ∃ t ∈ heap, t.id = c.target_id) :
    ∀ u v, u ∈ reach → Reaches heap u v → v ∈ reach := by
  intro u v hu hr
  induction hr with
  | refl => exact hu
  | tail _ he ih =>
      rcases he with ⟨b, hb, hbid, c, hc, hct⟩
      refine bfs_reach_closed hbfs hstart hnd _ _ ih
        ⟨b, hb, hbid, c, hc, hct⟩ ?_
      rcases hclosed b hb c hc with ⟨t, ht, htid⟩
      exact ⟨t, ht, by rw [htid, hct]⟩

/-- Master run lemma: under well-formedness, `execute_graph` returns a
stream whose executed prefix satisfies the final Kahn invariant, ends in
a single `complete`, and mentions only executed blocks. -/
theorem execute_graph_run (execF : Node → Except String (Dict Val))
    (start_blocks : List Node) (heap : Heap)
    (hnd : (heapIds heap).Nodup)
    (hstart : ∀ b ∈ start_blocks, b ∈ heap) :
    ∃ reach events inDegF,
      bfsAux heap (bfsFuel heap start_blocks.length) start_blocks [] =
        Option.some reach ∧
      execute_graph execF start_blocks heap = Option.some events ∧
      LoopInv (allEdges heap reach) reach (startIds events) [] inDegF ∧
      (∃ pre, events = pre ++ [Event.complete] ∧ Event.complete ∉ pre) ∧
      (∀ ev ∈ events, ev = Event.complete ∨
        ∃ id, eventId ev = Option.some id ∧ id ∈ startIds events) ∧
      (∀ bid msg nm, (∀ n : Node, n.id = bid → execF n = Except.error msg) →
        bid ∈ startIds events → nameOf heap bid = Option.some nm →
        Event.error bid nm msg ∈ events) := by
  have hbfs : ∃ reach, bfsAux heap (bfsFuel heap start_blocks.length)
      start_blocks [] = Option.some reach := by
    refine bfs_total hstart hnd ?_
    have := sumConnsUnvisited_le heap []
    unfold bfsFuel
    omega
  rcases hbfs with ⟨reach, hbfs⟩
  have hreach_nd : reach.Nodup := bfs_nodup hbfs List.nodup_nil
  have hreach_heap : ∀ id ∈ reach, id ∈ heapIds heap :=
    bfs_sub_heap hbfs hstart (by intro id h; cases h)
  set E := allEdges heap reach with hE
  have hEmem : ∀ e ∈ E, e.1 ∈ reach ∧ e.2 ∈ reach := allEdges_mem_reach heap reach
  rcases hbe : buildEdges heap reach with ⟨adj, inDeg⟩
  have hadj : ∀ u, dGetD adj u [] = (E.filter (fun e => e.1 = u)).map (·.2) := by
    intro u
    have := buildEdges_adj_all heap reach u
    rw [hbe] at this
    exact this
  have hkeysAdj : adj.map Prod.fst = reach := by
    have := (buildEdges_keys heap reach).1
    rw [hbe] at this
    exact this
  have hkeysDeg : inDeg.map Prod.fst = reach := by
    have := (buildEdges_keys heap reach).2
    rw [hbe] at this
    exact this
  have hdeg : ∀ v ∈ reach, dGetD inDeg v 0 =
      ((E.filter (fun e => e.2 = v)).length : Int) := by
    intro v hv
    have := buildEdges_deg heap reach v hv
    rw [hbe] at this
    exact this
  set ready := (inDeg.filter (fun kv => kv.2 = 0)).map (·.1) with hready
  have hready_sub : ∀ id ∈ ready, id ∈ reach := by
    intro id hid
    rcases List.mem_map.mp hid with ⟨kv, hkv, hkvid⟩
    have : kv.1 ∈ inDeg.map Prod.fst :=
      List.mem_map_of_mem Prod.fst (List.mem_of_mem_filter hkv)
    rw [hkeysDeg] at this
    exact hkvid ▸ this
  have hready_nd : ready.Nodup := by
    have h1 : (inDeg.filter (fun kv => kv.2 = 0)).Sublist inDeg :=
      List.filter_sublist _
    have h2 : ((inDeg.filter (fun kv => kv.2 = 0)).map (·.1)).Sublist
        (inDeg.map Prod.fst) := List.Sublist.map _ h1
    exact (hkeysDeg ▸ hreach_nd).sublist h2
  have hinv0 : LoopInv E reach [] ready inDeg := by
    constructor
    · intro id h; cases h
    · exact hready_sub
    · simpa using hready_nd
    · exact hkeysDeg
    · intro id hid
      rw [hdeg id hid, remInDeg_nil]
    · intro id hid _
      constructor
      · intro hmem
        rcases List.mem_map.mp hmem with ⟨kv, hkv, hkvid⟩
        rcases List.mem_filter.mp hkv with ⟨hkvmem, hkv0⟩
        simp only [decide_eq_true_eq] at hkv0
        have : dGet? inDeg id = Option.some kv.2 := by
          refine dGet?_of_mem_nodup _ _ _ ?_ (hkeysDeg ▸ hreach_nd)
          rw [← hkvid]
          exact hkvmem
        have hg : dGetD inDeg id 0 = 0 := by
          rw [dGetD, this, hkv0]
          rfl
        rw [hdeg id hid] at hg
        rw [remInDeg_nil]
        omega
      · intro hrem
        have hg : dGetD inDeg id 0 = 0 := by
          rw [hdeg id hid]
          rw [remInDeg_nil] at hrem
          omega
        have hmemk : id ∈ inDeg.map Prod.fst := by rw [hkeysDeg]; exact hid
        rcases dGet?_isSome_of_mem_keys inDeg id hmemk with ⟨v, hv⟩
        have hv0 : v = 0 := by
          rw [dGetD, hv] at hg
          simpa using hg
        refine List.mem_map.mpr ⟨(id, v), ?_, rfl⟩
        exact List.mem_filter.mpr ⟨dGet?_mem_of_some _ _ _ hv, by simp [hv0]⟩
    · intro e _ h2; cases h2
  have hrun : ∃ result, runLoop execF adj
      (ready.length + degSum inDeg + 1) heap ready inDeg [] =
        Option.some result := by
    refine runLoop_total execF adj _ heap ready inDeg [] ?_ ?_ (by omega)
    · intro id hid
      exact hreach_heap id (hready_sub id hid)
    · intro kv hkv t ht
      have hget : dGetD adj kv.1 [] = kv.2 := by
        rw [dGetD, dGet?_of_mem_nodup _ _ _ hkv (hkeysAdj ▸ hreach_nd)]
        rfl
      rw [hadj kv.1] at hget
      have : t ∈ (E.filter (fun e => e.1 = kv.1)).map (·.2) := hget ▸ ht
      rcases List.mem_map.mp this with ⟨e, he, het⟩
      exact hreach_heap t (het ▸ (hEmem e (List.mem_of_mem_filter he)).2)
  rcases hrun with ⟨result, hrunEq⟩
  have hout : execute_graph execF start_blocks heap = Option.some result.1 := by
    unfold execute_graph
    rw [hbfs]
    simp only [hbe]
    rw [hrunEq]
    rfl
  refine ⟨reach, result.1, ?_⟩
  rcases runLoop_inv execF adj E reach hadj hEmem _ _ _ _ _ _ hrunEq
      (by simpa [startIds] using hinv0) with ⟨inDegF, hinvF⟩
  refine ⟨inDegF, hbfs, hout, hinvF, ?_, ?_, ?_⟩
  · exact runLoop_last_complete execF adj _ _ _ _ _ _ hrunEq (by simp)
  · intro ev hev
    rcases runLoop_event_ids execF adj _ _ _ _ _ _ hrunEq ev hev with h | h | h
    · cases h
    · exact Or.inl h
    · exact Or.inr h
  · intro bid msg nm hf hin hnm
    exact runLoop_error_event execF adj msg bid hf _ _ _ _ _ _ nm hrunEq hin
      (by simp [startIds]) hnm

/-- Under acyclicity (witnessed by a rank function on ids), the loop
executes every reachable block. -/
theorem loopInv_complete (heap : Heap) (reach done : List String)
    (inDegF : Dict Int) (rank : String → Nat)
    (hinv : LoopInv (allEdges heap reach) reach done [] inDegF)
    (hacyc : ∀ b ∈ heap, ∀ c ∈ b.allConns, rank b.id < rank c.target_id) :
    ∀ id ∈ reach, id ∈ done := by
  by_contra hcon
  push_neg at hcon
  rcases hcon with ⟨id0, hid0, hnd0⟩
  set S := reach.filter (fun id => id ∉ done) with hS
  have hid0S : id0 ∈ S := List.mem_filter.mpr ⟨hid0, by simp [hnd0]⟩
  rcases exists_min_list S rank (List.ne_nil_of_mem hid0S) with ⟨m, hmS, hmin⟩
  rcases List.mem_filter.mp hmS with ⟨hmreach, hmnd⟩
  simp only [decide_eq_true_eq] at hmnd
  have hrem : remInDeg (allEdges heap reach) done m ≠ 0 := by
    intro h0
    have := (hinv.ready_iff m hmreach hmnd).mpr h0
    cases this
  rcases remInDeg_pos_edge _ _ _ hrem with ⟨e, heE, he2, he1⟩
  have he1reach : e.1 ∈ reach := (allEdges_mem_reach heap reach e heE).1
  have he1S : e.1 ∈ S := List.mem_filter.mpr ⟨he1reach, by simp [he1]⟩
  have hrank : rank e.1 < rank m := by
    rcases allEdges_connEdge heap reach e heE with ⟨bb, hbb, hbid, c, hc, hct⟩
    have := hacyc bb hbb c hc
    rw [hbid, hct, he2] at this
    exact this
  have := hmin e.1 he1S
  omega

/-- A block lying on a directed connector cycle is never executed. -/
theorem loopInv_cycle_skip {heap : Heap} {start_blocks : List Node}
    {fuel : Nat} {reach done : List String} {inDegF : Dict Int}
    (hbfs : bfsAux heap fuel start_blocks [] = Option.some reach)
    (hstart : ∀ b ∈ start_blocks, b ∈ heap)
    (hnd : (heapIds heap).Nodup)
    (hclosed : ∀ b ∈ heap, ∀ c ∈ b.allConns, ∃ t ∈ heap, t.id = c.target_id)
    (hinv : LoopInv (allEdges heap reach) reach done [] inDegF) :
    ∀ b, Relation.TransGen (connEdge heap) b b → b ∉ done := by
  have hmain : ∀ j, ∀ v, Relation.TransGen (connEdge heap) v v → v ∈ done →
      done.indexOf v ≠ j := by
    intro j
    induction j using Nat.strong_induction_on with
    | _ j ihj =>
        intro v hcyc hvdone hidx
        rcases Relation.TransGen.tail'_iff.mp hcyc with ⟨u, hvu, huv⟩
        have hucyc : Relation.TransGen (connEdge heap) u u :=
          Relation.TransGen.head' huv hvu
        have hv_reach : v ∈ reach := hinv.done_sub v hvdone
        have hu_reach : u ∈ reach :=
          bfs_reach_closed_rtg hbfs hstart hnd hclosed v u hv_reach hvu
        have hedge : (u, v) ∈ allEdges heap reach :=
          connEdge_mem_allEdges heap reach hnd hu_reach hv_reach huv
        rcases hinv.order (u, v) hedge hvdone with ⟨hudone, hlt⟩
        rw [hidx] at hlt
        exact ihj (done.indexOf u) hlt u hucyc hudone rfl
  intro b hcyc hbdone
  exact hmain (done.indexOf b) b hcyc hbdone rfl

/-- Shared packaging of the run facts for acyclic graphs (used by the C1
and C3 theorems): the executed sequence is exactly the reachable set, in
a dependency-respecting order, ending in one `complete`, with failing
blocks reported. -/
theorem execute_graph_acyclic_facts (execF : Node → Except String (Dict Val))
    (start_blocks : List Node) (heap : Heap) (rank : String → Nat)
    (hnd : (heapIds heap).Nodup)
    (hstart : ∀ x ∈ start_blocks, x ∈ heap)
    (hclosed : ∀ b ∈ heap, ∀ c ∈ b.allConns, ∃ t ∈ heap, t.id = c.target_id)
    (hacyc : ∀ b ∈ heap, ∀ c ∈ b.allConns, rank b.id < rank c.target_id) :
    ∃ events, execute_graph execF start_blocks heap = Option.some events ∧
      (startIds events).Nodup ∧
      (∀ id, id ∈ startIds events ↔ ∃ s ∈ start_blocks, Reaches heap s.id id) ∧
      (∀ u v, connEdge heap u v → u ∈ startIds events → v ∈ startIds events →
        (startIds events).indexOf u < (startIds events).indexOf v) ∧
      (∃ pre, events = pre ++ [Event.complete] ∧ Event.complete ∉ pre) ∧
      (∀ bid msg nm, (∀ n : Node, n.id = bid → execF n = Except.error msg) →
        bid ∈ startIds events → nameOf heap bid = Option.some nm →
        Event.error bid nm msg ∈ events) := by
  rcases execute_graph_run execF start_blocks heap hnd hstart with
    ⟨reach, events, inDegF, hbfs, hout, hinv, hcomp, _, herr⟩
  have hsound : ∀ id ∈ reach, ∃ s ∈ start_blocks, Reaches heap s.id id :=
    bfs_sound hbfs hstart
      (fun x hx => ⟨x, hx, Relation.ReflTransGen.refl⟩)
      (fun id h => absurd h (List.not_mem_nil id))
  have hfull : ∀ id ∈ reach, id ∈ startIds events :=
    loopInv_complete heap reach (startIds events) inDegF rank hinv hacyc
  have hiff : ∀ id, id ∈ startIds events ↔
      ∃ s ∈ start_blocks, Reaches heap s.id id := by
    intro id
    constructor
    · intro h
      exact hsound id (hinv.done_sub id h)
    · rintro ⟨s, hs, hr⟩
      have hsid : s.id ∈ reach := bfs_queue_absorbed hbfs s hs
      exact hfull id (bfs_reach_closed_rtg hbfs hstart hnd hclosed s.id id hsid hr)
  refine ⟨events, hout, ?_, hiff, ?_, hcomp, herr⟩
  · have := hinv.nd
    simpa using this
  · intro u v he hu hv
    have hur : u ∈ reach := hinv.done_sub u hu
    have hvr : v ∈ reach := hinv.done_sub v hv
    exact (hinv.order (u, v) (connEdge_mem_allEdges heap reach hnd hur hvr he)
      hv).2

/-- C1: for every acyclic block graph (witnessed by a rank strictly
increasing along connectors) and every start set, the sequence of
executed blocks — the `start`-event order of `execute_graph` — is a valid
topological order of the reachable subgraph: it lists each reachable
block exactly once, and whenever a connector joins two executed blocks
the source's `start` event strictly precedes the target's, so no block
executes (and no `start` event for it is emitted) before all of its
in-subgraph predecessors have executed, successfully or not. -/
theorem c1_execute_graph_topological_order
    (execF : Node → Except String (Dict Val))
    (start_blocks : List Node) (heap : Heap) (rank : String → Nat)
    (hnd : (heapIds heap).Nodup)
    (hstart : ∀ x ∈ start_blocks, x ∈ heap)
    (hclosed : ∀ b ∈ heap, ∀ c ∈ b.allConns, ∃ t ∈ heap, t.id = c.target_id)
    (hacyc : ∀ b ∈ heap, ∀ c ∈ b.allConns, rank b.id < rank c.target_id) :
    ∃ events, execute_graph execF start_blocks heap = Option.some events ∧
      (startIds events).Nodup ∧
      (∀ id, id ∈ startIds events ↔ ∃ s ∈ start_blocks, Reaches heap s.id id) ∧
      (∀ u v, connEdge heap u v → u ∈ startIds events → v ∈ startIds events →
        (startIds events).indexOf u < (startIds events).indexOf v) := by
  rcases execute_graph_acyclic_facts execF start_blocks heap rank hnd hstart
      hclosed hacyc with ⟨events, hout, hnodup, hiff, horder, _, _⟩
  exact ⟨events, hout, hnodup, hiff, horder⟩

/-- C2: a block with no connector path from any start block never appears
in the event stream — no `start`, `progress`, or `error` event carries its
id (the `complete` event carries none) — even though it is present in the
project's block map. -/
theorem c2_unreachable_block_never_in_stream
    (execF : Node → Except String (Dict Val))
    (start_blocks : List Node) (heap : Heap) (b : String)
    (hnd : (heapIds heap).Nodup)
    (hstart : ∀ x ∈ start_blocks, x ∈ heap)
    (hb : b ∈ heapIds heap)
    (hnopath : ∀ s ∈ start_blocks, ¬ Reaches heap s.id b) :
    ∃ events, execute_graph execF start_blocks heap = Option.some events ∧
      ∀ ev ∈ events, eventId ev ≠ Option.some b := by
  rcases execute_graph_run execF start_blocks heap hnd hstart with
    ⟨reach, events, inDegF, hbfs, hout, hinv, _, hids, _⟩
  refine ⟨events, hout, ?_⟩
  intro ev hev heq
  rcases hids ev hev with h | ⟨id, hid, hmem⟩
  · rw [h] at heq
    cases heq
  · rw [hid] at heq
    have hidb : id = b := by
      simpa using heq
    subst hidb
    rcases bfs_sound hbfs hstart
        (fun x hx => ⟨x, hx, Relation.ReflTransGen.refl⟩)
        (fun i h => absurd h (List.not_mem_nil i))
        id (hinv.done_sub id hmem) with ⟨s, hs, hr⟩
    exact hnopath s hs hr

/-- C3: if a reachable block's `execute()` raises (here: a block whose
dispatched `execute` always raises `msg`), `execute_graph` catches the
exception and emits an `error` event carrying the block's id, display
name, and error text; the in-degree decrement happens regardless of
success, so in an acyclic graph every reachable block — the failed
block's dependents included — still executes, and the stream still
terminates with the single `complete` event. -/
theorem c3_error_reported_and_run_continues
    (execF : Node → Except String (Dict Val))
    (start_blocks : List Node) (heap : Heap) (rank : String → Nat)
    (b bn msg : String)
    (hnd : (heapIds heap).Nodup)
    (hstart : ∀ x ∈ start_blocks, x ∈ heap)
    (hclosed : ∀ x ∈ heap, ∀ c ∈ x.allConns, ∃ t ∈ heap, t.id = c.target_id)
    (hacyc : ∀ x ∈ heap, ∀ c ∈ x.allConns, rank x.id < rank c.target_id)
    (hfail : ∀ n : Node, n.id = b → execF n = Except.error msg)
    (hbreach : ∃ s ∈ start_blocks, Reaches heap s.id b)
    (hname : nameOf heap b = Option.some bn) :
    ∃ events, execute_graph execF start_blocks heap = Option.some events ∧
      Event.error b bn msg ∈ events ∧
      (∀ v, connEdge heap b v → v ∈ startIds events) ∧
      (∀ id, id ∈ startIds events ↔ ∃ s ∈ start_blocks, Reaches heap s.id id) ∧
      (∃ pre, events = pre ++ [Event.complete] ∧ Event.complete ∉ pre) := by
  rcases execute_graph_acyclic_facts execF start_blocks heap rank hnd hstart
      hclosed hacyc with ⟨events, hout, _, hiff, _, hcomp, herr⟩
  have hbin : b ∈ startIds events := (hiff b).mpr hbreach
  refine ⟨events, hout, herr b msg bn hfail hbin hname, ?_, hiff, hcomp⟩
  intro v hv
  rcases hbreach with ⟨s, hs, hr⟩
  exact (hiff v).mpr ⟨s, hs, hr.tail hv⟩

/-- C10: `execute_graph` terminates on every finite block graph, cycles
included — the chosen fuel always suffices, the stream ends with exactly
one `complete` event in final position, and a block lying on a directed
connector cycle never reaches in-degree zero: no `start`, `progress`, or
`error` event carries its id and no failure is reported for it. -/
theorem c10_execute_graph_terminates_skips_cycles
    (execF : Node → Except String (Dict Val))
    (start_blocks : List Node) (heap : Heap)
    (hnd : (heapIds heap).Nodup)
    (hstart : ∀ x ∈ start_blocks, x ∈ heap)
    (hclosed : ∀ x ∈ heap, ∀ c ∈ x.allConns, ∃ t ∈ heap, t.id = c.target_id) :
    ∃ events, execute_graph execF start_blocks heap = Option.some events ∧
      (∃ pre, events = pre ++ [Event.complete] ∧ Event.complete ∉ pre) ∧
      (∀ b, Relation.TransGen (connEdge heap) b b →
        ∀ ev ∈ events, eventId ev ≠ Option.some b) := by
  rcases execute_graph_run execF start_blocks heap hnd hstart with
    ⟨reach, events, inDegF, hbfs, hout, hinv, hcomp, hids, _⟩
  refine ⟨events, hout, hcomp, ?_⟩
  intro b hcyc ev hev heq
  rcases hids ev hev with h | ⟨id, hid, hmem⟩
  · rw [h] at heq
    cases heq
  · rw [hid] at heq
    have hidb : id = b := by simpa using heq
    subst hidb
    exact loopInv_cycle_skip hbfs hstart hnd hclosed hinv id hcyc hmem

/-! ## Concrete graphs instantiating the scheduler theorems -/

/-- If no block in the heap owns a connector, every reachability path is
empty. -/
theorem reaches_of_no_conns {heap : Heap}
    (hnone : ∀ b ∈ heap, b.allConns = []) {u v : String}
    (h : Reaches heap u v) : u = v := by
  induction h with
  | refl => rfl
  | tail _ hstep ih =>
      rcases hstep with ⟨b, hb, _, c, hc, _⟩
      rw [hnone b hb] at hc
      cases hc

/-- Connector `s.o → x.i` into the cycle. -/
def exConnSX : Conn := ⟨"s", "o", "x", "i", 10⟩

/-- Connector `x.o → y.i` (first half of the cycle). -/
def exConnXY : Conn := ⟨"x", "o", "y", "i", 11⟩

/-- Connector `y.o → x.i` (second half of the cycle). -/
def exConnYX : Conn := ⟨"y", "o", "x", "i", 12⟩

/-- Entry block `s` feeding the two-block cycle. -/
def exCycS : Node :=
  mkNode "s" "S" "REACT" (Cfg.REACT "" "") [] [("o", Val.none)] []
    [("o", [exConnSX])]

/-- Cycle block `x` (`x.o → y.i`). -/
def exCycX : Node :=
  mkNode "x" "X" "REACT" (Cfg.REACT "" "") [("i", Val.none)] [("o", Val.none)]
    [("i", Option.some exConnYX)] [("o", [exConnXY])]

/-- Cycle block `y` (`y.o → x.i`). -/
def exCycY : Node :=
  mkNode "y" "Y" "REACT" (Cfg.REACT "" "") [("i", Val.none)] [("o", Val.none)]
    [("i", Option.some exConnXY)] [("o", [exConnYX])]

/-- A heap whose reachable subgraph contains the directed cycle
`x → y → x`. -/
def exCycHeap : Heap := [exCycS, exCycX, exCycY]

/-- Connector `w.done → d.i`: the dependent of the failing block. -/
def exConnWD : Conn := ⟨"w", "done", "d", "i", 20⟩

/-- Failing block `w`: its dispatched `execute` raises. -/
def exFailW : Node :=
  mkNode "w" "Waiter" "WAIT" (Cfg.WAIT (Val.str "oops"))
    [("delay", Val.str "oops")] [("done", Val.none)]
    [("delay", Option.none)] [("done", [exConnWD])]

/-- Dependent block `d`, downstream of the failing block only. -/
def exDepD : Node :=
  mkNode "d" "Dep" "REACT" (Cfg.REACT "" "") [("i", Val.none)] []
    [("i", Option.some exConnWD)] []

/-- An execution function under which block `w` always raises. -/
def exFailExec : Node → Except String (Dict Val) :=
  fun n =>
    if n.id = "w" then Except.error "RuntimeError: boom" else dispatchExecute n

/-! ## `remove_block` characterization

Well-formedness of the outgoing-connector registry: every connector in a
block's outgoing list names that block and that key as its source and
occurs in the list exactly once, and the dict's keys are unique.  Every
state built by `register_output` + `connect` satisfies it. -/

def OutWF (heap : Heap) : Prop :=
  ∀ n ∈ heap, (n.output_connectors.map Prod.fst).Nodup ∧
    ∀ kv ∈ n.output_connectors, ∀ c ∈ kv.2,
      c.source_id = n.id ∧ c.source_output_key = kv.1 ∧ kv.2.count c = 1

theorem mem_allConns {b : Node} {c : Conn} :
    c ∈ b.allConns ↔ ∃ kv ∈ b.output_connectors, c ∈ kv.2 := by
  simp only [Node.allConns, List.mem_flatten, List.mem_map]
  constructor
  · rintro ⟨l, ⟨kv, hkv, hl⟩, hc⟩
    exact ⟨kv, hkv, hl ▸ hc⟩
  · rintro ⟨kv, hkv, hc⟩
    exact ⟨kv.2, ⟨kv, hkv, rfl⟩, hc⟩

theorem findNode_of_mem_nodup {heap : Heap} {n : Node}
    (hnd : (heapIds heap).Nodup) (hmem : n ∈ heap) :
    findNode heap n.id = Option.some n := by
  induction heap with
  | nil => cases hmem
  | cons b rest ih =>
      simp only [heapIds, List.map_cons, List.nodup_cons] at hnd
      rcases List.mem_cons.mp hmem with h | h
      · subst h
        simp [findNode, List.find?]
      · have hb : ¬ (b.id = n.id) := by
          intro e
          exact hnd.1 (by rw [e]; exact List.mem_map_of_mem Node.id h)
        simpa [findNode, List.find?, hb] using ih hnd.2 h

theorem findNode_eq_none {heap : Heap} {id : String}
    (h : id ∉ heapIds heap) : findNode heap id = Option.none := by
  rcases hf : findNode heap id with _ | b
  · rfl
  · obtain ⟨hmem, hid⟩ := findNode_some hf
    exact absurd (hid ▸ List.mem_map_of_mem Node.id hmem) h

theorem mem_dSet {α : Type} {d : Dict α} {k : String} {v : α}
    {kv' : String × α} (h : kv' ∈ dSet d k v) : kv' = (k, v) ∨ kv' ∈ d := by
  induction d with
  | nil => simpa [dSet] using h
  | cons kv rest ih =>
      by_cases hk : kv.1 = k
      · simp only [dSet, if_pos hk] at h
        rcases List.mem_cons.mp h with h | h
        · exact Or.inl h
        · exact Or.inr (List.mem_cons_of_mem _ h)
      · simp only [dSet, if_neg hk] at h
        rcases List.mem_cons.mp h with h | h
        · exact Or.inr (h ▸ List.mem_cons_self _ _)
        · rcases ih h with h' | h'
          · exact Or.inl h'
          · exact Or.inr (List.mem_cons_of_mem _ h')

theorem mem_dSet_self {α : Type} (d : Dict α) (k : String) (v : α) :
    (k, v) ∈ dSet d k v := by
  induction d with
  | nil => simp [dSet]
  | cons kv rest ih =>
      by_cases hk : kv.1 = k
      · simp [dSet, hk]
      · simp only [dSet, if_neg hk]
        exact List.mem_cons_of_mem _ ih

theorem mem_dSet_of_mem_ne {α : Type} {d : Dict α} {k : String} {v : α}
    {kv' : String × α} (hmem : kv' ∈ d) (hne : kv'.1 ≠ k) :
    kv' ∈ dSet d k v := by
  induction d with
  | nil => cases hmem
  | cons kv rest ih =>
      by_cases hk : kv.1 = k
      · simp only [dSet, if_pos hk]
        rcases List.mem_cons.mp hmem with h | h
        · cases h
          exact absurd hk hne
        · exact List.mem_cons_of_mem _ h
      · simp only [dSet, if_neg hk]
        rcases List.mem_cons.mp hmem with h | h
        · exact h ▸ List.mem_cons_self _ _
        · exact List.mem_cons_of_mem _ (ih h)

theorem mem_dSet_key_nodup {α : Type} {d : Dict α} {k : String} {v : α}
    {kv' : String × α} (hnd : (d.map Prod.fst).Nodup)
    (h : kv' ∈ dSet d k v) (hk' : kv'.1 = k) : kv' = (k, v) := by
  induction d with
  | nil => simpa [dSet] using h
  | cons kv rest ih =>
      simp only [List.map_cons, List.nodup_cons] at hnd
      by_cases hk : kv.1 = k
      · simp only [dSet, if_pos hk] at h
        rcases List.mem_cons.mp h with h | h
        · exact h
        · exfalso
          have hm : kv'.1 ∈ rest.map Prod.fst := List.mem_map_of_mem Prod.fst h
          rw [hk', ← hk] at hm
          exact hnd.1 hm
      · simp only [dSet, if_neg hk] at h
        rcases List.mem_cons.mp h with h | h
        · exfalso
          cases h
          exact hk hk'
        · exact ih hnd.2 h

theorem heapIds_eraseP_not_mem {heap : Heap} {bid : String}
    (hnd : (heapIds heap).Nodup) :
    bid ∉ heapIds (heap.eraseP (fun b => b.id = bid)) := by
  induction heap with
  | nil => simp [List.eraseP, heapIds]
  | cons b rest ih =>
      simp only [heapIds, List.map_cons, List.nodup_cons] at hnd
      by_cases hb : b.id = bid
      · rw [List.eraseP_cons_of_pos (by simp [hb])]
        intro hmem
        exact hnd.1 (by rw [hb]; exact hmem)
      · rw [List.eraseP_cons_of_neg (by simp [hb])]
        simp only [heapIds, List.map_cons, List.mem_cons]
        rintro (h | h)
        · exact hb h.symm
        · exact ih hnd.2 h

theorem heapIds_eraseP_mem {heap : Heap} {bid id : String} (hne : id ≠ bid) :
    id ∈ heapIds (heap.eraseP (fun b => b.id = bid)) ↔ id ∈ heapIds heap := by
  induction heap with
  | nil => simp [List.eraseP, heapIds]
  | cons b rest ih =>
      by_cases hb : b.id = bid
      · rw [List.eraseP_cons_of_pos (by simp [hb])]
        simp only [heapIds, List.map_cons, List.mem_cons]
        constructor
        · exact fun h => Or.inr h
        · rintro (h | h)
          · exact absurd (h.trans hb) hne
          · exact h
      · rw [List.eraseP_cons_of_neg (by simp [hb])]
        simp only [heapIds, List.map_cons, List.mem_cons]
        constructor
        · rintro (h | h)
          · exact Or.inl h
          · exact Or.inr (ih.mp h)
        · rintro (h | h)
          · exact Or.inl h
          · exact Or.inr (ih.mpr h)

theorem findNode_eraseP {heap : Heap} {bid id : String} (hne : id ≠ bid) :
    findNode (heap.eraseP (fun b => b.id = bid)) id = findNode heap id := by
  induction heap with
  | nil => simp [List.eraseP]
  | cons b rest ih =>
      by_cases hb : b.id = bid
      · rw [List.eraseP_cons_of_pos (by simp [hb])]
        have hbi : ¬ (b.id = id) := by
          rw [hb]
          exact fun e => hne e.symm
        simp [findNode, List.find?, hbi]
      · rw [List.eraseP_cons_of_neg (by simp [hb])]
        by_cases hbi : b.id = id
        · simp [findNode, List.find?, hbi]
        · simpa [findNode, List.find?, hbi] using ih

theorem mem_of_mem_eraseP_heap {heap : Heap} {bid : String} {n : Node}
    (h : n ∈ heap.eraseP (fun b => b.id = bid)) : n ∈ heap :=
  List.mem_of_mem_eraseP h

theorem disconnectInput_none (heap : Heap) (k0 : String) :
    disconnectInput heap (k0, Option.none) = heap := rfl

theorem disconnectInput_some (heap : Heap) (k0 : String) (c : Conn) :
    disconnectInput heap (k0, Option.some c) =
      (match findNode heap c.source_id with
       | Option.some source =>
           (match dGet? source.output_connectors c.source_output_key with
            | Option.some l =>
                if c ∈ l then
                  let outc := dSet source.output_connectors
                    c.source_output_key (l.erase c)
                  updateNode heap { source with output_connectors := outc }
                else heap
            | Option.none => heap)
       | Option.none => heap) := rfl

/-- One phase-1 step: ids are preserved, well-formedness is preserved,
every block survives with only its outgoing list at the processed
connector's key possibly shrunk by that connector, blocks that are not
the processed connector's source are untouched, and after a step that
processed connector occurs in no outgoing list. -/
theorem disconnectInput_spec (heap : Heap) (kv : String × Option Conn)
    (hnd : (heapIds heap).Nodup) (hwf : OutWF heap) :
    heapIds (disconnectInput heap kv) = heapIds heap ∧
    OutWF (disconnectInput heap kv) ∧
    (∀ id n, findNode heap id = Option.some n →
      ∃ n', findNode (disconnectInput heap kv) id = Option.some n' ∧
        n'.id = n.id ∧ n'.name = n.name ∧ n'.inputs = n.inputs ∧
        n'.outputs = n.outputs ∧ n'.input_connectors = n.input_connectors ∧
        n'.output_connectors.map Prod.fst = n.output_connectors.map Prod.fst ∧
        (∀ c', c' ∈ n'.allConns → c' ∈ n.allConns) ∧
        (∀ c', c' ∈ n.allConns → kv.2 ≠ Option.some c' → c' ∈ n'.allConns)) ∧
    (∀ id n, findNode heap id = Option.some n →
      (∀ c, kv.2 = Option.some c → c.source_id ≠ id) →
      findNode (disconnectInput heap kv) id = Option.some n) ∧
    (∀ c, kv.2 = Option.some c → ∀ n' ∈ disconnectInput heap kv,
      c ∉ n'.allConns) := by
  rcases kv with ⟨k0, oc⟩
  rcases oc with _ | c
  · rw [disconnectInput_none]
    refine ⟨rfl, hwf, ?_, ?_, ?_⟩
    · intro id n hfn
      exact ⟨n, hfn, rfl, rfl, rfl, rfl, rfl, rfl, fun c' h => h,
        fun c' h _ => h⟩
    · intro id n hfn _
      exact hfn
    · intro c hc
      cases hc
  · have hunchanged : ∀ heap', heap' = heap →
        (∀ n' ∈ heap', c ∉ n'.allConns) →
        heapIds heap' = heapIds heap ∧ OutWF heap' ∧
        (∀ id n, findNode heap id = Option.some n →
          ∃ n', findNode heap' id = Option.some n' ∧
            n'.id = n.id ∧ n'.name = n.name ∧ n'.inputs = n.inputs ∧
            n'.outputs = n.outputs ∧ n'.input_connectors = n.input_connectors ∧
            n'.output_connectors.map Prod.fst =
              n.output_connectors.map Prod.fst ∧
            (∀ c', c' ∈ n'.allConns → c' ∈ n.allConns) ∧
            (∀ c', c' ∈ n.allConns →
              (k0, Option.some c).2 ≠ Option.some c' → c' ∈ n'.allConns)) ∧
        (∀ id n, findNode heap id = Option.some n →
          (∀ c0, (k0, Option.some c).2 = Option.some c0 →
            c0.source_id ≠ id) →
          findNode heap' id = Option.some n) ∧
        (∀ c0, (k0, Option.some c).2 = Option.some c0 →
          ∀ n' ∈ heap', c0 ∉ n'.allConns) := by
      intro heap' he habs
      subst he
      refine ⟨rfl, hwf, ?_, ?_, ?_⟩
      · intro id n hfn
        exact ⟨n, hfn, rfl, rfl, rfl, rfl, rfl, rfl, fun c' h => h,
          fun c' h _ => h⟩
      · intro id n hfn _
        exact hfn
      · intro c0 hc0 n' hn'
        cases hc0
        exact habs n' hn'
    rcases hsf : findNode heap c.source_id with _ | source
    · have hd : disconnectInput heap (k0, Option.some c) = heap := by
        rw [disconnectInput_some, hsf]
      rw [hd]
      refine hunchanged heap rfl ?_
      intro n' hn' hcc
      rcases mem_allConns.mp hcc with ⟨kv', hkv', hckv'⟩
      have hwn := (hwf n' hn').2 kv' hkv' c hckv'
      have hfn' := findNode_of_mem_nodup hnd hn'
      rw [← hwn.1] at hfn'
      rw [hsf] at hfn'
      cases hfn'
    · obtain ⟨hsmem, hsid⟩ := findNode_some hsf
      rcases hgl : dGet? source.output_connectors c.source_output_key
        with _ | l
      · have hd : disconnectInput heap (k0, Option.some c) = heap := by
          rw [disconnectInput_some, hsf]
          dsimp only
          rw [hgl]
        rw [hd]
        refine hunchanged heap rfl ?_
        intro n' hn' hcc
        rcases mem_allConns.mp hcc with ⟨kv', hkv', hckv'⟩
        have hwn := (hwf n' hn').2 kv' hkv' c hckv'
        have hfn' := findNode_of_mem_nodup hnd hn'
        rw [← hwn.1] at hfn'
        rw [hsf] at hfn'
        have hn's : n' = source := by
          injection hfn'.symm
        subst hn's
        have hkeys : kv'.1 ∈ n'.output_connectors.map Prod.fst :=
          List.mem_map_of_mem Prod.fst hkv'
        rcases dGet?_isSome_of_mem_keys _ _ hkeys with ⟨v, hv⟩
        rw [← hwn.2.1] at hv
        rw [hgl] at hv
        cases hv
      · by_cases hcl : c ∈ l
        · have hd : disconnectInput heap (k0, Option.some c) = updateNode heap { source with output_connectors := dSet source.output_connectors c.source_output_key (l.erase c) } := by
            rw [disconnectInput_some, hsf]
            dsimp only
            rw [hgl]
            dsimp only
            rw [if_pos hcl]
          have hwfs := (hwf source hsmem).2 (c.source_output_key, l)
            (dGet?_mem_of_some _ _ _ hgl)
          have hknd := (hwf source hsmem).1
          have hcount := (hwfs c hcl).2.2
          have hnoterase : c ∉ l.erase c := by
            have h0 : (l.erase c).count c = l.count c - 1 :=
              List.count_erase_self c l
            rw [hcount] at h0
            exact List.count_eq_zero.mp h0
          have hdHas : dHas source.output_connectors c.source_output_key :=
            by simp [dHas, hgl]
          rw [hd]
          refine ⟨updateNode_heapIds heap _, ?_, ?_, ?_, ?_⟩
          · -- OutWF preserved
            intro n' hn'
            unfold updateNode at hn'
            rcases List.mem_map.mp hn' with ⟨m, hm, hf⟩
            dsimp only at hf
            by_cases hmid : m.id = source.id
            · rw [if_pos hmid] at hf
              subst hf
              constructor
              · exact (dSet_keys_of_has _ _ _ hdHas).symm ▸ hknd
              · intro kv' hkv' c'' hc''
                rcases mem_dSet hkv' with he | hin
                · subst he
                  have hcl'' : c'' ∈ l := List.mem_of_mem_erase hc''
                  have hw'' := hwfs c'' hcl''
                  have hne'' : c'' ≠ c := by
                    intro e
                    subst e
                    exact hnoterase hc''
                  refine ⟨hw''.1, hw''.2.1, ?_⟩
                  rw [List.count_erase_of_ne hne'']
                  exact hw''.2.2
                · exact (hwf source hsmem).2 kv' hin c'' hc''
            · rw [if_neg hmid] at hf
              subst hf
              exact hwf m hm
          · -- per-node description
            intro id n hfn
            rw [findNode_updateNode, hfn]
            rw [Option.map_some']
            dsimp only
            by_cases hni : n.id = source.id
            · have hid : id = c.source_id := by
                rw [← (findNode_some hfn).2, hni, hsid]
              rw [hid] at hfn
              rw [hsf] at hfn
              have hns : n = source := by injection hfn.symm
              subst hns
              rw [if_pos hni]
              refine ⟨_, rfl, rfl, rfl, rfl, rfl, rfl, ?_, ?_, ?_⟩
              · exact dSet_keys_of_has _ _ _ hdHas
              · intro c' hc'
                rcases mem_allConns.mp hc' with ⟨kv', hkv', hckv'⟩
                rcases mem_dSet hkv' with he | hin
                · subst he
                  exact mem_allConns.mpr ⟨(c.source_output_key, l),
                    dGet?_mem_of_some _ _ _ hgl,
                    List.mem_of_mem_erase hckv'⟩
                · exact mem_allConns.mpr ⟨kv', hin, hckv'⟩
              · intro c' hc' hne
                have hcc' : c' ≠ c := by
                  intro e
                  exact hne (by rw [e])
                rcases mem_allConns.mp hc' with ⟨kv', hkv', hckv'⟩
                by_cases hkk : kv'.1 = c.source_output_key
                · have hg' : dGet? n.output_connectors kv'.1 =
                      Option.some kv'.2 :=
                    dGet?_of_mem_nodup _ _ _ hkv' hknd
                  rw [hkk, hgl] at hg'
                  have hl' : kv'.2 = l := by injection hg'.symm
                  refine mem_allConns.mpr ⟨(c.source_output_key, l.erase c),
                    mem_dSet_self _ _ _, ?_⟩
                  exact (List.mem_erase_of_ne hcc').mpr (hl' ▸ hckv')
                · exact mem_allConns.mpr
                    ⟨kv', mem_dSet_of_mem_ne hkv' hkk, hckv'⟩
            · rw [if_neg hni]
              exact ⟨n, rfl, rfl, rfl, rfl, rfl, rfl, rfl, fun c' h => h,
                fun c' h _ => h⟩
          · -- untouched blocks
            intro id n hfn hna
            have hcsi : c.source_id ≠ id := hna c rfl
            rw [findNode_updateNode, hfn, Option.map_some']
            dsimp only
            rw [if_neg ?hcond2]
            case hcond2 =>
              intro e
              exact hcsi (by rw [← hsid, ← e, (findNode_some hfn).2])
          · -- the processed connector is gone
            intro c0 hc0 n' hn' hcc
            have hcc0 : c0 = c := by injection hc0.symm
            subst hcc0
            unfold updateNode at hn'
            rcases List.mem_map.mp hn' with ⟨m, hm, hf⟩
            dsimp only at hf
            by_cases hmid : m.id = source.id
            · rw [if_pos hmid] at hf
              subst hf
              rcases mem_allConns.mp hcc with ⟨kv', hkv', hckv'⟩
              rcases mem_dSet hkv' with he | hin
              · subst he
                exact hnoterase hckv'
              · have hw' := (hwf source hsmem).2 kv' hin c0 hckv'
                have hkk : kv'.1 = c0.source_output_key := hw'.2.1.symm
                have he2 := mem_dSet_key_nodup hknd hkv' hkk
                rw [he2] at hckv'
                exact hnoterase hckv'
            · rw [if_neg hmid] at hf
              subst hf
              rcases mem_allConns.mp hcc with ⟨kv', hkv', hckv'⟩
              have hw' := (hwf m hm).2 kv' hkv' c0 hckv'
              exact hmid (by rw [← hw'.1, hsid])
        · have hd : disconnectInput heap (k0, Option.some c) = heap := by
            rw [disconnectInput_some, hsf]
            dsimp only
            rw [hgl]
            dsimp only
            rw [if_neg hcl]
          rw [hd]
          refine hunchanged heap rfl ?_
          intro n' hn' hcc
          rcases mem_allConns.mp hcc with ⟨kv', hkv', hckv'⟩
          have hwn := (hwf n' hn').2 kv' hkv' c hckv'
          have hfn' := findNode_of_mem_nodup hnd hn'
          rw [← hwn.1] at hfn'
          rw [hsf] at hfn'
          have hn's : n' = source := by injection hfn'.symm
          subst hn's
          have hg' : dGet? n'.output_connectors kv'.1 = Option.some kv'.2 :=
            dGet?_of_mem_nodup _ _ _ hkv' (hwf n' hn').1
          rw [← hwn.2.1, hgl] at hg'
          have hl' : kv'.2 = l := by injection hg'.symm
          rw [hl'] at hckv'
          exact hcl hckv'

/-- Phase 1 over a list of input slots: iterated `disconnectInput_spec`. -/
theorem foldDisconnect_spec (kvs : List (String × Option Conn)) (heap : Heap)
    (hnd : (heapIds heap).Nodup) (hwf : OutWF heap) :
    heapIds (kvs.foldl disconnectInput heap) = heapIds heap ∧
    OutWF (kvs.foldl disconnectInput heap) ∧
    (∀ id n, findNode heap id = Option.some n →
      ∃ n', findNode (kvs.foldl disconnectInput heap) id = Option.some n' ∧
        n'.id = n.id ∧ n'.name = n.name ∧ n'.inputs = n.inputs ∧
        n'.outputs = n.outputs ∧ n'.input_connectors = n.input_connectors ∧
        n'.output_connectors.map Prod.fst = n.output_connectors.map Prod.fst ∧
        (∀ c', c' ∈ n'.allConns → c' ∈ n.allConns) ∧
        (∀ c', c' ∈ n.allConns → (∀ kv ∈ kvs, kv.2 ≠ Option.some c') →
          c' ∈ n'.allConns)) ∧
    (∀ id n, findNode heap id = Option.some n →
      (∀ kv ∈ kvs, ∀ c, kv.2 = Option.some c → c.source_id ≠ id) →
      findNode (kvs.foldl disconnectInput heap) id = Option.some n) ∧
    (∀ kv ∈ kvs, ∀ c, kv.2 = Option.some c →
      ∀ n' ∈ kvs.foldl disconnectInput heap, c ∉ n'.allConns) := by
  induction kvs generalizing heap with
  | nil =>
      refine ⟨rfl, hwf, ?_, ?_, ?_⟩
      · intro id n hfn
        exact ⟨n, hfn, rfl, rfl, rfl, rfl, rfl, rfl, fun c' h => h,
          fun c' h _ => h⟩
      · intro id n hfn _
        exact hfn
      · intro kv hkv
        cases hkv
  | cons kv rest ih =>
      obtain ⟨hids1, hwf1, hnode1, hunt1, hgone1⟩ :=
        disconnectInput_spec heap kv hnd hwf
      have hnd1 : (heapIds (disconnectInput heap kv)).Nodup := by
        rw [hids1]
        exact hnd
      obtain ⟨hids2, hwf2, hnode2, hunt2, hgone2⟩ :=
        ih (disconnectInput heap kv) hnd1 hwf1
      simp only [List.foldl_cons]
      refine ⟨hids2.trans hids1, hwf2, ?_, ?_, ?_⟩
      · intro id n hfn
        obtain ⟨n1, hf1, hid1, hname1, hin1, hout1, hic1, hkeys1, hshrink1,
          hkeep1⟩ := hnode1 id n hfn
        obtain ⟨n2, hf2, hid2, hname2, hin2, hout2, hic2, hkeys2, hshrink2,
          hkeep2⟩ := hnode2 id n1 hf1
        refine ⟨n2, hf2, hid2.trans hid1, hname2.trans hname1,
          hin2.trans hin1, hout2.trans hout1, hic2.trans hic1,
          hkeys2.trans hkeys1, fun c' h => hshrink1 c' (hshrink2 c' h), ?_⟩
        intro c' hc' hnotin
        refine hkeep2 c' (hkeep1 c' hc'
          (hnotin kv (List.mem_cons_self _ _))) ?_
        intro kv' hkv'
        exact hnotin kv' (List.mem_cons_of_mem _ hkv')
      · intro id n hfn hna
        refine hunt2 id n (hunt1 id n hfn ?_) ?_
        · intro c hc
          exact hna kv (List.mem_cons_self _ _) c hc
        · intro kv' hkv' c hc
          exact hna kv' (List.mem_cons_of_mem _ hkv') c hc
      · intro kv' hkv' c hc n' hn' hcc
        rcases List.mem_cons.mp hkv' with he | hin
        · subst he
          have hndF : (heapIds (rest.foldl disconnectInput
              (disconnectInput heap kv'))).Nodup := by
            rw [hids2]
            exact hnd1
          have hfn' := findNode_of_mem_nodup hndF hn'
          have hmem1 : n'.id ∈ heapIds (disconnectInput heap kv') := by
            rw [← hids2]
            exact List.mem_map_of_mem Node.id hn'
          rcases findNode_isSome_of_mem hmem1 with ⟨m, hm⟩
          obtain ⟨n2, hf2, _, _, _, _, _, _, hshrink2, _⟩ :=
            hnode2 n'.id m hm
          have hn2 : n2 = n' := by
            rw [hfn'] at hf2
            injection hf2.symm
          subst hn2
          exact hgone1 c hc m (findNode_some hm).1 (hshrink2 c hcc)
        · exact hgone2 kv' hin c hc n' hn' hcc

/-- One phase-2 step: ids preserved, outgoing lists untouched, input
slots only ever change to a cleared (`None`) slot, and the processed
connector's target slot is cleared. -/
theorem clearTargetSlot_spec (heap : Heap) (c : Conn) :
    heapIds (clearTargetSlot heap c) = heapIds heap ∧
    (∀ id n, findNode heap id = Option.some n →
      ∃ n', findNode (clearTargetSlot heap c) id = Option.some n' ∧
        n'.id = n.id ∧ n'.name = n.name ∧ n'.inputs = n.inputs ∧
        n'.outputs = n.outputs ∧
        n'.output_connectors = n.output_connectors ∧
        (∀ k, dGet? n'.input_connectors k = dGet? n.input_connectors k ∨
          dGet? n'.input_connectors k = Option.some Option.none) ∧
        (∀ k, ¬ (c.target_id = id ∧ c.target_input_key = k) →
          dGet? n'.input_connectors k = dGet? n.input_connectors k)) ∧
    (∀ n', findNode (clearTargetSlot heap c) c.target_id = Option.some n' →
      dGet? n'.input_connectors c.target_input_key =
        Option.some Option.none) := by
  rcases hft : findNode heap c.target_id with _ | target
  · have hd : clearTargetSlot heap c = heap := by
      unfold clearTargetSlot
      rw [hft]
    rw [hd]
    refine ⟨rfl, ?_, ?_⟩
    · intro id n hfn
      exact ⟨n, hfn, rfl, rfl, rfl, rfl, rfl, fun k => Or.inl rfl,
        fun k _ => rfl⟩
    · intro n' hn'
      rw [hft] at hn'
      cases hn'
  · obtain ⟨htmem, htid⟩ := findNode_some hft
    have hd : clearTargetSlot heap c = updateNode heap { target with input_connectors := dSet target.input_connectors c.target_input_key Option.none } := by
      unfold clearTargetSlot
      rw [hft]
    rw [hd]
    refine ⟨updateNode_heapIds _ _, ?_, ?_⟩
    · intro id n hfn
      rw [findNode_updateNode, hfn, Option.map_some']
      dsimp only
      by_cases hni : n.id = target.id
      · have hid : id = c.target_id := by
          rw [← (findNode_some hfn).2, hni, htid]
        have hnt : n = target := by
          rw [hid] at hfn
          rw [hft] at hfn
          injection hfn.symm
        subst hnt
        rw [if_pos hni]
        refine ⟨_, rfl, rfl, rfl, rfl, rfl, rfl, ?_, ?_⟩
        · intro k
          by_cases hk : k = c.target_input_key
          · subst hk
            exact Or.inr (dGet?_dSet_self _ _ _)
          · exact Or.inl (dGet?_dSet_ne _ _ _ _ hk)
        · intro k hk
          have hk' : k ≠ c.target_input_key := by
            intro e
            exact hk ⟨hid.symm, e.symm⟩
          exact dGet?_dSet_ne _ _ _ _ hk'
      · rw [if_neg hni]
        exact ⟨n, rfl, rfl, rfl, rfl, rfl, rfl, fun k => Or.inl rfl,
          fun k _ => rfl⟩
    · intro n' hfn'
      rw [findNode_updateNode, hft, Option.map_some'] at hfn'
      dsimp only at hfn'
      rw [if_pos rfl] at hfn'
      have he := Option.some.inj hfn'
      rw [← he]
      exact dGet?_dSet_self _ _ _

/-- Phase 2 over a list of outgoing connectors: iterated
`clearTargetSlot_spec`; every processed connector's target slot ends up
cleared because later steps never write anything but `None`. -/
theorem foldClear_spec (cs : List Conn) (heap : Heap) :
    heapIds (cs.foldl clearTargetSlot heap) = heapIds heap ∧
    (∀ id n, findNode heap id = Option.some n →
      ∃ n', findNode (cs.foldl clearTargetSlot heap) id = Option.some n' ∧
        n'.id = n.id ∧ n'.name = n.name ∧ n'.inputs = n.inputs ∧
        n'.outputs = n.outputs ∧
        n'.output_connectors = n.output_connectors ∧
        (∀ k, dGet? n'.input_connectors k = dGet? n.input_connectors k ∨
          dGet? n'.input_connectors k = Option.some Option.none) ∧
        (∀ k, (∀ c ∈ cs, ¬ (c.target_id = id ∧ c.target_input_key = k)) →
          dGet? n'.input_connectors k = dGet? n.input_connectors k)) ∧
    (∀ c ∈ cs, ∀ n',
      findNode (cs.foldl clearTargetSlot heap) c.target_id =
        Option.some n' →
      dGet? n'.input_connectors c.target_input_key =
        Option.some Option.none) := by
  induction cs generalizing heap with
  | nil =>
      refine ⟨rfl, ?_, ?_⟩
      · intro id n hfn
        exact ⟨n, hfn, rfl, rfl, rfl, rfl, rfl, fun k => Or.inl rfl,
          fun k _ => rfl⟩
      · intro c hc
        cases hc
  | cons c rest ih =>
      obtain ⟨hids1, hnode1, hslot1⟩ := clearTargetSlot_spec heap c
      obtain ⟨hids2, hnode2, hslot2⟩ := ih (clearTargetSlot heap c)
      simp only [List.foldl_cons]
      refine ⟨hids2.trans hids1, ?_, ?_⟩
      · intro id n hfn
        obtain ⟨n1, hf1, hid1, hname1, hin1, hout1, hoc1, hany1, hkeep1⟩ :=
          hnode1 id n hfn
        obtain ⟨n2, hf2, hid2, hname2, hin2, hout2, hoc2, hany2, hkeep2⟩ :=
          hnode2 id n1 hf1
        refine ⟨n2, hf2, hid2.trans hid1, hname2.trans hname1,
          hin2.trans hin1, hout2.trans hout1, hoc2.trans hoc1, ?_, ?_⟩
        · intro k
          rcases hany2 k with h2 | h2
          · rcases hany1 k with h1 | h1
            · exact Or.inl (h2.trans h1)
            · exact Or.inr (h2.trans h1)
          · exact Or.inr h2
        · intro k hk
          refine (hkeep2 k ?_).trans (hkeep1 k
            (hk c (List.mem_cons_self _ _)))
          intro c' hc'
          exact hk c' (List.mem_cons_of_mem _ hc')
      · intro c' hc' n' hfn'
        rcases List.mem_cons.mp hc' with he | hin
        · subst he
          rcases h1 : findNode (clearTargetSlot heap c') c'.target_id
            with _ | n1
          · exfalso
            have hm : n'.id ∈ heapIds (clearTargetSlot heap c') := by
              rw [← hids2]
              exact List.mem_map_of_mem Node.id (findNode_some hfn').1
            rcases findNode_isSome_of_mem hm with ⟨m, hm'⟩
            rw [(findNode_some hfn').2] at hm'
            rw [h1] at hm'
            cases hm'
          · obtain ⟨n2, hf2, _, _, _, _, _, hany2, _⟩ :=
              hnode2 c'.target_id n1 h1
            have hn2 : n2 = n' := by
              rw [hfn'] at hf2
              injection hf2.symm
            subst hn2
            rcases hany2 c'.target_input_key with h2 | h2
            · exact h2.trans (hslot1 n1 h1)
            · exact h2
        · exact hslot2 c' hin n' hfn'

/-- C8 (amended): on a well-formed project (unique block ids, outgoing
lists registering each connector once under its own source block and
key) whose removed block is not its own source, `remove_block` deletes
the block from the map, deletes every connector *registered* in the
removed block's input slots from its source block's outgoing list,
clears the target slot of every connector in the removed block's
outgoing lists, and leaves every other block's identity, ports, outgoing
connectors not so registered (the fan-out case `A→B`, `A→C` removing `B`
included) and input slots not so targeted unchanged.  A connector that
was *displaced* from the removed block's slot by a later `connect` is
not registered there and is not cleaned up (see the counterexample). -/
theorem c8_remove_block_cleanup_amended
    (p : Project) (block_id : String) (block : Node)
    (hfind : findNode p.blocks block_id = Option.some block)
    (hnd : (heapIds p.blocks).Nodup)
    (hwf : OutWF p.blocks)
    (hnoself : ∀ kv ∈ block.input_connectors, ∀ c, kv.2 = Option.some c →
      c.source_id ≠ block_id) :
    block_id ∉ heapIds (remove_block p block_id).blocks ∧
    (∀ id, id ≠ block_id →
      (id ∈ heapIds (remove_block p block_id).blocks ↔
        id ∈ heapIds p.blocks)) ∧
    (∀ kv ∈ block.input_connectors, ∀ c, kv.2 = Option.some c →
      ∀ n' ∈ (remove_block p block_id).blocks, c ∉ n'.allConns) ∧
    (∀ c ∈ block.allConns, ∀ n',
      findNode (remove_block p block_id).blocks c.target_id =
        Option.some n' →
      dGet? n'.input_connectors c.target_input_key =
        Option.some Option.none) ∧
    (∀ id n, id ≠ block_id → findNode p.blocks id = Option.some n →
      ∃ n', findNode (remove_block p block_id).blocks id =
          Option.some n' ∧
        n'.id = n.id ∧ n'.name = n.name ∧ n'.inputs = n.inputs ∧
        n'.outputs = n.outputs ∧
        (∀ c', c' ∈ n'.allConns → c' ∈ n.allConns) ∧
        (∀ c', c' ∈ n.allConns →
          (∀ kv ∈ block.input_connectors, kv.2 ≠ Option.some c') →
          c' ∈ n'.allConns) ∧
        (∀ k, (∀ c ∈ block.allConns,
            ¬ (c.target_id = id ∧ c.target_input_key = k)) →
          dGet? n'.input_connectors k = dGet? n.input_connectors k)) := by
  obtain ⟨hids1, hwf1, hnode1, hunt1, hgone1⟩ :=
    foldDisconnect_spec block.input_connectors p.blocks hnd hwf
  have hb1 : findNode (block.input_connectors.foldl disconnectInput
      p.blocks) block_id = Option.some block :=
    hunt1 block_id block hfind hnoself
  obtain ⟨hids2, hnode2, hslot2⟩ :=
    foldClear_spec block.allConns
      (block.input_connectors.foldl disconnectInput p.blocks)
  have hidsF : heapIds (block.allConns.foldl clearTargetSlot
      (block.input_connectors.foldl disconnectInput p.blocks)) =
      heapIds p.blocks := hids2.trans hids1
  have hndF : (heapIds (block.allConns.foldl clearTargetSlot
      (block.input_connectors.foldl disconnectInput p.blocks))).Nodup := by
    rw [hidsF]
    exact hnd
  have hrb : (remove_block p block_id).blocks =
      (block.allConns.foldl clearTargetSlot
        (block.input_connectors.foldl disconnectInput p.blocks)).eraseP
        (fun b => b.id = block_id) := by
    unfold remove_block
    rw [hfind]
    dsimp only
    rw [hb1]
    rfl
  rw [hrb]
  refine ⟨heapIds_eraseP_not_mem hndF, ?_, ?_, ?_, ?_⟩
  · intro id hne
    rw [heapIds_eraseP_mem hne, hidsF]
  · intro kv hkv c hc n' hn' hcc
    have hn'2 := mem_of_mem_eraseP_heap hn'
    have hfn' := findNode_of_mem_nodup hndF hn'2
    have hmem1 : n'.id ∈ heapIds (block.input_connectors.foldl
        disconnectInput p.blocks) := by
      rw [← hids2]
      exact List.mem_map_of_mem Node.id hn'2
    rcases findNode_isSome_of_mem hmem1 with ⟨m, hm⟩
    obtain ⟨n2, hf2, _, _, _, _, hoc2, _, _⟩ := hnode2 n'.id m hm
    have hn2 : n2 = n' := by
      rw [hfn'] at hf2
      injection hf2.symm
    rw [← hn2] at hcc
    have hac : n2.allConns = m.allConns := by
      unfold Node.allConns
      rw [hoc2]
    rw [hac] at hcc
    exact hgone1 kv hkv c hc m (findNode_some hm).1 hcc
  · intro c hcall n' hfn'
    by_cases hct : c.target_id = block_id
    · exfalso
      rw [hct] at hfn'
      rw [findNode_eq_none (heapIds_eraseP_not_mem hndF)] at hfn'
      cases hfn'
    · rw [findNode_eraseP hct] at hfn'
      exact hslot2 c hcall n' hfn'
  · intro id n hne hfn
    obtain ⟨n1, hf1, hid1, hname1, hin1, hout1, hic1, hkeys1, hshrink1,
      hkeep1⟩ := hnode1 id n hfn
    obtain ⟨n2, hf2, hid2, hname2, hin2, hout2, hoc2, hany2, hkeep2⟩ :=
      hnode2 id n1 hf1
    have hac : n2.allConns = n1.allConns := by
      unfold Node.allConns
      rw [hoc2]
    refine ⟨n2, ?_, hid2.trans hid1, hname2.trans hname1, hin2.trans hin1,
      hout2.trans hout1, ?_, ?_, ?_⟩
    · rw [findNode_eraseP hne]
      exact hf2
    · intro c' hc'
      exact hshrink1 c' (hac ▸ hc')
    · intro c' hc' hnk
      rw [hac]
      exact hkeep1 c' hc' hnk
    · intro k hk
      rw [hkeep2 k hk, hic1]

/-- C8 (amended) instantiated on the displaced-edge project: removing
`T` deletes `T`, strips the registered `exConnBT` from `B2`'s outgoing
list, would clear targeted slots (`T` has no outgoing connectors), and
leaves `A`'s ports and untargeted slots intact. -/
theorem c8_remove_block_cleanup_amended_witness :
    "T" ∉ heapIds (remove_block exProjDisplaced "T").blocks ∧
    (∀ id, id ≠ "T" →
      (id ∈ heapIds (remove_block exProjDisplaced "T").blocks ↔
        id ∈ heapIds exProjDisplaced.blocks)) ∧
    (∀ kv ∈ ({ exT with input_connectors := [("i", Option.some exConnBT)] } : Node).input_connectors,
      ∀ c, kv.2 = Option.some c →
      ∀ n' ∈ (remove_block exProjDisplaced "T").blocks, c ∉ n'.allConns) ∧
    (∀ c ∈ ({ exT with input_connectors := [("i", Option.some exConnBT)] } : Node).allConns,
      ∀ n', findNode (remove_block exProjDisplaced "T").blocks c.target_id =
        Option.some n' →
      dGet? n'.input_connectors c.target_input_key =
        Option.some Option.none) ∧
    (∀ id n, id ≠ "T" →
      findNode exProjDisplaced.blocks id = Option.some n →
      ∃ n', findNode (remove_block exProjDisplaced "T").blocks id =
          Option.some n' ∧
        n'.id = n.id ∧ n'.name = n.name ∧ n'.inputs = n.inputs ∧
        n'.outputs = n.outputs ∧
        (∀ c', c' ∈ n'.allConns → c' ∈ n.allConns) ∧
        (∀ c', c' ∈ n.allConns →
          (∀ kv ∈ ({ exT with input_connectors := [("i", Option.some exConnBT)] } : Node).input_connectors,
            kv.2 ≠ Option.some c') →
          c' ∈ n'.allConns) ∧
        (∀ k, (∀ c ∈ ({ exT with input_connectors := [("i", Option.some exConnBT)] } : Node).allConns,
            ¬ (c.target_id = id ∧ c.target_input_key = k)) →
          dGet? n'.input_connectors k = dGet? n.input_connectors k)) :=
  c8_remove_block_cleanup_amended exProjDisplaced "T"
    { exT with input_connectors := [("i", Option.some exConnBT)] }
    (by decide) (by decide)
    (by
      unfold OutWF
      decide)
    (by decide)

/-! ## C7 — `connect`: error condition and success shape, amended -/

/-- C7 (amended): on a heap holding distinct source and target blocks
whose `output_connectors` dict has the output key (the state
`register_output` always establishes), `connect` raises exactly when the
output key is absent from the source's `outputs` or the input key is
absent from the target's `inputs`; on success it appends the fresh
connector to the source's outgoing list for that key (preserving the
existing entries), overwrites the target's input slot with it — last
connect wins — leaves every other key of both blocks and every other
block untouched, and in particular a displaced prior connector is only
unhooked from the target's slot: it survives in its own source block's
outgoing list. -/
theorem c7_connect_error_iff_and_append_amended
    (heap : Heap) (source target : Node)
    (source_id target_id output_key input_key : String) (cid : Nat)
    (l : List Conn)
    (hs : findNode heap source_id = Option.some source)
    (ht : findNode heap target_id = Option.some target)
    (hneq : source_id ≠ target_id)
    (hl : dGet? source.output_connectors output_key = Option.some l) :
    ((∃ e, connect heap source_id output_key target_id input_key cid =
        Except.error e) ↔
      (dHas source.outputs output_key = false ∨
        dHas target.inputs input_key = false)) ∧
    (dHas source.outputs output_key = true →
      dHas target.inputs input_key = true →
      ∃ heap', connect heap source_id output_key target_id input_key cid =
          Except.ok heap' ∧
        (∃ src', findNode heap' source_id = Option.some src' ∧
          dGet? src'.output_connectors output_key =
            Option.some (l ++ [⟨source_id, output_key, target_id, input_key, cid⟩]) ∧
          src'.inputs = source.inputs ∧ src'.outputs = source.outputs ∧
          src'.input_connectors = source.input_connectors ∧
          ∀ k, k ≠ output_key →
            dGet? src'.output_connectors k = dGet? source.output_connectors k) ∧
        (∃ tgt', findNode heap' target_id = Option.some tgt' ∧
          dGet? tgt'.input_connectors input_key =
            Option.some (Option.some ⟨source_id, output_key, target_id, input_key, cid⟩) ∧
          tgt'.outputs = target.outputs ∧
          tgt'.output_connectors = target.output_connectors ∧
          ∀ k, k ≠ input_key →
            dGet? tgt'.input_connectors k = dGet? target.input_connectors k) ∧
        (∀ id, id ≠ source_id → id ≠ target_id →
          findNode heap' id = findNode heap id) ∧
        (∀ c0, dGet? target.input_connectors input_key =
            Option.some (Option.some c0) →
          c0.source_id ≠ source_id → c0.source_id ≠ target_id →
          ∀ n0, findNode heap c0.source_id = Option.some n0 →
            c0 ∈ n0.allConns →
            ∃ n1, findNode heap' c0.source_id = Option.some n1 ∧
              c0 ∈ n1.allConns)) := by
  obtain ⟨hsmem, hsid⟩ := findNode_some hs
  obtain ⟨htmem, htid⟩ := findNode_some ht
  have hsucc : dHas source.outputs output_key = true →
      dHas target.inputs input_key = true →
      ∃ heap', connect heap source_id output_key target_id input_key cid =
          Except.ok heap' ∧
        (∃ src', findNode heap' source_id = Option.some src' ∧
          dGet? src'.output_connectors output_key =
            Option.some (l ++ [⟨source_id, output_key, target_id, input_key, cid⟩]) ∧
          src'.inputs = source.inputs ∧ src'.outputs = source.outputs ∧
          src'.input_connectors = source.input_connectors ∧
          ∀ k, k ≠ output_key →
            dGet? src'.output_connectors k = dGet? source.output_connectors k) ∧
        (∃ tgt', findNode heap' target_id = Option.some tgt' ∧
          dGet? tgt'.input_connectors input_key =
            Option.some (Option.some ⟨source_id, output_key, target_id, input_key, cid⟩) ∧
          tgt'.outputs = target.outputs ∧
          tgt'.output_connectors = target.output_connectors ∧
          ∀ k, k ≠ input_key →
            dGet? tgt'.input_connectors k = dGet? target.input_connectors k) ∧
        (∀ id, id ≠ source_id → id ≠ target_id →
          findNode heap' id = findNode heap id) ∧
        (∀ c0, dGet? target.input_connectors input_key =
            Option.some (Option.some c0) →
          c0.source_id ≠ source_id → c0.source_id ≠ target_id →
          ∀ n0, findNode heap c0.source_id = Option.some n0 →
            c0 ∈ n0.allConns →
            ∃ n1, findNode heap' c0.source_id = Option.some n1 ∧
              c0 ∈ n1.allConns) := by
    intro ho hi
    set conn : Conn := ⟨source_id, output_key, target_id, input_key, cid⟩
      with hconn
    set outc : Dict (List Conn) :=
      dSet source.output_connectors output_key (l ++ [conn]) with houtc
    set inc : Dict (Option Conn) :=
      dSet target.input_connectors input_key (Option.some conn) with hinc
    set src' : Node := { source with output_connectors := outc } with hsrc'
    set tgt' : Node := { target with input_connectors := inc } with htgt'
    have hsrcid : src'.id = source_id := by rw [hsrc']; exact hsid
    have htgtid : tgt'.id = target_id := by rw [htgt']; exact htid
    have hft1 : findNode (updateNode heap src') target_id =
        Option.some target := by
      rw [findNode_updateNode, ht]
      have : ¬ (target.id = src'.id) := by
        rw [htid, hsrcid]
        exact fun e => hneq e.symm
      simp [this]
    have hok : connect heap source_id output_key target_id input_key cid =
        Except.ok (updateNode (updateNode heap src') tgt') := by
      unfold connect
      rw [hs, ht]
      dsimp only
      rw [if_neg (by simp [ho]), if_neg (by simp [hi]), hl]
      dsimp only
      rw [hft1]
    refine ⟨updateNode (updateNode heap src') tgt', hok, ?_, ?_, ?_, ?_⟩
    · refine ⟨src', ?_, ?_, rfl, rfl, rfl, ?_⟩
      · rw [findNode_updateNode, findNode_updateNode, hs]
        have h1 : source.id = src'.id := rfl
        have h2 : ¬ (src'.id = tgt'.id) := by
          rw [hsrcid, htgtid]
          exact hneq
        dsimp only [Option.map]
        rw [if_pos h1]
        rw [if_neg h2]
      · rw [hsrc', houtc]
        exact dGet?_dSet_self source.output_connectors output_key _
      · intro k hk
        rw [hsrc', houtc]
        exact dGet?_dSet_ne source.output_connectors output_key k _ hk
    · refine ⟨tgt', ?_, ?_, rfl, rfl, ?_⟩
      · rw [findNode_updateNode, hft1]
        have h1 : target.id = tgt'.id := rfl
        dsimp only [Option.map]
        rw [if_pos h1]
      · rw [htgt', hinc]
        exact dGet?_dSet_self target.input_connectors input_key _
      · intro k hk
        rw [htgt', hinc]
        exact dGet?_dSet_ne target.input_connectors input_key k _ hk
    · intro id hid1 hid2
      rw [findNode_updateNode, findNode_updateNode]
      rcases hfid : findNode heap id with _ | m
      · rfl
      · obtain ⟨_, hmid⟩ := findNode_some hfid
        have h1 : ¬ (m.id = src'.id) := by rw [hmid, hsrcid]; exact hid1
        have h2 : ¬ (m.id = tgt'.id) := by rw [hmid, htgtid]; exact hid2
        simp [h1, h2]
    · intro c0 _ hc1 hc2 n0 hn0 hc0mem
      refine ⟨n0, ?_, hc0mem⟩
      rw [findNode_updateNode, findNode_updateNode, hn0]
      obtain ⟨_, hn0id⟩ := findNode_some hn0
      have h1 : ¬ (n0.id = src'.id) := by rw [hn0id, hsrcid]; exact hc1
      have h2 : ¬ (n0.id = tgt'.id) := by rw [hn0id, htgtid]; exact hc2
      simp [h1, h2]
  refine ⟨?_, hsucc⟩
  constructor
  · rintro ⟨e, he⟩
    by_cases ho : dHas source.outputs output_key
    · by_cases hi : dHas target.inputs input_key
      · rcases hsucc ho hi with ⟨heap', hok, _⟩
        rw [he] at hok
        cases hok
      · exact Or.inr (by simpa using hi)
    · exact Or.inl (by simpa using ho)
  · rintro (h | h)
    · refine ⟨"Output '" ++ output_key ++ "' not found in block '" ++ source.name ++ "'", ?_⟩
      unfold connect
      rw [hs, ht]
      dsimp only
      rw [if_pos (by simp [h])]
    · by_cases ho : dHas source.outputs output_key
      · refine ⟨"Input '" ++ input_key ++ "' not found in target block '" ++ target.name ++ "'", ?_⟩
        unfold connect
        rw [hs, ht]
        dsimp only
        rw [if_neg (by simp [ho]), if_pos (by simp [h])]
      · refine ⟨"Output '" ++ output_key ++ "' not found in block '" ++ source.name ++ "'", ?_⟩
        unfold connect
        rw [hs, ht]
        dsimp only
        rw [if_pos (by simp at ho ⊢; exact ho)]

/-- C7 (amended) instantiated on the displaced-edge scenario: with
`A.o → T.i` already wired (`T`'s slot holds `exConnAT`), connecting
`B2.o → T.i` succeeds, appends `exConnBT` to `B2`'s list, overwrites
`T`'s slot, and leaves the displaced `exConnAT` in `A`'s outgoing
list. -/
theorem c7_connect_error_iff_and_append_amended_witness :
    ((∃ e, connect
        [{ exA with output_connectors := [("o", [exConnAT])] }, exB2,
          { exT with input_connectors := [("i", Option.some exConnAT)] }]
        "B2" "o" "T" "i" 1 = Except.error e) ↔
      (dHas exB2.outputs "o" = false ∨
        dHas ({ exT with input_connectors :=
          [("i", Option.some exConnAT)] } : Node).inputs "i" = false)) ∧
    (dHas exB2.outputs "o" = true →
      dHas ({ exT with input_connectors :=
        [("i", Option.some exConnAT)] } : Node).inputs "i" = true →
      ∃ heap', connect
          [{ exA with output_connectors := [("o", [exConnAT])] }, exB2,
            { exT with input_connectors := [("i", Option.some exConnAT)] }]
          "B2" "o" "T" "i" 1 = Except.ok heap' ∧
        (∃ src', findNode heap' "B2" = Option.some src' ∧
          dGet? src'.output_connectors "o" =
            Option.some ([] ++ [⟨"B2", "o", "T", "i", 1⟩]) ∧
          src'.inputs = exB2.inputs ∧ src'.outputs = exB2.outputs ∧
          src'.input_connectors = exB2.input_connectors ∧
          ∀ k, k ≠ "o" →
            dGet? src'.output_connectors k =
              dGet? exB2.output_connectors k) ∧
        (∃ tgt', findNode heap' "T" = Option.some tgt' ∧
          dGet? tgt'.input_connectors "i" =
            Option.some (Option.some ⟨"B2", "o", "T", "i", 1⟩) ∧
          tgt'.outputs = ({ exT with input_connectors :=
            [("i", Option.some exConnAT)] } : Node).outputs ∧
          tgt'.output_connectors = ({ exT with input_connectors :=
            [("i", Option.some exConnAT)] } : Node).output_connectors ∧
          ∀ k, k ≠ "i" →
            dGet? tgt'.input_connectors k =
              dGet? ({ exT with input_connectors :=
                [("i", Option.some exConnAT)] } : Node).input_connectors k) ∧
        (∀ id, id ≠ "B2" → id ≠ "T" →
          findNode heap' id = findNode
            [{ exA with output_connectors := [("o", [exConnAT])] }, exB2,
              { exT with input_connectors := [("i", Option.some exConnAT)] }]
            id) ∧
        (∀ c0, dGet? ({ exT with input_connectors :=
            [("i", Option.some exConnAT)] } : Node).input_connectors "i" =
            Option.some (Option.some c0) →
          c0.source_id ≠ "B2" → c0.source_id ≠ "T" →
          ∀ n0, findNode
              [{ exA with output_connectors := [("o", [exConnAT])] }, exB2,
                { exT with input_connectors := [("i", Option.some exConnAT)] }]
              c0.source_id = Option.some n0 →
            c0 ∈ n0.allConns →
            ∃ n1, findNode heap' c0.source_id = Option.some n1 ∧
              c0 ∈ n1.allConns)) :=
  c7_connect_error_iff_and_append_amended
    [{ exA with output_connectors := [("o", [exConnAT])] }, exB2,
      { exT with input_connectors := [("i", Option.some exConnAT)] }]
    exB2 { exT with input_connectors := [("i", Option.some exConnAT)] }
    "B2" "T" "o" "i" 1 [] (by decide) (by decide) (by decide) (by decide)

/-- C1 instantiated on the two-block chain `Greeter → B` started at
`Greeter`, with rank `g ↦ 0`, `b ↦ 1`. -/
theorem c1_execute_graph_topological_order_witness :
    ∃ events,
      execute_graph dispatchExecute [exGreeter] [exGreeter, exTemplated] =
        Option.some events ∧
      (startIds events).Nodup ∧
      (∀ id, id ∈ startIds events ↔
        ∃ s ∈ [exGreeter], Reaches [exGreeter, exTemplated] s.id id) ∧
      (∀ u v, connEdge [exGreeter, exTemplated] u v → u ∈ startIds events →
        v ∈ startIds events →
        (startIds events).indexOf u < (startIds events).indexOf v) :=
  c1_execute_graph_topological_order dispatchExecute [exGreeter]
    [exGreeter, exTemplated] (fun id => if id = "g" then 0 else 1)
    (by decide) (by decide) (by decide) (by decide)

/-- C2 instantiated on a heap holding the start block `l` and an
unconnected block `T`: no event carries `T`'s id. -/
theorem c2_unreachable_block_never_in_stream_witness :
    ∃ events,
      execute_graph dispatchExecute [exDivide] [exDivide, exT] =
        Option.some events ∧
      ∀ ev ∈ events, eventId ev ≠ Option.some "T" :=
  c2_unreachable_block_never_in_stream dispatchExecute [exDivide]
    [exDivide, exT] "T" (by decide) (by decide) (by decide)
    (by
      intro s hs hr
      have hse : s = exDivide := by simpa using hs
      subst hse
      have h := reaches_of_no_conns (by decide) hr
      exact absurd h (by decide))

/-- C3 instantiated on the chain `w → d` where `w`'s execution raises
`RuntimeError: boom`: the error event appears, the dependent `d` still
executes, and the stream completes. -/
theorem c3_error_reported_and_run_continues_witness :
    ∃ events,
      execute_graph exFailExec [exFailW] [exFailW, exDepD] =
        Option.some events ∧
      Event.error "w" "Waiter" "RuntimeError: boom" ∈ events ∧
      (∀ v, connEdge [exFailW, exDepD] "w" v → v ∈ startIds events) ∧
      (∀ id, id ∈ startIds events ↔
        ∃ s ∈ [exFailW], Reaches [exFailW, exDepD] s.id id) ∧
      (∃ pre, events = pre ++ [Event.complete] ∧ Event.complete ∉ pre) :=
  c3_error_reported_and_run_continues exFailExec [exFailW] [exFailW, exDepD]
    (fun id => if id = "w" then 0 else 1) "w" "Waiter" "RuntimeError: boom"
    (by decide) (by decide) (by decide) (by decide)
    (by
      intro n h
      simp [exFailExec, h])
    ⟨exFailW, by decide, Relation.ReflTransGen.refl⟩
    rfl

/-- C10 instantiated on the cyclic heap `s → x → y → x` started at `s`:
the cycle `x → y → x` really is a cycle, the run still returns and ends
in `complete`, and no event carries a cycle block's id. -/
theorem c10_execute_graph_terminates_skips_cycles_witness :
    Relation.TransGen (connEdge exCycHeap) "x" "x" ∧
    ∃ events,
      execute_graph dispatchExecute [exCycS] exCycHeap = Option.some events ∧
      (∃ pre, events = pre ++ [Event.complete] ∧ Event.complete ∉ pre) ∧
      (∀ b, Relation.TransGen (connEdge exCycHeap) b b →
        ∀ ev ∈ events, eventId ev ≠ Option.some b) :=
  ⟨Relation.TransGen.head ⟨exCycX, by decide, rfl, exConnXY, by decide, rfl⟩
      (Relation.TransGen.single
        ⟨exCycY, by decide, rfl, exConnYX, by decide, rfl⟩),
    c10_execute_graph_terminates_skips_cycles dispatchExecute [exCycS]
      exCycHeap (by decide) (by decide) (by decide)⟩

end Proto
